import Mathlib

/-!
The text codec of the aterm library (`libraries/atermpp/source/aterm_io_text.cpp`).

A shallow embedding of `text_aterm_output` (term to text) and `text_aterm_input`
(text to term).  Characters are `Char`, a `std::string` is a `List Char`, an `int`
holding a character or `EOF` is an `Option Char` (`none` is `EOF`), the output stream is
the list of characters written so far and the input stream is the list of characters not
yet read.  Loops whose number of iterations is not bounded by a data structure carry a
fuel argument; running out of fuel is the outcome `out_of_fuel`.
-/

namespace atermpp

/-! ## Terms -/

/-- The three disjoint variants of a term.  An integer term holds a `std::size_t`
(the parser builds it with `aterm_int(static_cast<std::size_t>(...))`), a list term holds
its elements in iteration order, an application term holds the name of its function
symbol and its arguments; the arity of the symbol is the number of arguments. -/
inductive aterm where
  | int (value : Nat)
  | list (elements : List aterm)
  | appl (name : List Char) (arguments : List aterm)

mutual
/-- Equality of terms is decidable (in the library it is a comparison of addresses). -/
def aterm.decEq : (a b : aterm) → Decidable (a = b)
  | .int v, .int w =>
    if h : v = w then isTrue (by rw [h]) else isFalse (by intro e; injection e; contradiction)
  | .list l, .list m =>
    match aterm.decEqList l m with
    | isTrue h => isTrue (by rw [h])
    | isFalse h => isFalse (by intro e; injection e; contradiction)
  | .appl n l, .appl k m =>
    if hn : n = k then
      match aterm.decEqList l m with
      | isTrue h => isTrue (by rw [h, hn])
      | isFalse h => isFalse (by intro e; injection e; contradiction)
    else isFalse (by intro e; injection e; contradiction)
  | .int _, .list _ => isFalse (by intro e; cases e)
  | .int _, .appl _ _ => isFalse (by intro e; cases e)
  | .list _, .int _ => isFalse (by intro e; cases e)
  | .list _, .appl _ _ => isFalse (by intro e; cases e)
  | .appl _ _, .int _ => isFalse (by intro e; cases e)
  | .appl _ _, .list _ => isFalse (by intro e; cases e)
/-- Equality of lists of terms is decidable. -/
def aterm.decEqList : (a b : List aterm) → Decidable (a = b)
  | [], [] => isTrue rfl
  | [], _ :: _ => isFalse (by intro e; cases e)
  | _ :: _, [] => isFalse (by intro e; cases e)
  | x :: xs, y :: ys =>
    match aterm.decEq x y with
    | isTrue h =>
      match aterm.decEqList xs ys with
      | isTrue h2 => isTrue (by rw [h, h2])
      | isFalse h2 => isFalse (by intro e; injection e; contradiction)
    | isFalse h => isFalse (by intro e; injection e; contradiction)
end

instance : DecidableEq aterm := aterm.decEq

/-- An `aterm_appl` on its own: the name of the function symbol and the arguments. -/
abbrev aterm_appl := List Char × List aterm

/-- The type `aterm_appl(const aterm_appl&)` of the functions applied to every
application node while writing and while reading. -/
abbrev aterm_transformer := aterm_appl → aterm_appl

/-- The default transformer. -/
def identity : aterm_transformer := fun x => x

/-- Number of bits of `std::size_t` and of `long`. -/
def word_bits : Nat := 64

/-! ## Character classes of the C library -/

/-- `isdigit` of `<cctype>` on an `int`: the decimal digits; `EOF` is no digit. -/
def isdigit : Option Char → Bool
  | some c => decide ('0' ≤ c ∧ c ≤ '9')
  | none => false

/-- `isspace` of `<cctype>` on an `int` in the "C" locale: space, `\t`, `\n`, `\v`,
`\f` and `\r`; `EOF` is no whitespace. -/
def isspace : Option Char → Bool
  | some c => decide (c = ' ' ∨ c = '\t' ∨ c = '\n' ∨ c = '\x0b' ∨ c = '\x0c' ∨ c = '\r')
  | none => false

/-- `static_cast<char>(character)` for an `int`: `EOF` is `-1`, the byte `0xFF`. -/
def static_cast_char : Option Char → Char
  | some c => c
  | none => Char.ofNat 255

/-! ## Output -/

/-- The condition of the first loop of `write_string_with_escape_symbols`. -/
def is_special_symbol (i : Char) : Bool :=
  decide (i = '\\' ∨ i = '"' ∨ i = '(' ∨ i = ')' ∨ i = '[' ∨ i = ']' ∨ i = ',' ∨ i = ' '
    ∨ i = '\n' ∨ i = '\t' ∨ i = '\r')

/-- The first loop of `write_string_with_escape_symbols`:
`for (i = s.begin(); !contains_special_symbols && i != s.end(); ++i)`. -/
def scan_special_symbols : Bool → List Char → Bool
  | true, _ => true
  | false, [] => false
  | false, i :: rest => scan_special_symbols (if is_special_symbol i then true else false) rest

/-- The second loop of `write_string_with_escape_symbols`: the `switch` on every
character of the name. -/
def write_escaped : List Char → List Char → List Char
  | [], os => os
  | i :: rest, os =>
    if i = '\\' ∨ i = '"' then write_escaped rest (os ++ ['\\'] ++ [i])
    else if i = '\n' then write_escaped rest (os ++ ['\\', 'n'])
    else if i = '\t' then write_escaped rest (os ++ ['\\', 't'])
    else if i = '\r' then write_escaped rest (os ++ ['\\', 'r'])
    else write_escaped rest (os ++ [i])

/-- The function `write_string_with_escape_symbols(s, os)`; the result is the stream after
the call.  `s[0]` of an empty `std::string` is the NUL character. -/
def write_string_with_escape_symbols (s : List Char) (os : List Char) : List Char :=
  let c := s.getD 0 '\x00'
  let contains_special_symbols := decide (c = '-') || isdigit (some c)
  let contains_special_symbols := scan_special_symbols contains_special_symbols s
  if contains_special_symbols then
    write_escaped s (os ++ ['"']) ++ ['"']
  else
    os ++ s

/-- A loop that writes the terms `ts` with `write`, a comma before each of them except
before the first when `first` holds: the `for` loop over a list (`first` is
`it == list.begin()`) and, with `first` false, the loop over the arguments `1 .. arity-1`
of an application. -/
def write_term_lines (write : aterm → List Char → Option (List Char)) :
    Bool → List aterm → List Char → Option (List Char)
  | _, [], os => some os
  | first, t :: rest, os =>
    match write t (if first then os else os ++ [',']) with
    | some os => write_term_lines write false rest os
    | none => none

/-- The method `text_aterm_output::write_term_line(t)`; the stream is passed along and
an integer is written in decimal, as `operator<<` of an `std::ostream` does for a
`std::size_t`.  The recursion follows the children of the transformed node, so it is
bounded by fuel: `none` is fuel exhausted. -/
def write_term_line (m_transformer : aterm_transformer) :
    Nat → aterm → List Char → Option (List Char)
  | 0, _, _ => none
  | _ + 1, aterm.int value, m_stream => some (m_stream ++ Nat.toDigits 10 value)
  | fuel + 1, aterm.list list, m_stream =>
    match write_term_lines (write_term_line m_transformer fuel) true list (m_stream ++ ['[']) with
    | some m_stream => some (m_stream ++ [']'])
    | none => none
  | fuel + 1, aterm.appl name arguments, m_stream =>
    let appl := m_transformer (name, arguments)
    let m_stream := write_string_with_escape_symbols appl.1 m_stream
    match appl.2 with
    | [] => some m_stream
    | appl_0 :: appl_rest =>
      match write_term_line m_transformer fuel appl_0 (m_stream ++ ['(']) with
      | some m_stream =>
        match write_term_lines (write_term_line m_transformer fuel) false appl_rest m_stream with
        | some m_stream => some (m_stream ++ [')'])
        | none => none
      | none => none

/-- The state of a `text_aterm_output`: the stream and the newline option. -/
structure text_aterm_output where
  m_stream : List Char
  m_newline : Bool

/-- The operator `text_aterm_output::operator<<(term)`. -/
def text_aterm_output.write (m_transformer : aterm_transformer) (fuel : Nat)
    (self : text_aterm_output) (term : aterm) : Option text_aterm_output :=
  match write_term_line m_transformer fuel term self.m_stream with
  | some m_stream =>
    if self.m_newline then some { self with m_stream := m_stream ++ ['\n'] }
    else some { self with m_stream := m_stream }
  | none => none

/-! ## Input -/

/-- The state of a `text_aterm_input`: the characters of the stream that were not read
yet, the lookahead `character`, and the position and history kept for diagnostics. -/
structure text_aterm_input where
  m_stream : List Char
  character : Option Char
  m_line : Nat
  m_column : Nat
  m_history : List Char
  m_history_limit : Nat
deriving DecidableEq

/-- How a call on a `text_aterm_input` ends: it returns a value, it throws an
`atermpp::runtime_error` with the message `what` (the state at the throw is kept, the
handler in `get` reads it), it has undefined behaviour in C++ (a write past the end of the
number buffer, an `atol` whose result is not representable), or the fuel was exhausted. -/
inductive outcome (α : Type) where
  | ok (value : α) (self : text_aterm_input)
  | runtime_error (what : List Char) (self : text_aterm_input)
  | undefined_behaviour
  | out_of_fuel
deriving DecidableEq

/-- Sequencing: continue with `k` after a call that returned. -/
def outcome.bind {α β : Type} (r : outcome α) (k : α → text_aterm_input → outcome β) :
    outcome β :=
  match r with
  | outcome.ok value self => k value self
  | outcome.runtime_error what self => outcome.runtime_error what self
  | outcome.undefined_behaviour => outcome.undefined_behaviour
  | outcome.out_of_fuel => outcome.out_of_fuel

/-- The value a call returned, if it returned. -/
def outcome.value? {α : Type} : outcome α → Option α
  | outcome.ok value _ => some value
  | _ => none

/-- The `do ... while` loop of `next_char` over the unread characters `stream`.  The
stream is an `std::istream` without exception mask, so `m_stream.get()` does not throw. -/
def next_char_loop (skip_whitespace required : Bool) :
    List Char → text_aterm_input → outcome (Option Char)
  | [], self =>
    let self := { self with m_stream := [], character := none }
    if required then
      outcome.runtime_error "Premature end of file while parsing.".toList self
    else
      outcome.ok none self
  | c :: stream, self =>
    let self := { self with m_stream := stream, character := some c }
    let self := if c = '\n' then { self with m_line := self.m_line + 1, m_column := 0 }
      else { self with m_column := self.m_column + 1 }
    let self := if self.m_history.length ≥ self.m_history_limit
      then { self with m_history := self.m_history.tail } else self
    let self := { self with m_history := self.m_history ++ [c] }
    if isspace (some c) && skip_whitespace then
      next_char_loop skip_whitespace required stream self
    else
      outcome.ok (if c = '\n' then none else some c) self

/-- The method `text_aterm_input::next_char(skip_whitespace, required)`. -/
def next_char (skip_whitespace required : Bool) (self : text_aterm_input) :
    outcome (Option Char) :=
  next_char_loop skip_whitespace required self.m_stream { self with character := none }

/-- The statement `character = next_char(skip_whitespace, required);`. -/
def assign_next_char (skip_whitespace required : Bool) (self : text_aterm_input) :
    outcome Unit :=
  (next_char skip_whitespace required self).bind
    fun c self => outcome.ok () { self with character := c }

/-- Modelled from the spec: the default of the parameter `skip_whitespace` in the
declaration of `next_char` (the header `aterm_io_text.h` is not among the sources);
whitespace between tokens is skipped. -/
def default_skip_whitespace : Bool := true

/-- Modelled from the spec: the default of the parameter `required` in the declaration
of `next_char` (the header `aterm_io_text.h` is not among the sources); end of input where
a term may start is not an error. -/
def default_required : Bool := false

/-- The `while (character != '"')` loop of `parse_quoted_string`. -/
def parse_quoted_string_loop : Nat → List Char → text_aterm_input → outcome (List Char)
  | 0, _, _ => outcome.out_of_fuel
  | fuel + 1, string, self =>
    if self.character = some '"' then outcome.ok string self
    else if self.character = some '\\' then
      (assign_next_char false true self).bind fun _ self =>
        let string :=
          if self.character = some 'n' then string ++ ['\n']
          else if self.character = some 'r' then string ++ ['\r']
          else if self.character = some 't' then string ++ ['\t']
          else string ++ [static_cast_char self.character]
        (assign_next_char false true self).bind fun _ self =>
          parse_quoted_string_loop fuel string self
    else
      let string := string ++ [static_cast_char self.character]
      (assign_next_char false true self).bind fun _ self =>
        parse_quoted_string_loop fuel string self

/-- The method `text_aterm_input::parse_quoted_string(character)`.  Every iteration of
its loop reads a character, so the length of the stream bounds the iterations. -/
def parse_quoted_string (self : text_aterm_input) : outcome (List Char) :=
  (assign_next_char default_skip_whitespace default_required self).bind fun _ self =>
    (parse_quoted_string_loop (self.m_stream.length + 2) [] self).bind fun string self =>
      (assign_next_char true false self).bind fun _ self => outcome.ok string self

/-- The `while` loop of `parse_unquoted_string`. -/
def parse_unquoted_string_loop : Nat → List Char → text_aterm_input → outcome (List Char)
  | 0, _, _ => outcome.out_of_fuel
  | fuel + 1, string, self =>
    if self.character ≠ some '"' ∧ self.character ≠ some '(' ∧ self.character ≠ some ')'
        ∧ self.character ≠ some ']' ∧ self.character ≠ some ']' ∧ self.character ≠ some ','
        ∧ self.character ≠ some ' ' ∧ self.character ≠ some '\n'
        ∧ self.character ≠ some '\t' ∧ self.character ≠ some '\r'
        ∧ self.character ≠ none then
      let string := string ++ [static_cast_char self.character]
      (assign_next_char false default_required self).bind fun _ self =>
        parse_unquoted_string_loop fuel string self
    else outcome.ok string self

/-- The method `text_aterm_input::parse_unquoted_string(character)`.  Every iteration
of its loop reads a character, so the length of the stream bounds the iterations. -/
def parse_unquoted_string (self : text_aterm_input) : outcome (List Char) :=
  if self.character ≠ some '(' then
    parse_unquoted_string_loop (self.m_stream.length + 2) [] self
  else outcome.ok [] self

/-- The value of a run of decimal digits, as `atol` accumulates it. -/
def atol_digits : Int → List Char → Int
  | acc, [] => acc
  | acc, c :: rest =>
    if isdigit (some c) then atol_digits (acc * 10 + ((c.toNat - '0'.toNat : Nat) : Int)) rest
    else acc

/-- The function `atol` of the C library on the characters before the terminating NUL:
optional whitespace, an optional sign and the longest run of digits.  `none` when the
value is not representable in a `long`, where the behaviour is undefined. -/
def atol (nptr : List Char) : Option Int :=
  let s := nptr.dropWhile fun c => isspace (some c)
  let value : Int :=
    if s.head? = some '-' then - atol_digits 0 s.tail
    else if s.head? = some '+' then atol_digits 0 s.tail
    else atol_digits 0 s
  if - (2 : Int) ^ (word_bits - 1) ≤ value ∧ value < (2 : Int) ^ (word_bits - 1) then some value
  else none

/-- The loop `while (isdigit(character) && it != number.end())` of `parse_aterm_int`;
the first argument is `number.end() - it`, the room left in the buffer, and `number` is
what was written to the buffer so far. -/
def parse_aterm_int_loop : Nat → List Char → text_aterm_input → outcome (List Char)
  | 0, number, self => outcome.ok number self
  | room + 1, number, self =>
    if isdigit self.character then
      let number := number ++ [static_cast_char self.character]
      (assign_next_char default_skip_whitespace default_required self).bind fun _ self =>
        parse_aterm_int_loop room number self
    else outcome.ok number self

/-- The method `text_aterm_input::parse_aterm_int(character)` with its buffer of 32
characters.  The terminating NUL is written at index `number.length`; at index 32 that is
a write past the end of the buffer. -/
def parse_aterm_int (self : text_aterm_input) : outcome aterm :=
  let start : outcome (List Char) :=
    if self.character = some '-' then
      (assign_next_char true true self).bind fun _ self => outcome.ok ['-'] self
    else outcome.ok [] self
  start.bind fun number self =>
    (parse_aterm_int_loop (32 - number.length) number self).bind fun number self =>
      if number.length < 32 then
        match atol number with
        | some value => outcome.ok (aterm.int (value % 2 ^ word_bits).toNat) self
        | none => outcome.undefined_behaviour
      else outcome.undefined_behaviour

/-- The loop `while (character == ',')` of `parse_aterm_list`; `list` is in reverse
order, as `push_front` builds it. -/
def parse_aterm_list_loop (parse_aterm : text_aterm_input → outcome aterm) :
    Nat → List aterm → text_aterm_input → outcome (List aterm)
  | 0, _, _ => outcome.out_of_fuel
  | fuel + 1, list, self =>
    if self.character = some ',' then
      (assign_next_char true true self).bind fun _ self =>
        (parse_aterm self).bind fun t self =>
          parse_aterm_list_loop parse_aterm fuel (t :: list) self
    else outcome.ok list self

/-- The method `text_aterm_input::parse_aterm_list(character, begin, end)`; the
recursive call of `parse_aterm` is the argument `parse_aterm`. -/
def parse_aterm_list (parse_aterm : text_aterm_input → outcome aterm) (fuel : Nat)
    (self : text_aterm_input) (begin_ end_ : Char) : outcome (List aterm) :=
  if self.character = some begin_ then
    (assign_next_char true true self).bind fun _ self =>
      let elements : outcome (List aterm) :=
        if self.character ≠ some end_ then
          (parse_aterm self).bind fun t self =>
            (parse_aterm_list_loop parse_aterm fuel [t] self).bind fun list self =>
              if self.character ≠ some end_ then
                outcome.runtime_error
                  ("Missing ".toList ++ [end_] ++ " while parsing a list term".toList) self
              else outcome.ok list self
        else outcome.ok [] self
      elements.bind fun list self =>
        (assign_next_char true default_required self).bind fun _ self =>
          outcome.ok list.reverse self
  else outcome.ok [] self

/-- The method `text_aterm_input::parse_aterm_appl(function_name, character)`. -/
def parse_aterm_appl (m_transformer : aterm_transformer)
    (parse_aterm : text_aterm_input → outcome aterm) (fuel : Nat)
    (function_name : List Char) (self : text_aterm_input) : outcome aterm_appl :=
  (parse_aterm_list parse_aterm fuel self '(' ')').bind fun arguments self =>
    outcome.ok (m_transformer (function_name, arguments)) self

/-- The method `text_aterm_input::parse_aterm(character)`.  A nested term is parsed with
one unit of fuel less; a stream of `n` unread characters needs no more than `n + 1`
(`parse_aterm_within`). -/
def parse_aterm (m_transformer : aterm_transformer) : Nat → text_aterm_input → outcome aterm
  | 0, _ => outcome.out_of_fuel
  | fuel + 1, self =>
    if self.character = some '"' then
      (parse_quoted_string self).bind fun function_name self =>
        (parse_aterm_appl m_transformer (parse_aterm m_transformer fuel) fuel function_name
          self).bind fun appl self => outcome.ok (aterm.appl appl.1 appl.2) self
    else if self.character = some '[' then
      (parse_aterm_list (parse_aterm m_transformer fuel) fuel self '[' ']').bind
        fun list self => outcome.ok (aterm.list list) self
    else if isdigit self.character ∨ self.character = some '-' then
      parse_aterm_int self
    else
      (parse_unquoted_string self).bind fun function_symbol self =>
        (parse_aterm_appl m_transformer (parse_aterm m_transformer fuel) fuel function_symbol
          self).bind fun appl self => outcome.ok (aterm.appl appl.1 appl.2) self

/-- The method `text_aterm_input::print_parse_error_position()`. -/
def print_parse_error_position (self : text_aterm_input) : List Char :=
  "Error occurred at line ".toList ++ Nat.toDigits 10 self.m_line ++ ", col ".toList
    ++ Nat.toDigits 10 self.m_column ++ " near: ".toList ++ self.m_history

/-- The constructor `text_aterm_input(is, transformer)`: it reads the first lookahead.
The initial line and column and the history limit are initialised in the header, which
is not among the sources; they are arguments here. -/
def text_aterm_input.init (is : List Char) (m_line m_column m_history_limit : Nat) :
    outcome Unit :=
  assign_next_char default_skip_whitespace default_required
    { m_stream := is, character := none, m_line := m_line, m_column := m_column,
      m_history := [], m_history_limit := m_history_limit }

/-- The method `text_aterm_input::get()`; `none` is the default constructed `aterm()`,
the "no term" value. -/
def text_aterm_input.get (m_transformer : aterm_transformer) (fuel : Nat)
    (self : text_aterm_input) : outcome (Option aterm) :=
  if self.character ≠ none then
    match parse_aterm m_transformer fuel self with
    | outcome.ok t self => outcome.ok (some t) self
    | outcome.runtime_error what self =>
      outcome.runtime_error (what ++ "\n".toList ++ print_parse_error_position self) self
    | outcome.undefined_behaviour => outcome.undefined_behaviour
    | outcome.out_of_fuel => outcome.out_of_fuel
  else
    outcome.ok none { self with m_column := 0, m_history := [] }

/-- The function `read_term_from_text_stream(is)`: `text_aterm_input(is).get()` with the
default transformer.  A stream of `n` unread characters needs no more fuel than `n + 1`
(`read_term_from_text_stream_fuel`). -/
def read_term_from_text_stream (is : List Char) (m_line m_column m_history_limit : Nat) :
    outcome (Option aterm) :=
  (text_aterm_input.init is m_line m_column m_history_limit).bind fun _ self =>
    self.get identity (self.m_stream.length + 1)

/-- The function `read_term_from_string(s)`. -/
def read_term_from_string (s : List Char) (m_line m_column m_history_limit : Nat) :
    outcome (Option aterm) :=
  read_term_from_text_stream s m_line m_column m_history_limit

/-! ## Measures and texts of terms, used to state the results -/

mutual
/-- The number of nodes of a term; it bounds the fuel that writing and reading it need. -/
def aterm.size : aterm → Nat
  | .int _ => 1
  | .list l => aterm.sizeList l + 1
  | .appl _ l => aterm.sizeList l + 1
/-- The number of nodes of a list of terms. -/
def aterm.sizeList : List aterm → Nat
  | [] => 0
  | t :: ts => aterm.size t + aterm.sizeList ts
end

mutual
/-- The text of a term in the output grammar with the identity transform; it is what
`write_term_line` appends to the stream (`write_term_line_identity`). -/
def term_text : aterm → List Char
  | .int value => Nat.toDigits 10 value
  | .list l => ['['] ++ List.intercalate [','] (term_texts l) ++ [']']
  | .appl name l =>
    write_string_with_escape_symbols name [] ++
      if l.length > 0 then ['('] ++ List.intercalate [','] (term_texts l) ++ [')'] else []
/-- The texts of the terms of a list. -/
def term_texts : List aterm → List (List Char)
  | [] => []
  | t :: ts => term_text t :: term_texts ts
end

/-- A name that is read back as it was written: it is not empty and its first character
is none of space, vertical tab and form feed. -/
def readable_name (s : List Char) : Bool :=
  match s with
  | [] => false
  | c :: _ => decide (c ≠ ' ' ∧ c ≠ '\x0b' ∧ c ≠ '\x0c')

mutual
/-- A term that is read back as it was written: every symbol name is a `readable_name`
and every integer value is below `2 ^ 63`. -/
def aterm.readable : aterm → Bool
  | .int value => decide (value < 2 ^ (word_bits - 1))
  | .list l => aterm.readableList l
  | .appl name l => readable_name name && aterm.readableList l
/-- All terms of a list are readable. -/
def aterm.readableList : List aterm → Bool
  | [] => true
  | t :: ts => aterm.readable t && aterm.readableList ts
end

/-! ## Notions used to state the results -/

/-- The characters written for one character of a quoted name, in the words of the
escaping rule. -/
def escape_symbol (c : Char) : List Char :=
  if c = '\\' ∨ c = '"' then ['\\', c]
  else if c = '\n' then ['\\', 'n']
  else if c = '\t' then ['\\', 't']
  else if c = '\r' then ['\\', 'r']
  else [c]

/-- The character that `parse_quoted_string` appends for a backslash followed by `x`. -/
def unescape_symbol (x : Char) : Char :=
  if x = 'n' then '\n' else if x = 'r' then '\r' else if x = 't' then '\t' else x

/-- The quoting rule in the words of the specification: the first character is `-` or a
digit, or some character is one of the eleven special symbols. -/
def quoting_rule (s : List Char) : Prop :=
  (∃ c rest, s = c :: rest ∧ (c = '-' ∨ ('0' ≤ c ∧ c ≤ '9'))) ∨
  ∃ x ∈ s, x = '\\' ∨ x = '"' ∨ x = '(' ∨ x = ')' ∨ x = '[' ∨ x = ']' ∨ x = ',' ∨ x = ' '
    ∨ x = '\n' ∨ x = '\t' ∨ x = '\r'

/-- The flag `contains_special_symbols` of `write_string_with_escape_symbols` after the
first loop. -/
def contains_special_symbols (s : List Char) : Bool :=
  scan_special_symbols (decide (s.getD 0 '\x00' = '-') || isdigit (some (s.getD 0 '\x00'))) s

/-- The characters at which the loop of `parse_unquoted_string` stops. -/
def ends_unquoted_string (c : Char) : Bool :=
  decide (c = '"' ∨ c = '(' ∨ c = ')' ∨ c = ']' ∨ c = ',' ∨ c = ' ' ∨ c = '\n' ∨ c = '\t'
    ∨ c = '\r')

/-- The characters of an unquoted identifier: the first one starts neither a quoted
name, a list nor an integer, and none ends the loop of `parse_unquoted_string`. -/
def unquoted_identifier (f : List Char) : Prop :=
  (∃ c f', f = c :: f' ∧ c ≠ '[' ∧ isdigit (some c) = false ∧ c ≠ '-') ∧
  ∀ x ∈ f, ends_unquoted_string x = false

/-- The lookahead and the unread stream of `self` together are the text `l`: the
lookahead is the first character of `l` (end of input when `l` is empty) and the stream
holds the rest. -/
def positioned (self : text_aterm_input) (l : List Char) : Prop :=
  self.character = l.head? ∧ self.m_stream = l.tail

/-- The lookahead after a read without whitespace skipping from the stream `l`: a
newline counts as the end of the input. -/
def lookahead_of (l : List Char) : Option Char :=
  if l.head? = some '\n' then none else l.head?

/-- What may follow a token that is read up to its last character: nothing, or a
character that is no whitespace. -/
def no_space_ahead (rest : List Char) : Prop :=
  ∀ d, rest.head? = some d → isspace (some d) = false

/-- What may follow the text of a term: nothing, a comma or a closing bracket. -/
def delimited (rest : List Char) : Prop :=
  rest = [] ∨ ∃ d r, rest = d :: r ∧ (d = ',' ∨ d = ')' ∨ d = ']')

/-- What is left of `rest` after the read that follows a token: a newline that ends the
stream is consumed with the token. -/
def after_token (rest : List Char) : List Char :=
  if rest = ['\n'] then [] else rest

/-- The text `e` is a term text that `parse` reads as the term `t`: `e` starts with a
character that is no whitespace, comma or closing bracket, and wherever the lookahead and
the stream stand at `e` followed by the end of the input, a comma, a closing bracket or
a final newline, `parse` returns `t` and leaves the lookahead on what follows `e`. -/
def reads_as (parse : text_aterm_input → outcome aterm) (e : List Char) (t : aterm) : Prop :=
  (∃ c e', e = c :: e' ∧ isspace (some c) = false ∧ c ≠ ',' ∧ c ≠ ')' ∧ c ≠ ']') ∧
  ∀ self rest, delimited rest ∨ rest = ['\n'] → positioned self (e ++ rest) →
    ∃ self', parse self = outcome.ok t self' ∧ positioned self' (after_token rest)

/-- Reading a name back from a text: a `text_aterm_input` is constructed on the text and
the name is read as `parse_aterm` reads it, with `parse_quoted_string` when the lookahead
is a double quote and with `parse_unquoted_string` otherwise. -/
def read_name (text : List Char) (m_line m_column m_history_limit : Nat) :
    outcome (List Char) :=
  (text_aterm_input.init text m_line m_column m_history_limit).bind fun _ self =>
    if self.character = some '"' then parse_quoted_string self else parse_unquoted_string self

/-- The call did not run out of fuel and, if it returned, it left at most `n` characters
unread. -/
def outcome.within {α : Type} (r : outcome α) (n : Nat) : Prop :=
  match r with
  | outcome.ok _ self => self.m_stream.length ≤ n
  | outcome.runtime_error _ _ => True
  | outcome.undefined_behaviour => True
  | outcome.out_of_fuel => False

/-- A read from a stream of `n` characters did not run out of fuel and, if it returned,
it consumed a character unless it returned the end of the input, and it consumed a
character in any case when one was required. -/
def outcome.consumed (r : outcome (Option Char)) (required : Bool) (n : Nat) : Prop :=
  match r with
  | outcome.ok c self =>
    self.m_stream.length + (if c = none then 0 else 1) ≤ n
      ∧ (required = true → self.m_stream.length < n)
  | outcome.runtime_error _ _ => True
  | outcome.undefined_behaviour => True
  | outcome.out_of_fuel => False

/-- Modelled from the spec: the initial value of the line counter `m_line`, which the
header `aterm_io_text.h` initialises; an error on the first line of the input is
reported at line 1. -/
def initial_line : Nat := 1

/-- Modelled from the spec: the initial value of the column counter `m_column`, which
the header `aterm_io_text.h` initialises; the column is 0 where a line starts. -/
def initial_column : Nat := 0

/-- Two states of the reader that differ at most in the history and its limit: the unread
stream, the lookahead, the line and the column are the same. -/
def same_position (self self' : text_aterm_input) : Prop :=
  self.m_stream = self'.m_stream ∧ self.character = self'.character
    ∧ self.m_line = self'.m_line ∧ self.m_column = self'.m_column

/-- Two outcomes that differ at most in the history and its limit of the state. -/
def outcome.alike {α : Type} : outcome α → outcome α → Prop
  | outcome.ok value self, outcome.ok value' self' => value = value' ∧ same_position self self'
  | outcome.runtime_error what self, outcome.runtime_error what' self' =>
    what = what' ∧ same_position self self'
  | outcome.undefined_behaviour, outcome.undefined_behaviour => True
  | outcome.out_of_fuel, outcome.out_of_fuel => True
  | _, _ => False

/-- The result of a call with `f` applied to the value it returned. -/
def outcome.map {α β : Type} (f : α → β) : outcome α → outcome β
  | outcome.ok value self => outcome.ok (f value) self
  | outcome.runtime_error what self => outcome.runtime_error what self
  | outcome.undefined_behaviour => outcome.undefined_behaviour
  | outcome.out_of_fuel => outcome.out_of_fuel

mutual
/-- In the words of the specification of the input transform: the application nodes of a
term are replaced bottom-up by `g`, children first; each application is rebuilt from its
already transformed children and then passed to `g`; integer and list nodes are not
passed to `g`. -/
def bottom_up_replace (g : aterm_transformer) : aterm → aterm
  | .int value => .int value
  | .list l => .list (bottom_up_replace_list g l)
  | .appl name l => .appl (g (name, bottom_up_replace_list g l)).1
      (g (name, bottom_up_replace_list g l)).2
/-- The terms of a list with their application nodes replaced bottom-up by `g`. -/
def bottom_up_replace_list (g : aterm_transformer) : List aterm → List aterm
  | [] => []
  | t :: ts => bottom_up_replace g t :: bottom_up_replace_list g ts
end

/-- The state in which a call ended: the state at the return or at the throw. -/
def outcome.state? {α : Type} : outcome α → Option text_aterm_input
  | outcome.ok _ self => some self
  | outcome.runtime_error _ self => some self
  | outcome.undefined_behaviour => none
  | outcome.out_of_fuel => none

/-- A sequence of calls of `next_char`, each with its arguments `skip_whitespace` and
`required`; a call that throws leaves the state of the throw to the next call. -/
def next_chars : List (Bool × Bool) → text_aterm_input → text_aterm_input
  | [], self => self
  | call :: calls, self =>
    match (next_char call.1 call.2 self).state? with
    | some self => next_chars calls self
    | none => self

/-- The last `limit` of the consumed characters, all of them when they are fewer: what a
ring of `limit` characters retains. -/
def retained (limit : Nat) (consumed : List Char) : List Char :=
  consumed.drop (consumed.length - limit)

/-- The column after the characters `consumed`, counted from `column`: the number of
characters consumed since the last newline. -/
def column_of (column : Nat) (consumed : List Char) : Nat :=
  if '\n' ∈ consumed then (consumed.reverse.takeWhile fun c => decide (c ≠ '\n')).length
  else column + consumed.length

/-- The diagnostics of the state `self` follow the characters `consumed` since a state
with the empty history, the line `line` and the column `column`; the history does so when
its limit is at least 1. -/
def tracks (limit line column : Nat) (consumed : List Char) (self : text_aterm_input) :
    Prop :=
  self.m_history_limit = limit ∧ (1 ≤ limit → self.m_history = retained limit consumed)
    ∧ self.m_line = line + consumed.count '\n' ∧ self.m_column = column_of column consumed

/-- The function `load_aterm(stream, binary, format, source, transformer)` of
`mcrl2/core/load_aterm.h`.  The two codecs, `binary_aterm_input(stream, transformer) >>
result` and `text_aterm_input(stream, transformer) >> result`, are the parameters
`read_binary` and `read_text`: a codec returns a term (`none` is the default constructed
`aterm()`) or throws a `std::exception` whose `what()` is the message. -/
def load_aterm (read_binary read_text : List Char → aterm_transformer →
      Except (List Char) (Option aterm))
    (stream : List Char) (binary : Bool) (format source : List Char)
    (transformer : aterm_transformer) : Except (List Char) (Option aterm) :=
  match (if binary then read_binary stream transformer else read_text stream transformer) with
  | Except.ok result => Except.ok result
  | Except.error what =>
    if source = [] then
      Except.error ("Failed to read a valid ".toList ++ format ++ " from the input.\n".toList
        ++ what)
    else
      Except.error ("Failed to read a valid ".toList ++ format ++ " from the input ".toList
        ++ source ++ ".\n".toList ++ what)

/-- A function symbol: a name and an arity. -/
abbrev function_symbol := List Char × Nat

/-- The symbol `x.function()` of an application: its name, with the number of its
arguments as arity. -/
def function (x : aterm_appl) : function_symbol := (x.1, x.2.length)

/-- The term `aterm_appl(symbol, arguments)`; the arity of the symbol is the number of
the arguments. -/
def make_aterm_appl (symbol : function_symbol) (arguments : List aterm) : aterm_appl :=
  (symbol.1, arguments)

/-- The symbol `core::detail::function_symbol_DataVarId()`.  Its declaration is not among
the sources: the name is the one in the comments of `remove_index_impl` and
`add_index_impl`, the arity is the number of arguments with which `add_index_impl`
constructs the term. -/
def function_symbol_DataVarId : function_symbol := ("DataVarId".toList, 3)

/-- The symbol `core::detail::function_symbol_DataVarIdNoIndex()`, the symbol of
`DataVarId` without the index argument. -/
def function_symbol_DataVarIdNoIndex : function_symbol := ("DataVarIdNoIndex".toList, 2)

/-- The symbol `core::detail::function_symbol_OpId()`, of arity 3 like `DataVarId`. -/
def function_symbol_OpId : function_symbol := ("OpId".toList, 3)

/-- The symbol `core::detail::function_symbol_OpIdNoIndex()`, the symbol of `OpId`
without the index argument. -/
def function_symbol_OpIdNoIndex : function_symbol := ("OpIdNoIndex".toList, 2)

/-- The function `remove_index_impl(x)` of `mcrl2/data/detail/io.h`: the arguments
`x.begin()` to `--x.end()` are all arguments but the last. -/
def remove_index_impl (x : aterm_appl) : aterm_appl :=
  if function x = function_symbol_DataVarId then
    make_aterm_appl function_symbol_DataVarIdNoIndex x.2.dropLast
  else if function x = function_symbol_OpId then
    make_aterm_appl function_symbol_OpIdNoIndex x.2.dropLast
  else x

/-- The function `add_index_impl(x)` of `mcrl2/data/detail/io.h`.  The index tables of
`core::index_traits` are the state `tables`; their `insert`, which is not among the
sources, is a parameter for each of the two tables: it hands out the index of the pair
of the name `x[0]` and the sort `x[1]` and returns the table after the call. -/
def add_index_impl {index_tables : Type}
    (insert_variable insert_function_symbol :
      aterm × aterm → index_tables → Nat × index_tables)
    (x : aterm_appl) (tables : index_tables) : aterm_appl × index_tables :=
  if function x = function_symbol_DataVarIdNoIndex then
    match x.2 with
    | [x_0, x_1] =>
      let inserted := insert_variable (x_0, x_1) tables
      (make_aterm_appl function_symbol_DataVarId [x_0, x_1, aterm.int inserted.1], inserted.2)
    | _ => (x, tables)
  else if function x = function_symbol_OpIdNoIndex then
    match x.2 with
    | [x_0, x_1] =>
      let inserted := insert_function_symbol (x_0, x_1) tables
      (make_aterm_appl function_symbol_OpId [x_0, x_1, aterm.int inserted.1], inserted.2)
    | _ => (x, tables)
  else (x, tables)

/-- The function object `index_remover` of `mcrl2/data/io.h`. -/
def index_remover (x : aterm_appl) : aterm_appl :=
  if function x = function_symbol_DataVarId then
    make_aterm_appl function_symbol_DataVarIdNoIndex x.2.dropLast
  else if function x = function_symbol_OpId then
    make_aterm_appl function_symbol_OpIdNoIndex x.2.dropLast
  else x

/-- The function object `index_adder` of `mcrl2/data/io.h`, with the index tables as for
`add_index_impl`. -/
def index_adder {index_tables : Type}
    (insert_variable insert_function_symbol :
      aterm × aterm → index_tables → Nat × index_tables)
    (x : aterm_appl) (tables : index_tables) : aterm_appl × index_tables :=
  if function x = function_symbol_DataVarIdNoIndex then
    match x.2 with
    | [x_0, x_1] =>
      let inserted := insert_variable (x_0, x_1) tables
      (make_aterm_appl function_symbol_DataVarId [x_0, x_1, aterm.int inserted.1], inserted.2)
    | _ => (x, tables)
  else if function x = function_symbol_OpIdNoIndex then
    match x.2 with
    | [x_0, x_1] =>
      let inserted := insert_function_symbol (x_0, x_1) tables
      (make_aterm_appl function_symbol_OpId [x_0, x_1, aterm.int inserted.1], inserted.2)
    | _ => (x, tables)
  else (x, tables)

/-- Modelled from the spec: the content of a node of the Term Store, which is not among
the sources.  A term is an integer term, the empty list, a list term with a head term and
a tail list term, or an application term with a function symbol and its children; the
children of a node are handles of nodes of the store. -/
inductive term_node
  | int (value : Nat)
  | empty_list
  | list (head tail : Nat)
  | application (symbol : function_symbol) (children : List Nat)
deriving DecidableEq

/-- Modelled from the spec: the Term Store, "a global hash-consing table mapping (symbol,
children) to a single canonical immutable term node".  The nodes stand in the order of
their allocation and the handle of a node is its position, so that two handles are equal
by identity when they are the same position.  Reference counts and the collection of
nodes are left out. -/
structure term_store where
  nodes : List term_node

/-- Modelled from the spec: hash-consing at construction time, "before allocating a new
node, the store looks up an existing node with identical shape; if found, ... a handle to
it returned; otherwise a new node is allocated and inserted". -/
def term_store.make (store : term_store) (shape : term_node) : Nat × term_store :=
  if shape ∈ store.nodes then (store.nodes.indexOf shape, store)
  else (store.nodes.length, { nodes := store.nodes ++ [shape] })

mutual
/-- Modelled from the spec: the construction of the term `t` in the store, bottom-up with
the constructors `make_int`, `make_list` with the empty-list constant, and
`make_application`, whose children are the handles of the terms constructed before. -/
def term_store.intern (store : term_store) : aterm → Nat × term_store
  | .int value => store.make (term_node.int value)
  | .list l => store.intern_list l
  | .appl name arguments =>
    ((store.intern_children arguments).2.make
      (term_node.application (name, arguments.length) (store.intern_children arguments).1))
/-- The construction of a list term from its elements: the head, then the tail list, then
`make_list(head, tail)`. -/
def term_store.intern_list (store : term_store) : List aterm → Nat × term_store
  | [] => store.make term_node.empty_list
  | t :: ts =>
    ((store.intern t).2.intern_list ts).2.make
      (term_node.list (store.intern t).1 ((store.intern t).2.intern_list ts).1)
/-- The construction of the children of an application, from the first to the last. -/
def term_store.intern_children (store : term_store) : List aterm → List Nat × term_store
  | [] => ([], store)
  | t :: ts =>
    ((store.intern t).1 :: ((store.intern t).2.intern_children ts).1,
      ((store.intern t).2.intern_children ts).2)
end

/-- The node with the content `shape` stands in the store at the handle `handle`, the
handle that a lookup of `shape` returns. -/
def term_store.holds (store : term_store) (handle : Nat) (shape : term_node) : Prop :=
  shape ∈ store.nodes ∧ store.nodes.indexOf shape = handle

/-! ## Notions used for the buffer of integers, progress, names and canonical texts -/

/-- The first part of `parse_aterm_int(character)`, up to the end of its loop: the result
is what was written to the buffer `number`, the characters at the indices `0`, `1`, ...
in this order.  The statement `*it = '\0'` that follows writes the terminating NUL at the
index that is the length of this list. -/
def parse_aterm_int_number (self : text_aterm_input) : outcome (List Char) :=
  let start : outcome (List Char) :=
    if self.character = some '-' then
      (assign_next_char true true self).bind fun _ self => outcome.ok ['-'] self
    else outcome.ok [] self
  start.bind fun number self => parse_aterm_int_loop (32 - number.length) number self

/-- Reading a stream term by term: `get` is called until it returns the "no term" value,
and the terms read are returned in order.  The first argument bounds the number of calls
of `get`; `out_of_fuel` is a reading that needs more calls than that. -/
def read_terms (m_transformer : aterm_transformer) :
    Nat → text_aterm_input → outcome (List aterm)
  | 0, _ => outcome.out_of_fuel
  | calls + 1, self =>
    (self.get m_transformer (self.m_stream.length + 1)).bind fun t self =>
      match t with
      | none => outcome.ok [] self
      | some t =>
        (read_terms m_transformer calls self).bind fun ts self => outcome.ok (t :: ts) self

mutual
/-- Every application node of the term has a non-empty function-symbol name. -/
def aterm.named : aterm → Bool
  | .int _ => true
  | .list l => aterm.namedList l
  | .appl name l => !name.isEmpty && aterm.namedList l
/-- Every application node of the terms of a list has a non-empty name. -/
def aterm.namedList : List aterm → Bool
  | [] => true
  | t :: ts => aterm.named t && aterm.namedList ts
end

/-- The characters of a text that stand outside double quotes.  The first flag tells
that the scan is between an opening double quote and its closing one, the second that the
character before was a backslash between quotes, which takes the next character with it;
the double quotes themselves are left out. -/
def outside_quotes : Bool → Bool → List Char → List Char
  | _, _, [] => []
  | false, _, c :: rest =>
    if c = '"' then outside_quotes true false rest else c :: outside_quotes false false rest
  | true, true, _ :: rest => outside_quotes true false rest
  | true, false, c :: rest =>
    if c = '"' then outside_quotes false false rest
    else outside_quotes true (decide (c = '\\')) rest

/-! ## The tribool of the partial order reduction (`mcrl2/pbes/partial_order_reduction.h`) -/

/-- The enumeration `tribool`. -/
inductive tribool where
  | no
  | maybe
  | yes
deriving DecidableEq

/-- The function `operator&&(tribool a, tribool b)`. -/
def operator_and (a b : tribool) : Bool :=
  decide (a = tribool.yes) || decide (b = tribool.yes)
    || (decide (a = tribool.maybe) && decide (b = tribool.maybe))

/-- The function `operator&&(std::function<tribool()> a, std::function<tribool(bool)> b)`,
the short-circuit version.  A call of a `std::function` may have effects: the functions
take the state `state` of the program and return their value with the state after the
call, so a function that is not called leaves no trace in the state. -/
def operator_and_functions {state : Type} (a : state → tribool × state)
    (b : Bool → state → tribool × state) (s : state) : Bool × state :=
  let a_ := a s
  if a_.1 = tribool.yes then (true, a_.2)
  else
    let b_ := b (decide (a_.1 = tribool.no)) a_.2
    (operator_and a_.1 b_.1, b_.2)

/-- The method `summand_relations_data::accords_data(affect_set, needs_yes,
make_antecedent, make_consequent)`.  The expressions and the prover are not among the
sources and are parameters: `yes_condition antecedent` is
`make_forall(combined_quantified_vars, not_(antecedent))`, `condition antecedent consequent`
is `make_forall(combined_quantified_vars, implies(antecedent, consequent))` and `is_true`
is `parent.is_true`. -/
def accords_data {data_expression : Type} (is_true : data_expression → Bool)
    (yes_condition : data_expression → data_expression)
    (condition : data_expression → data_expression → data_expression)
    (affect_set needs_yes : Bool)
    (make_antecedent make_consequent : Unit → data_expression) : tribool :=
  if affect_set && !needs_yes then tribool.maybe
  else
    let antecedent := make_antecedent ()
    if is_true (yes_condition antecedent) then tribool.yes
    else if needs_yes then tribool.no
    else
      let consequent := make_consequent ()
      if is_true (condition antecedent consequent) then tribool.maybe else tribool.no

/-- The kind of token that a text starts with: 0 for a digit, 1 for `[`, 2 for a double
quote, 4 for the end of the text, a comma or a closing bracket, and 3 for any other
character. -/
def text_kind : List Char → Nat
  | [] => 4
  | c :: _ =>
    if isdigit (some c) then 0 else if c = '[' then 1 else if c = '"' then 2
    else if c = ',' ∨ c = ')' ∨ c = ']' then 4 else 3

/-- The kind of token that the text of a term starts with: digits for an integer, `[` for
a list, a double quote for a name that is written with quotes and another character for a
name that is written without. -/
def aterm.kind : aterm → Nat
  | .int _ => 0
  | .list _ => 1
  | .appl name _ => if contains_special_symbols name then 2 else 3

/-- The text of `t1` determines `t1`: when it is followed by the end of the text, a comma
or a closing bracket, and the whole is also the text of a term `t2` followed by one of
these, both without empty names, then `t2` is `t1` and what follows is the same. -/
def canonical_text (t1 : aterm) : Prop :=
  ∀ t2 r1 r2, t1.named = true → t2.named = true → delimited r1 → delimited r2 →
    term_text t1 ++ r1 = term_text t2 ++ r2 → t1 = t2 ∧ r1 = r2

/-! ## Lemmas -/

/-! ## The writer: the text does not depend on what was written before -/

theorem write_escaped_append (s os : List Char) :
    write_escaped s os = os ++ write_escaped s [] := by
  induction s generalizing os with
  | nil => simp [write_escaped]
  | cons i rest ih =>
    unfold write_escaped
    split_ifs <;> (rw [ih]; conv_rhs => rw [ih]) <;> simp

theorem write_escaped_eq (s os : List Char) :
    write_escaped s os = os ++ s.flatMap escape_symbol := by
  induction s generalizing os with
  | nil => simp [write_escaped]
  | cons i rest ih =>
    unfold write_escaped
    simp only [List.flatMap_cons, escape_symbol]
    split_ifs <;> rw [ih] <;> simp

theorem scan_special_symbols_false (s : List Char) :
    scan_special_symbols false s = true ↔ ∃ x ∈ s, is_special_symbol x = true := by
  induction s with
  | nil => simp [scan_special_symbols]
  | cons i rest ih =>
    unfold scan_special_symbols
    by_cases h : is_special_symbol i = true
    · simp [h, scan_special_symbols]
    · simp [h, ih]

theorem scan_special_symbols_true (s : List Char) : scan_special_symbols true s = true := by
  cases s <;> simp [scan_special_symbols]

theorem write_string_with_escape_symbols_eq (s os : List Char) :
    write_string_with_escape_symbols s os =
      if contains_special_symbols s then os ++ ['"'] ++ s.flatMap escape_symbol ++ ['"']
      else os ++ s := by
  unfold write_string_with_escape_symbols contains_special_symbols
  simp only [write_escaped_eq]

theorem contains_special_symbols_iff (s : List Char) :
    contains_special_symbols s = true ↔ quoting_rule s := by
  unfold contains_special_symbols quoting_rule
  cases s with
  | nil =>
    simp [scan_special_symbols, isdigit, List.getD]
  | cons c rest =>
    have hget : (c :: rest).getD 0 '\x00' = c := rfl
    rw [hget]
    by_cases h : (decide (c = '-') || isdigit (some c)) = true
    · rw [h, scan_special_symbols_true]
      simp only [true_iff]
      left
      refine ⟨c, rest, rfl, ?_⟩
      simpa [isdigit] using h
    · have h' : (decide (c = '-') || isdigit (some c)) = false := by simpa using h
      rw [h', scan_special_symbols_false]
      constructor
      · rintro ⟨x, hx, hs⟩
        right
        exact ⟨x, hx, by simpa [is_special_symbol] using hs⟩
      · rintro (⟨c', rest', hc, hd⟩ | ⟨x, hx, hs⟩)
        · exfalso
          injection hc with h1 h2
          subst h1
          apply h
          simpa [isdigit] using hd
        · exact ⟨x, hx, by simpa [is_special_symbol] using hs⟩

/-! ## The writer: lists and applications -/

theorem write_string_with_escape_symbols_append (s os : List Char) :
    write_string_with_escape_symbols s os = os ++ write_string_with_escape_symbols s [] := by
  rw [write_string_with_escape_symbols_eq, write_string_with_escape_symbols_eq]
  split_ifs <;> simp

theorem write_term_lines_append (write : aterm → List Char → Option (List Char))
    (hw : ∀ t os, write t os = (write t []).map fun text => os ++ text)
    (first : Bool) (ts : List aterm) (os : List Char) :
    write_term_lines write first ts os
      = (write_term_lines write first ts []).map fun text => os ++ text := by
  induction ts generalizing first os with
  | nil => simp [write_term_lines]
  | cons t rest ih =>
    unfold write_term_lines
    rw [hw t (if first then os else os ++ [',']), hw t (if first then [] else [] ++ [','])]
    cases h : write t [] with
    | none => simp
    | some text =>
      simp only [Option.map_some']
      rw [ih false ((if first then os else os ++ [',']) ++ text),
        ih false ((if first then [] else [] ++ [',']) ++ text)]
      cases write_term_lines write false rest [] with
      | none => simp
      | some text' => cases first <;> simp

theorem write_term_line_append (m_transformer : aterm_transformer) (fuel : Nat) (t : aterm)
    (os : List Char) :
    write_term_line m_transformer fuel t os
      = (write_term_line m_transformer fuel t []).map fun text => os ++ text := by
  induction fuel generalizing t os with
  | zero => simp [write_term_line]
  | succ fuel ih =>
    cases t with
    | int value => simp [write_term_line]
    | list elements =>
      simp only [write_term_line]
      rw [write_term_lines_append _ ih true elements (os ++ ['[']),
        write_term_lines_append _ ih true elements ([] ++ ['['])]
      cases write_term_lines (write_term_line m_transformer fuel) true elements [] with
      | none => simp
      | some text => simp
    | appl name arguments =>
      simp only [write_term_line]
      rw [write_string_with_escape_symbols_append (m_transformer (name, arguments)).1 os]
      generalize write_string_with_escape_symbols (m_transformer (name, arguments)).1 [] = w
      cases (m_transformer (name, arguments)).2 with
      | nil => simp
      | cons appl_0 appl_rest =>
        simp only
        rw [ih appl_0 (os ++ w ++ ['(']), ih appl_0 (w ++ ['('])]
        cases write_term_line m_transformer fuel appl_0 [] with
        | none => simp
        | some text =>
          simp only [Option.map_some']
          rw [write_term_lines_append _ ih false appl_rest (os ++ w ++ ['('] ++ text),
            write_term_lines_append _ ih false appl_rest (w ++ ['('] ++ text)]
          cases write_term_lines (write_term_line m_transformer fuel) false appl_rest [] with
          | none => simp
          | some text' => simp

/-- The loop over a list of terms writes the texts of the terms, each after a comma
(`first` false). -/
theorem write_term_lines_false (write : aterm → List Char → Option (List Char))
    (hw : ∀ t os, write t os = (write t []).map fun text => os ++ text)
    (ts : List aterm) (texts : List (List Char))
    (h : List.Forall₂ (fun t text => write t [] = some text) ts texts) (os : List Char) :
    write_term_lines write false ts os
      = some (os ++ (texts.map fun text => ',' :: text).flatten) := by
  induction h generalizing os with
  | nil => simp [write_term_lines]
  | @cons t text ts' texts' h1 _ ih =>
    unfold write_term_lines
    rw [hw t, h1]
    simp [ih]

theorem intercalate_cons_eq (text : List Char) (texts : List (List Char)) :
    List.intercalate [','] (text :: texts)
      = text ++ (texts.map fun text => ',' :: text).flatten := by
  induction texts generalizing text with
  | nil => simp [List.intercalate]
  | cons text' texts' ih =>
    have := ih text'
    simp only [List.intercalate, List.intersperse] at this ⊢
    simp [this]

/-- The loop over the elements of a list writes the texts of the elements separated by
commas (`first` true). -/
theorem write_term_lines_true (write : aterm → List Char → Option (List Char))
    (hw : ∀ t os, write t os = (write t []).map fun text => os ++ text)
    (ts : List aterm) (texts : List (List Char))
    (h : List.Forall₂ (fun t text => write t [] = some text) ts texts) (os : List Char) :
    write_term_lines write true ts os = some (os ++ List.intercalate [','] texts) := by
  cases h with
  | nil => simp [write_term_lines, List.intercalate]
  | @cons t text ts' texts' h1 h2 =>
    unfold write_term_lines
    rw [hw t, h1]
    simp [write_term_lines_false write hw ts' texts' h2, intercalate_cons_eq]

/-! ## The reader: where the lookahead and the stream stand -/

theorem assign_next_char_stream (skip_whitespace required : Bool)
    (self : text_aterm_input) (l : List Char)
    (hs : self.m_stream = l)
    (hreq : l = [] → required = false)
    (hl : ∀ d, l.head? = some d → d ≠ '\n' ∧ (skip_whitespace = true → isspace (some d) = false)) :
    ∃ self', assign_next_char skip_whitespace required self = outcome.ok () self'
      ∧ positioned self' l ∧ self'.m_history_limit = self.m_history_limit := by
  unfold assign_next_char next_char
  rw [hs]
  cases l with
  | nil =>
    simp only [next_char_loop, hreq rfl]
    exact ⟨_, rfl, ⟨rfl, rfl⟩, rfl⟩
  | cons d l' =>
    obtain ⟨hd1, hd2⟩ := hl d rfl
    have hcond : (isspace (some d) && skip_whitespace) = false := by
      cases skip_whitespace
      · simp
      · simp [hd2 rfl]
    simp only [next_char_loop, hcond, if_neg hd1]
    refine ⟨_, rfl, ⟨?_, ?_⟩, ?_⟩
    · simp [outcome.bind]
    · simp [outcome.bind]
      split_ifs <;> rfl
    · simp [outcome.bind]
      split_ifs <;> rfl

theorem assign_next_char_positioned (skip_whitespace required : Bool)
    (self : text_aterm_input) (c : Char) (l : List Char)
    (hp : positioned self (c :: l))
    (hreq : l = [] → required = false)
    (hl : ∀ d, l.head? = some d → d ≠ '\n' ∧ (skip_whitespace = true → isspace (some d) = false)) :
    ∃ self', assign_next_char skip_whitespace required self = outcome.ok () self'
      ∧ positioned self' l := by
  obtain ⟨self', h1, h2, _⟩ := assign_next_char_stream skip_whitespace required self l
    (by simpa using hp.2) hreq hl
  exact ⟨self', h1, h2⟩

theorem after_token_of_no_space (rest : List Char) (h : no_space_ahead rest) :
    after_token rest = rest := by
  unfold after_token
  split_ifs with h1
  · subst h1
    have := h '\n' rfl
    revert this
    decide
  · rfl

theorem after_token_newline : after_token ['\n'] = [] := by
  simp [after_token]

theorem assign_next_char_newline (skip_whitespace : Bool) (self : text_aterm_input)
    (hs : self.m_stream = ['\n']) :
    ∃ self', assign_next_char skip_whitespace false self = outcome.ok () self'
      ∧ positioned self' [] := by
  unfold assign_next_char next_char
  rw [hs]
  cases skip_whitespace
  · simp only [next_char_loop, Bool.and_false]
    refine ⟨_, rfl, ?_, ?_⟩
    · simp [outcome.bind]
    · simp [outcome.bind]
      split_ifs <;> rfl
  · have hsp : (isspace (some '\n') && true) = true := by decide
    simp only [next_char_loop, hsp]
    refine ⟨_, rfl, ?_, ?_⟩
    · simp [outcome.bind]
    · simp [outcome.bind]

/-- The read that follows a token: the lookahead moves to what follows the token, and a
newline that ends the stream is read as the end of the input. -/
theorem assign_next_char_end (self : text_aterm_input) (c : Char) (rest : List Char)
    (hp : positioned self (c :: rest)) (hrest : no_space_ahead rest ∨ rest = ['\n']) :
    ∃ self', assign_next_char true false self = outcome.ok () self'
      ∧ positioned self' (after_token rest) := by
  rcases hrest with h | h
  · rw [after_token_of_no_space rest h]
    refine assign_next_char_positioned true false self c rest hp (fun _ => rfl) ?_
    intro d hd
    have hsp := h d hd
    refine ⟨?_, fun _ => hsp⟩
    rintro rfl
    revert hsp
    decide
  · subst h
    rw [after_token_newline]
    exact assign_next_char_newline true self (by simpa using hp.2)

/-! ## Decimal texts -/

theorem toDigitsCore_append (f n : Nat) (ds : List Char) :
    Nat.toDigitsCore 10 f n ds = Nat.toDigitsCore 10 f n [] ++ ds := by
  induction f generalizing n ds with
  | zero => simp [Nat.toDigitsCore]
  | succ f ih =>
    simp only [Nat.toDigitsCore]
    by_cases h0 : n / 10 = 0
    · simp [h0]
    · simp only [h0, if_false]
      rw [ih (n / 10) (Nat.digitChar (n % 10) :: ds), ih (n / 10) [Nat.digitChar (n % 10)]]
      simp

theorem toDigitsCore_fuel (f g n : Nat) (hf : n < f) (hg : n < g) :
    Nat.toDigitsCore 10 f n [] = Nat.toDigitsCore 10 g n [] := by
  induction f generalizing g n with
  | zero => omega
  | succ f ih =>
    cases g with
    | zero => omega
    | succ g =>
      simp only [Nat.toDigitsCore]
      by_cases h0 : n / 10 = 0
      · simp [h0]
      · simp only [h0, if_false]
        rw [toDigitsCore_append f, toDigitsCore_append g,
          ih g (n / 10) (by omega) (by omega)]

theorem toDigitsCore_eq (f g n : Nat) (ds : List Char) (hf : n < f) (hg : n < g) :
    Nat.toDigitsCore 10 f n ds = Nat.toDigitsCore 10 g n [] ++ ds := by
  rw [toDigitsCore_append, toDigitsCore_fuel f g n hf hg]

theorem toDigits_lt_ten (n : Nat) (h : n < 10) : Nat.toDigits 10 n = [Nat.digitChar n] := by
  unfold Nat.toDigits
  simp only [Nat.toDigitsCore]
  have h0 : n / 10 = 0 := by omega
  have h1 : n % 10 = n := by omega
  simp [h0, h1]

theorem toDigits_ge_ten (n : Nat) (h : 10 ≤ n) :
    Nat.toDigits 10 n = Nat.toDigits 10 (n / 10) ++ [Nat.digitChar (n % 10)] := by
  unfold Nat.toDigits
  simp only [Nat.toDigitsCore]
  have h0 : n / 10 ≠ 0 := by omega
  simp only [h0, if_false]
  exact toDigitsCore_eq n (n / 10 + 1) (n / 10) _ (by omega) (by omega)

theorem isdigit_digitChar (d : Nat) (h : d < 10) : isdigit (some (Nat.digitChar d)) = true := by
  interval_cases d <;> decide

theorem digitChar_toNat (d : Nat) (h : d < 10) : (Nat.digitChar d).toNat - '0'.toNat = d := by
  interval_cases d <;> decide

theorem toDigits_all_digits (n : Nat) : ∀ c ∈ Nat.toDigits 10 n, isdigit (some c) = true := by
  induction n using Nat.strong_induction_on with
  | _ n ih =>
    by_cases h : n < 10
    · rw [toDigits_lt_ten n h]
      intro c hc
      simp only [List.mem_singleton] at hc
      subst hc
      exact isdigit_digitChar n h
    · rw [toDigits_ge_ten n (by omega)]
      intro c hc
      rcases List.mem_append.1 hc with hc | hc
      · exact ih (n / 10) (by omega) c hc
      · simp only [List.mem_singleton] at hc
        subst hc
        exact isdigit_digitChar _ (by omega)

theorem toDigits_ne_nil (n : Nat) : Nat.toDigits 10 n ≠ [] := by
  by_cases h : n < 10
  · rw [toDigits_lt_ten n h]; simp
  · rw [toDigits_ge_ten n (by omega)]; simp

theorem toDigits_length_le (n : Nat) (h : n < 2 ^ 64) : (Nat.toDigits 10 n).length ≤ 20 :=
  Nat.toDigitsCore_length 10 (by decide) (n + 1) n 20 (by omega) (by decide)

theorem atol_digits_append (acc : Int) (c : Char) (ds : List Char)
    (hds : ∀ x ∈ ds, isdigit (some x) = true) (hc : isdigit (some c) = true) :
    atol_digits acc (ds ++ [c])
      = atol_digits acc ds * 10 + ((c.toNat - '0'.toNat : Nat) : Int) := by
  induction ds generalizing acc with
  | nil => simp [atol_digits, hc]
  | cons d ds ih =>
    have hd : isdigit (some d) = true := hds d (List.mem_cons_self _ _)
    simp only [List.cons_append, atol_digits, hd, if_true]
    exact ih _ (fun x hx => hds x (List.mem_cons_of_mem _ hx))

theorem atol_digits_toDigits (n : Nat) : atol_digits 0 (Nat.toDigits 10 n) = (n : Int) := by
  induction n using Nat.strong_induction_on with
  | _ n ih =>
    by_cases h : n < 10
    · rw [toDigits_lt_ten n h]
      have h1 := digitChar_toNat n h
      simp only [atol_digits, isdigit_digitChar n h, if_true, h1]
      simp
    · rw [toDigits_ge_ten n (by omega),
        atol_digits_append 0 _ _ (toDigits_all_digits _) (isdigit_digitChar _ (by omega)),
        ih (n / 10) (by omega), digitChar_toNat _ (by omega)]
      omega

/-! ## The reader: integers -/

theorem isspace_of_isdigit (c : Char) (h : isdigit (some c) = true) :
    isspace (some c) = false := by
  simp only [isdigit, isspace, decide_eq_true_eq, decide_eq_false_iff_not] at *
  rintro (rfl | rfl | rfl | rfl | rfl | rfl) <;> revert h <;> decide

theorem ne_newline_of_not_isspace (c : Char) (h : isspace (some c) = false) : c ≠ '\n' := by
  rintro rfl
  revert h
  decide

theorem parse_aterm_int_loop_digits (ds : List Char) (hds : ∀ x ∈ ds, isdigit (some x) = true)
    (d : Char) (hd : isdigit (some d) = true)
    (room : Nat) (hroom : ds.length + 1 ≤ room) (number : List Char) (self : text_aterm_input)
    (rest : List Char) (hp : positioned self (d :: ds ++ rest))
    (hrest : no_space_ahead rest ∨ rest = ['\n'])
    (hstop : ∀ x, rest.head? = some x → isdigit (some x) = false) :
    ∃ self', parse_aterm_int_loop room number self = outcome.ok (number ++ d :: ds) self'
      ∧ positioned self' (after_token rest) := by
  induction ds generalizing d room number self with
  | nil =>
    obtain ⟨room, rfl⟩ : ∃ r, room = r + 1 := ⟨room - 1, by simp at hroom; omega⟩
    have hc : self.character = some d := hp.1
    obtain ⟨self1, h1, hp1⟩ := assign_next_char_end self d rest (by simpa using hp) hrest
    have hstop1 : isdigit self1.character = false := by
      rw [hp1.1]
      unfold after_token
      split_ifs with h
      · rfl
      · cases hh : rest.head? with
        | none => rfl
        | some x => exact hstop x hh
    refine ⟨self1, ?_, hp1⟩
    simp only [parse_aterm_int_loop, hc, hd, if_true, static_cast_char, default_skip_whitespace,
      default_required, h1, outcome.bind]
    cases room with
    | zero => simp [parse_aterm_int_loop]
    | succ room => simp [parse_aterm_int_loop, hstop1]
  | cons d' ds ih =>
    obtain ⟨room, rfl⟩ : ∃ r, room = r + 1 := ⟨room - 1, by simp at hroom; omega⟩
    have hd' : isdigit (some d') = true := hds d' (List.mem_cons_self _ _)
    have hc : self.character = some d := hp.1
    obtain ⟨self1, h1, hp1⟩ := assign_next_char_positioned true false self d
      (d' :: ds ++ rest) hp (fun _ => rfl) (by
        intro x hx
        simp only [List.cons_append, List.head?_cons, Option.some.injEq] at hx
        subst hx
        exact ⟨ne_newline_of_not_isspace _ (isspace_of_isdigit _ hd'),
          fun _ => isspace_of_isdigit _ hd'⟩)
    obtain ⟨self2, h2, hp2⟩ := ih (fun x hx => hds x (List.mem_cons_of_mem _ hx)) d' hd' room
      (by simpa using hroom) (number ++ [d]) self1 hp1
    refine ⟨self2, ?_, hp2⟩
    simp only [parse_aterm_int_loop, hc, hd, if_true, static_cast_char, default_skip_whitespace,
      default_required, h1, outcome.bind, h2]
    simp

theorem dropWhile_isspace_digits (c : Char) (l : List Char) (h : isspace (some c) = false) :
    (c :: l).dropWhile (fun c => isspace (some c)) = c :: l := by
  simp [List.dropWhile, h]

theorem atol_toDigits (n : Nat) (h : n < 2 ^ 63) : atol (Nat.toDigits 10 n) = some (n : Int) := by
  obtain ⟨c, l, hcl⟩ := List.exists_cons_of_ne_nil (toDigits_ne_nil n)
  have hc : isdigit (some c) = true := toDigits_all_digits n c (by rw [hcl]; simp)
  have h1 : c ≠ '-' := by rintro rfl; revert hc; decide
  have h2 : c ≠ '+' := by rintro rfl; revert hc; decide
  unfold atol
  simp only [hcl, dropWhile_isspace_digits c l (isspace_of_isdigit c hc), List.head?_cons,
    Option.some.injEq, h1, h2, if_false]
  rw [← hcl, atol_digits_toDigits]
  have : (-(2 : Int) ^ (word_bits - 1) ≤ (n : Int) ∧ (n : Int) < (2 : Int) ^ (word_bits - 1)) := by
    simp only [word_bits]
    constructor <;> omega
  simp [this]

theorem atol_minus_toDigits (n : Nat) (h : n ≤ 2 ^ 63) :
    atol ('-' :: Nat.toDigits 10 n) = some (-(n : Int)) := by
  unfold atol
  have hs : isspace (some '-') = false := by decide
  simp only [dropWhile_isspace_digits '-' _ hs, List.head?_cons, if_true, List.tail_cons]
  rw [atol_digits_toDigits]
  have : (-(2 : Int) ^ (word_bits - 1) ≤ -(n : Int) ∧ -(n : Int) < (2 : Int) ^ (word_bits - 1)) := by
    simp only [word_bits]
    constructor <;> omega
  simp [this]

/-- Reading the decimal text of a value below `2 ^ 63`. -/
theorem parse_aterm_int_toDigits (n : Nat) (hn : n < 2 ^ 63) (self : text_aterm_input)
    (rest : List Char) (hp : positioned self (Nat.toDigits 10 n ++ rest))
    (hrest : no_space_ahead rest ∨ rest = ['\n'])
    (hstop : ∀ d, rest.head? = some d → isdigit (some d) = false) :
    ∃ self', parse_aterm_int self = outcome.ok (aterm.int n) self'
      ∧ positioned self' (after_token rest) := by
  obtain ⟨c, l, hcl⟩ := List.exists_cons_of_ne_nil (toDigits_ne_nil n)
  have hall := toDigits_all_digits n
  have hlen := toDigits_length_le n (by omega)
  have hatol := atol_toDigits n hn
  rw [hcl] at hp hall hlen hatol
  have hc : isdigit (some c) = true := hall c (by simp)
  have h1 : self.character ≠ some '-' := by
    rw [hp.1]
    simp only [List.cons_append, List.head?_cons, ne_eq, Option.some.injEq]
    rintro rfl
    revert hc
    decide
  obtain ⟨self', h2, hp2⟩ := parse_aterm_int_loop_digits l
    (fun x hx => hall x (List.mem_cons_of_mem _ hx)) c hc 32
    (by simp at hlen; omega) [] self rest hp hrest hstop
  refine ⟨self', ?_, hp2⟩
  unfold parse_aterm_int
  simp only [h1, if_false, outcome.bind, List.length_nil, Nat.sub_zero, h2, List.nil_append]
  have hlt : (c :: l).length < 32 := by omega
  simp only [hlt, if_true, hatol]
  congr 2
  simp only [word_bits]
  omega

theorem parse_aterm_int_minus_toDigits (n : Nat) (hn : n ≤ 2 ^ 63) (self : text_aterm_input)
    (rest : List Char) (hp : positioned self ('-' :: Nat.toDigits 10 n ++ rest))
    (hrest : no_space_ahead rest ∨ rest = ['\n'])
    (hstop : ∀ d, rest.head? = some d → isdigit (some d) = false) :
    ∃ self', parse_aterm_int self
        = outcome.ok (aterm.int ((-(n : Int)) % 2 ^ word_bits).toNat) self'
      ∧ positioned self' (after_token rest) := by
  obtain ⟨c, l, hcl⟩ := List.exists_cons_of_ne_nil (toDigits_ne_nil n)
  have hall := toDigits_all_digits n
  have hlen := toDigits_length_le n (by omega)
  have hm := atol_minus_toDigits n hn
  rw [hcl] at hp hall hlen hm
  have hc : isdigit (some c) = true := hall c (by simp)
  have h1 : self.character = some '-' := hp.1
  obtain ⟨self1, h2, hp1⟩ := assign_next_char_positioned true true self '-'
    (c :: l ++ rest) hp (by simp) (by
      intro d hd
      simp only [List.cons_append, List.head?_cons, Option.some.injEq] at hd
      subst hd
      exact ⟨ne_newline_of_not_isspace _ (isspace_of_isdigit _ hc),
        fun _ => isspace_of_isdigit _ hc⟩)
  obtain ⟨self', h3, hp2⟩ := parse_aterm_int_loop_digits l
    (fun x hx => hall x (List.mem_cons_of_mem _ hx)) c hc 31
    (by simp at hlen; omega) ['-'] self1 rest hp1 hrest hstop
  refine ⟨self', ?_, hp2⟩
  unfold parse_aterm_int
  simp only [h1, if_true, outcome.bind, h2, List.length_singleton, h3]
  have hlt : (['-'] ++ c :: l).length < 32 := by
    simp only [List.length_append, List.length_singleton]
    omega
  simp only [hlt, if_true]
  rw [show ['-'] ++ c :: l = '-' :: c :: l from rfl, hm]

/-! ## The reader: dispatch and the top-level functions -/

theorem parse_aterm_digit (m_transformer : aterm_transformer) (fuel : Nat)
    (self : text_aterm_input) (c : Char) (hc : self.character = some c)
    (hd : isdigit (some c) = true ∨ c = '-') :
    parse_aterm m_transformer (fuel + 1) self = parse_aterm_int self := by
  have h1 : self.character ≠ some '"' := by
    rw [hc]; simp only [ne_eq, Option.some.injEq]
    rintro rfl; revert hd; decide
  have h2 : self.character ≠ some '[' := by
    rw [hc]; simp only [ne_eq, Option.some.injEq]
    rintro rfl; revert hd; decide
  have h3 : isdigit self.character = true ∨ self.character = some '-' := by
    rw [hc]; simpa using hd
  simp only [parse_aterm, h1, h2, if_false, h3, if_true]

theorem init_positioned (is : List Char) (m_line m_column m_history_limit : Nat)
    (h : no_space_ahead is) :
    ∃ self, text_aterm_input.init is m_line m_column m_history_limit = outcome.ok () self
      ∧ positioned self is := by
  obtain ⟨self, h1, h2, _⟩ := assign_next_char_stream default_skip_whitespace default_required
    { m_stream := is, character := none, m_line := m_line, m_column := m_column,
      m_history := [], m_history_limit := m_history_limit } is rfl (fun _ => rfl)
    (fun d hd => ⟨ne_newline_of_not_isspace d (h d hd), fun _ => h d hd⟩)
  exact ⟨self, h1, h2⟩

/-- Reading a string whose first character is no whitespace: the result of
`read_term_from_string` is that of `parse_aterm` on the first lookahead. -/
theorem read_term_from_string_of_parse (c : Char) (l : List Char) (t : aterm)
    (m_line m_column m_history_limit : Nat) (hc : isspace (some c) = false)
    (h : ∀ self, positioned self (c :: l) →
      ∃ self', parse_aterm identity (l.length + 1) self = outcome.ok t self') :
    ∃ self', read_term_from_string (c :: l) m_line m_column m_history_limit
      = outcome.ok (some t) self' := by
  obtain ⟨self, h1, hp⟩ := init_positioned (c :: l) m_line m_column m_history_limit
    (by intro d hd; simp at hd; subst hd; exact hc)
  obtain ⟨self', h2⟩ := h self hp
  refine ⟨self', ?_⟩
  have hch : self.character ≠ none := by rw [hp.1]; simp
  have hlen : self.m_stream.length = l.length := by rw [hp.2]; simp
  simp only [read_term_from_string, read_term_from_text_stream, h1, outcome.bind,
    text_aterm_input.get, hlen, h2]
  simp [hch]

/-! ## The reader: lists of terms between brackets -/

theorem no_space_ahead_of_delimited (rest : List Char) (h : delimited rest) :
    no_space_ahead rest := by
  intro d hd
  rcases h with rfl | ⟨d', r, rfl, h | h | h⟩
  · simp at hd
  all_goals
    simp only [List.head?_cons, Option.some.injEq] at hd
    subst hd
    subst h
    decide

theorem no_space_ahead_reads (d : Char) (l : List Char) (h : isspace (some d) = false) :
    ∀ x, (d :: l).head? = some x → x ≠ '\n' ∧ (true = true → isspace (some x) = false) := by
  intro x hx
  simp only [List.head?_cons, Option.some.injEq] at hx
  subst hx
  exact ⟨ne_newline_of_not_isspace _ h, fun _ => h⟩

theorem parse_aterm_list_loop_spec (parse : text_aterm_input → outcome aterm)
    (es : List (List Char)) (ts : List aterm) (h : List.Forall₂ (reads_as parse) es ts)
    (close : Char) (hclose : close = ')' ∨ close = ']') (rest : List Char)
    (fuel : Nat) (hfuel : es.length + 1 ≤ fuel) (acc : List aterm) (self : text_aterm_input)
    (hp : positioned self ((es.map fun e => ',' :: e).flatten ++ close :: rest)) :
    ∃ self', parse_aterm_list_loop parse fuel acc self = outcome.ok (ts.reverse ++ acc) self'
      ∧ positioned self' (close :: rest) := by
  induction h generalizing fuel acc self with
  | nil =>
    cases fuel with
    | zero => simp at hfuel
    | succ fuel =>
      have hc : self.character ≠ some ',' := by
        rw [hp.1]
        simp only [List.map_nil, List.flatten_nil, List.nil_append, List.head?_cons, ne_eq,
          Option.some.injEq]
        rcases hclose with rfl | rfl <;> decide
      exact ⟨self, by simp [parse_aterm_list_loop, hc], by simpa using hp⟩
  | @cons e t es' ts' h1 _ ih =>
    cases fuel with
    | zero => simp at hfuel
    | succ fuel =>
      obtain ⟨⟨c, e', rfl, hc1, hc2, hc3, hc4⟩, hread⟩ := h1
      simp only [List.map_cons, List.flatten_cons, List.cons_append, List.append_assoc] at hp
      have hch : self.character = some ',' := hp.1
      obtain ⟨self1, hn1, hp1⟩ := assign_next_char_positioned true true self ','
        (c :: (e' ++ ((es'.map fun e => ',' :: e).flatten ++ close :: rest))) hp (by simp)
        (no_space_ahead_reads c _ hc1)
      have hdel : delimited ((es'.map fun e => ',' :: e).flatten ++ close :: rest) := by
        right
        cases es' with
        | nil =>
          refine ⟨close, rest, by simp, ?_⟩
          rcases hclose with rfl | rfl <;> simp
        | cons e2 es2 =>
        exact ⟨',', e2 ++ ((es2.map fun e => ',' :: e).flatten ++ close :: rest), by simp,
          Or.inl rfl⟩
      obtain ⟨self2, hn2, hp2⟩ := hread self1 _ (Or.inl hdel) (by simpa using hp1)
      rw [after_token_of_no_space _ (no_space_ahead_of_delimited _ hdel)] at hp2
      obtain ⟨self3, hn3, hp3⟩ := ih fuel (by simpa using hfuel) (t :: acc) self2 hp2
      refine ⟨self3, ?_, hp3⟩
      simp only [parse_aterm_list_loop, hch, if_true, hn1, outcome.bind, hn2, hn3]
      simp

theorem parse_aterm_list_spec (parse : text_aterm_input → outcome aterm)
    (es : List (List Char)) (ts : List aterm) (h : List.Forall₂ (reads_as parse) es ts)
    (begin_ end_ : Char) (hbe : (begin_ = '[' ∧ end_ = ']') ∨ (begin_ = '(' ∧ end_ = ')'))
    (rest : List Char) (hrest : no_space_ahead rest ∨ rest = ['\n'])
    (fuel : Nat) (hfuel : es.length ≤ fuel) (self : text_aterm_input)
    (hp : positioned self (begin_ :: List.intercalate [','] es ++ end_ :: rest)) :
    ∃ self', parse_aterm_list parse fuel self begin_ end_ = outcome.ok ts self'
      ∧ positioned self' (after_token rest) := by
  have hend : end_ = ')' ∨ end_ = ']' := by
    rcases hbe with ⟨_, h⟩ | ⟨_, h⟩
    · exact Or.inr h
    · exact Or.inl h
  have hendsp : isspace (some end_) = false := by
    rcases hend with rfl | rfl <;> decide
  have hch : self.character = some begin_ := hp.1
  have hlast : ∀ self3, positioned self3 (end_ :: rest) →
      ∃ self', assign_next_char true default_required self3 = outcome.ok () self'
        ∧ positioned self' (after_token rest) := fun self3 hp3 =>
    assign_next_char_end self3 end_ rest hp3 hrest
  cases h with
  | nil =>
    simp only [List.intercalate, List.intersperse, List.flatten_nil, List.cons_append,
      List.nil_append] at hp
    obtain ⟨self1, hn1, hp1⟩ := assign_next_char_positioned true true self begin_
      (end_ :: rest) hp (by simp) (no_space_ahead_reads end_ _ hendsp)
    have hc1 : self1.character = some end_ := hp1.1
    obtain ⟨self2, hn2, hp2⟩ := hlast self1 hp1
    refine ⟨self2, ?_, hp2⟩
    simp only [parse_aterm_list, hch, if_true, hn1, outcome.bind, hc1, ne_eq,
      not_true_eq_false, if_false, hn2]
    simp
  | @cons e t es' ts' h1 h2 =>
    obtain ⟨⟨c, e', rfl, hc1, hc2, hc3, hc4⟩, hread⟩ := h1
    rw [intercalate_cons_eq] at hp
    simp only [List.cons_append, List.append_assoc] at hp
    obtain ⟨self1, hn1, hp1⟩ := assign_next_char_positioned true true self begin_
      (c :: (e' ++ ((es'.map fun e => ',' :: e).flatten ++ end_ :: rest))) hp (by simp)
      (no_space_ahead_reads c _ hc1)
    have hce : self1.character ≠ some end_ := by
      rw [hp1.1]
      simp only [List.head?_cons, ne_eq, Option.some.injEq]
      rcases hend with rfl | rfl
      · exact hc3
      · exact hc4
    have hdel : delimited ((es'.map fun e => ',' :: e).flatten ++ end_ :: rest) := by
      right
      cases es' with
      | nil =>
        refine ⟨end_, rest, by simp, ?_⟩
        rcases hend with rfl | rfl <;> simp
      | cons e2 es2 =>
        exact ⟨',', e2 ++ ((es2.map fun e => ',' :: e).flatten ++ end_ :: rest), by simp,
          Or.inl rfl⟩
    obtain ⟨self2, hn2, hp2⟩ := hread self1 _ (Or.inl hdel) (by simpa using hp1)
    rw [after_token_of_no_space _ (no_space_ahead_of_delimited _ hdel)] at hp2
    obtain ⟨self3, hn3, hp3⟩ := parse_aterm_list_loop_spec parse es' ts' h2 end_ hend rest
      fuel (by simpa using hfuel) [t] self2 hp2
    have hc3' : self3.character = some end_ := hp3.1
    obtain ⟨self4, hn4, hp4⟩ := hlast self3 hp3
    refine ⟨self4, ?_, hp4⟩
    simp only [parse_aterm_list, hch, if_true, hn1, outcome.bind, hce, ne_eq,
      not_false_eq_true, hn2, hn3, hc3', not_true_eq_false, if_false, hn4]
    simp

/-! ## The reader: unquoted names -/

theorem assign_next_char_raw (required : Bool) (self : text_aterm_input) (l : List Char)
    (hs : self.m_stream = l) (hreq : l = [] → required = false) :
    ∃ self', assign_next_char false required self = outcome.ok () self'
      ∧ self'.character = lookahead_of l ∧ self'.m_stream = l.tail := by
  unfold assign_next_char next_char
  rw [hs]
  cases l with
  | nil =>
    simp only [next_char_loop, hreq rfl]
    exact ⟨_, rfl, rfl, rfl⟩
  | cons d l' =>
    simp only [next_char_loop, Bool.and_false]
    refine ⟨_, rfl, ?_, ?_⟩
    · simp [outcome.bind, lookahead_of]
    · simp [outcome.bind]
      split_ifs <;> rfl

theorem unquoted_loop_condition (self : text_aterm_input) (c : Char)
    (hc : self.character = some c) :
    (self.character ≠ some '"' ∧ self.character ≠ some '(' ∧ self.character ≠ some ')'
        ∧ self.character ≠ some ']' ∧ self.character ≠ some ']' ∧ self.character ≠ some ','
        ∧ self.character ≠ some ' ' ∧ self.character ≠ some '\n'
        ∧ self.character ≠ some '\t' ∧ self.character ≠ some '\r'
        ∧ self.character ≠ none) ↔ ends_unquoted_string c = false := by
  rw [hc]
  simp only [ends_unquoted_string, ne_eq, Option.some.injEq, decide_eq_false_iff_not, not_or,
    not_false_eq_true, and_true, reduceCtorEq]
  tauto

theorem lookahead_of_stops (rest : List Char)
    (hrest : ∀ d, rest.head? = some d → ends_unquoted_string d = true) :
    ¬ (lookahead_of rest ≠ some '"' ∧ lookahead_of rest ≠ some '(' ∧ lookahead_of rest ≠ some ')'
        ∧ lookahead_of rest ≠ some ']' ∧ lookahead_of rest ≠ some ']'
        ∧ lookahead_of rest ≠ some ','
        ∧ lookahead_of rest ≠ some ' ' ∧ lookahead_of rest ≠ some '\n'
        ∧ lookahead_of rest ≠ some '\t' ∧ lookahead_of rest ≠ some '\r'
        ∧ lookahead_of rest ≠ none) := by
  unfold lookahead_of
  cases hh : rest.head? with
  | none => simp
  | some d =>
    have hd := hrest d hh
    by_cases hn : d = '\n'
    · simp [hn]
    · simp only [Option.some.injEq, hn, if_false, ne_eq, reduceCtorEq, not_false_eq_true,
        and_true]
      simp only [ends_unquoted_string, decide_eq_true_eq] at hd
      tauto

theorem parse_unquoted_string_loop_spec (name : List Char)
    (hname : ∀ x ∈ name, ends_unquoted_string x = false) (rest : List Char)
    (hrest : ∀ d, rest.head? = some d → ends_unquoted_string d = true)
    (c : Char) (hc : ends_unquoted_string c = false)
    (fuel : Nat) (hfuel : name.length + 2 ≤ fuel) (string : List Char)
    (self : text_aterm_input) (hch : self.character = some c)
    (hs : self.m_stream = name ++ rest) :
    ∃ self', parse_unquoted_string_loop fuel string self
        = outcome.ok (string ++ c :: name) self'
      ∧ self'.character = lookahead_of rest ∧ self'.m_stream = rest.tail := by
  induction name generalizing c fuel string self with
  | nil =>
    obtain ⟨fuel, rfl⟩ : ∃ f, fuel = f + 2 := ⟨fuel - 2, by simp at hfuel; omega⟩
    obtain ⟨self1, hn1, hc1, hs1⟩ := assign_next_char_raw default_required self rest
      (by simpa using hs) (fun _ => rfl)
    refine ⟨self1, ?_, hc1, hs1⟩
    have hstop := lookahead_of_stops rest hrest
    rw [← hc1] at hstop
    rw [parse_unquoted_string_loop, if_pos ((unquoted_loop_condition self c hch).2 hc)]
    simp only [hn1, outcome.bind]
    rw [parse_unquoted_string_loop, if_neg hstop, hch]
    rfl
  | cons d name ih =>
    obtain ⟨fuel, rfl⟩ : ∃ f, fuel = f + 1 := ⟨fuel - 1, by simp at hfuel; omega⟩
    have hd : ends_unquoted_string d = false := hname d (List.mem_cons_self _ _)
    obtain ⟨self1, hn1, hc1, hs1⟩ := assign_next_char_raw default_required self
      (d :: name ++ rest) (by simpa using hs) (fun _ => rfl)
    have hdn : d ≠ '\n' := by rintro rfl; revert hd; decide
    have hc1' : self1.character = some d := by
      rw [hc1]; simp [lookahead_of, hdn]
    obtain ⟨self2, hn2, hc2, hs2⟩ := ih (fun x hx => hname x (List.mem_cons_of_mem _ hx)) d hd
      fuel (by simp at hfuel ⊢; omega) (string ++ [c]) self1 hc1' (by simpa using hs1)
    refine ⟨self2, ?_, hc2, hs2⟩
    rw [parse_unquoted_string_loop, if_pos ((unquoted_loop_condition self c hch).2 hc)]
    simp only [hn1, outcome.bind]
    rw [hch]
    simp only [static_cast_char, hn2]
    simp

theorem parse_unquoted_string_spec (name : List Char)
    (hname : ∀ x ∈ name, ends_unquoted_string x = false) (rest : List Char)
    (hrest : ∀ d, rest.head? = some d → ends_unquoted_string d = true)
    (c : Char) (hc : ends_unquoted_string c = false)
    (self : text_aterm_input) (hch : self.character = some c)
    (hs : self.m_stream = name ++ rest) :
    ∃ self', parse_unquoted_string self = outcome.ok (c :: name) self'
      ∧ self'.character = lookahead_of rest ∧ self'.m_stream = rest.tail := by
  have h1 : self.character ≠ some '(' := by
    rw [hch]; simp only [ne_eq, Option.some.injEq]
    rintro rfl; revert hc; decide
  obtain ⟨self', h2, h3, h4⟩ := parse_unquoted_string_loop_spec name hname rest hrest c hc
    (self.m_stream.length + 2) (by rw [hs]; simp) [] self hch hs
  refine ⟨self', ?_, h3, h4⟩
  simp only [parse_unquoted_string, h1, ne_eq, not_false_eq_true, if_true, h2]
  simp

/-! ## The reader: quoted names -/

theorem quoted_body_head (s r : List Char) :
    ∃ d l, s.flatMap escape_symbol ++ '"' :: r = d :: l ∧ d ≠ '\n' := by
  cases s with
  | nil => exact ⟨'"', r, rfl, by decide⟩
  | cons c s =>
    simp only [List.flatMap_cons, escape_symbol]
    split_ifs with h1 h2 h3 h4
    · exact ⟨'\\', _, rfl, by decide⟩
    · exact ⟨'\\', _, rfl, by decide⟩
    · exact ⟨'\\', _, rfl, by decide⟩
    · exact ⟨'\\', _, rfl, by decide⟩
    · exact ⟨c, _, rfl, h2⟩

theorem raw_read_ok (l : List Char) (h : ∃ d l', l = d :: l' ∧ d ≠ '\n') :
    (l = [] → true = false) ∧
    ∀ d, l.head? = some d → d ≠ '\n' ∧ (false = true → isspace (some d) = false) := by
  obtain ⟨d, l', rfl, hd⟩ := h
  refine ⟨fun h => by simp at h, fun x hx => ?_⟩
  simp only [List.head?_cons, Option.some.injEq] at hx
  subst hx
  exact ⟨hd, fun h => by simp at h⟩

theorem parse_quoted_string_loop_escape (x : Char) (following : List Char)
    (hx : x ≠ '\n') (hf : ∃ d l', following = d :: l' ∧ d ≠ '\n')
    (self : text_aterm_input) (hp : positioned self ('\\' :: x :: following)) :
    ∃ self', positioned self' following ∧ ∀ fuel string,
      parse_quoted_string_loop (fuel + 1) string self
        = parse_quoted_string_loop fuel (string ++ [unescape_symbol x]) self' := by
  have hc : self.character = some '\\' := hp.1
  obtain ⟨self1, hn1, hp1⟩ := assign_next_char_positioned false true self '\\' (x :: following)
    hp (by simp) (raw_read_ok _ ⟨x, following, rfl, hx⟩).2
  have hc1 : self1.character = some x := hp1.1
  obtain ⟨self2, hn2, hp2⟩ := assign_next_char_positioned false true self1 x following
    hp1 (raw_read_ok _ hf).1 (raw_read_ok _ hf).2
  refine ⟨self2, hp2, fun fuel string => ?_⟩
  have h1 : self.character ≠ some '"' := by rw [hc]; decide
  rw [parse_quoted_string_loop, if_neg h1, if_pos hc]
  simp only [hn1, outcome.bind, hc1, Option.some.injEq, static_cast_char, hn2]
  unfold unescape_symbol
  split_ifs <;> rfl

theorem parse_quoted_string_loop_plain (c : Char) (following : List Char)
    (hc1 : c ≠ '"') (hc2 : c ≠ '\\') (hf : ∃ d l', following = d :: l' ∧ d ≠ '\n')
    (self : text_aterm_input) (hp : positioned self (c :: following)) :
    ∃ self', positioned self' following ∧ ∀ fuel string,
      parse_quoted_string_loop (fuel + 1) string self
        = parse_quoted_string_loop fuel (string ++ [c]) self' := by
  have hc : self.character = some c := hp.1
  obtain ⟨self1, hn1, hp1⟩ := assign_next_char_positioned false true self c following
    hp (raw_read_ok _ hf).1 (raw_read_ok _ hf).2
  refine ⟨self1, hp1, fun fuel string => ?_⟩
  have h1 : self.character ≠ some '"' := by rw [hc]; simpa using hc1
  have h2 : self.character ≠ some '\\' := by rw [hc]; simpa using hc2
  rw [parse_quoted_string_loop, if_neg h1, if_neg h2]
  simp only [hn1, outcome.bind, hc, static_cast_char]

theorem parse_quoted_string_loop_spec (s rest : List Char) (fuel : Nat)
    (hfuel : s.length + 1 ≤ fuel) (string : List Char) (self : text_aterm_input)
    (hp : positioned self (s.flatMap escape_symbol ++ '"' :: rest)) :
    ∃ self', parse_quoted_string_loop fuel string self = outcome.ok (string ++ s) self'
      ∧ positioned self' ('"' :: rest) := by
  induction s generalizing fuel string self with
  | nil =>
    obtain ⟨fuel, rfl⟩ : ∃ f, fuel = f + 1 := ⟨fuel - 1, by omega⟩
    have hc : self.character = some '"' := hp.1
    exact ⟨self, by simp [parse_quoted_string_loop, hc], hp⟩
  | cons c s ih =>
    obtain ⟨fuel, rfl⟩ : ∃ f, fuel = f + 1 := ⟨fuel - 1, by omega⟩
    have hf := quoted_body_head s rest
    have hfuel' : s.length + 1 ≤ fuel := by simpa using hfuel
    simp only [List.flatMap_cons, escape_symbol] at hp
    have key : ∀ (x : Char) (self1 : text_aterm_input),
        positioned self1 (s.flatMap escape_symbol ++ '"' :: rest) →
        (∀ fuel string, parse_quoted_string_loop (fuel + 1) string self
          = parse_quoted_string_loop fuel (string ++ [x]) self1) → x = c →
        ∃ self', parse_quoted_string_loop (fuel + 1) string self
            = outcome.ok (string ++ c :: s) self' ∧ positioned self' ('"' :: rest) := by
      intro x self1 hp1 hstep hxc
      obtain ⟨self', h1, h2⟩ := ih fuel hfuel' (string ++ [x]) self1 hp1
      refine ⟨self', ?_, h2⟩
      rw [hstep, h1, hxc]
      simp
    split_ifs at hp with h1 h2 h3 h4
    · obtain ⟨self1, hp1, hstep⟩ := parse_quoted_string_loop_escape c _
        (by rcases h1 with rfl | rfl <;> decide) hf self (by simpa using hp)
      exact key _ self1 hp1 hstep (by
        rcases h1 with rfl | rfl <;> decide)
    · obtain ⟨self1, hp1, hstep⟩ := parse_quoted_string_loop_escape 'n' _ (by decide) hf self
        (by simpa using hp)
      exact key _ self1 hp1 hstep (by rw [h2]; decide)
    · obtain ⟨self1, hp1, hstep⟩ := parse_quoted_string_loop_escape 't' _ (by decide) hf self
        (by simpa using hp)
      exact key _ self1 hp1 hstep (by rw [h3]; decide)
    · obtain ⟨self1, hp1, hstep⟩ := parse_quoted_string_loop_escape 'r' _ (by decide) hf self
        (by simpa using hp)
      exact key _ self1 hp1 hstep (by rw [h4]; decide)
    · obtain ⟨self1, hp1, hstep⟩ := parse_quoted_string_loop_plain c _
        (fun h => h1 (Or.inr h)) (fun h => h1 (Or.inl h)) hf self (by simpa using hp)
      exact key _ self1 hp1 hstep rfl

theorem length_le_flatMap_escape (s : List Char) : s.length ≤ (s.flatMap escape_symbol).length := by
  induction s with
  | nil => simp
  | cons c s ih =>
    simp only [List.flatMap_cons, List.length_append, List.length_cons, escape_symbol]
    split_ifs <;> simp only [List.length_cons, List.length_nil] <;> omega

/-- Reading a quoted name whose first character is not skipped as whitespace. -/
theorem parse_quoted_string_spec (c : Char) (s rest : List Char)
    (hc : c ≠ ' ' ∧ c ≠ '\x0b' ∧ c ≠ '\x0c') (hrest : no_space_ahead rest ∨ rest = ['\n'])
    (self : text_aterm_input)
    (hp : positioned self ('"' :: ((c :: s).flatMap escape_symbol ++ '"' :: rest))) :
    ∃ self', parse_quoted_string self = outcome.ok (c :: s) self'
      ∧ positioned self' (after_token rest) := by
  have hhead : ∃ d l, (c :: s).flatMap escape_symbol ++ '"' :: rest = d :: l
      ∧ isspace (some d) = false := by
    simp only [List.flatMap_cons, escape_symbol]
    split_ifs with h1 h2 h3 h4
    · exact ⟨'\\', _, rfl, by decide⟩
    · exact ⟨'\\', _, rfl, by decide⟩
    · exact ⟨'\\', _, rfl, by decide⟩
    · exact ⟨'\\', _, rfl, by decide⟩
    · refine ⟨c, _, rfl, ?_⟩
      simp only [isspace, decide_eq_false_iff_not, not_or]
      exact ⟨hc.1, h3, h2, hc.2.1, hc.2.2, h4⟩
  obtain ⟨d, l, hdl, hd⟩ := hhead
  obtain ⟨self1, hn1, hp1⟩ := assign_next_char_positioned default_skip_whitespace
    default_required self '"' _ hp (fun _ => rfl) (by
      rw [hdl]
      exact no_space_ahead_reads d l hd)
  have hlen : (c :: s).length + 1 ≤ self1.m_stream.length + 2 := by
    have h1 := length_le_flatMap_escape (c :: s)
    rw [hp1.2, hdl, List.tail_cons]
    have h2 : ((c :: s).flatMap escape_symbol ++ '"' :: rest).length = (d :: l).length := by
      rw [hdl]
    simp only [List.length_append, List.length_cons] at h2 h1 ⊢
    omega
  obtain ⟨self2, hn2, hp2⟩ := parse_quoted_string_loop_spec (c :: s) rest
    (self1.m_stream.length + 2) hlen [] self1 hp1
  obtain ⟨self3, hn3, hp3⟩ := assign_next_char_end self2 '"' rest hp2 hrest
  refine ⟨self3, ?_, hp3⟩
  simp only [parse_quoted_string, hn1, outcome.bind, hn2, hn3]
  simp

/-! ## The text written with the identity transform -/

theorem size_pos (t : aterm) : 0 < t.size := by
  cases t <;> simp [aterm.size]

theorem size_le_sizeList (l : List aterm) : ∀ t ∈ l, t.size ≤ aterm.sizeList l := by
  induction l with
  | nil => simp
  | cons u us ih =>
    intro t ht
    simp only [aterm.sizeList]
    rcases List.mem_cons.1 ht with rfl | h
    · omega
    · have := ih t h
      omega

theorem length_le_sizeList (l : List aterm) : l.length ≤ aterm.sizeList l := by
  induction l with
  | nil => simp
  | cons u us ih =>
    simp only [aterm.sizeList, List.length_cons]
    have := size_pos u
    omega

theorem term_texts_eq_map (l : List aterm) : term_texts l = l.map term_text := by
  induction l with
  | nil => simp [term_texts]
  | cons t ts ih => simp [term_texts, ih]

theorem forall₂_term_texts (P : aterm → List Char → Prop) (l : List aterm)
    (h : ∀ t ∈ l, P t (term_text t)) : List.Forall₂ P l (term_texts l) := by
  induction l with
  | nil => simp [term_texts]
  | cons t ts ih =>
    simp only [term_texts]
    exact List.Forall₂.cons (h t (List.mem_cons_self _ _))
      (ih fun u hu => h u (List.mem_cons_of_mem _ hu))

theorem list_text_of_element_texts (m_transformer : aterm_transformer) (fuel : Nat)
    (hs : List aterm) (texts : List (List Char)) (os : List Char)
    (h : List.Forall₂ (fun h text => write_term_line m_transformer fuel h [] = some text)
      hs texts) :
    write_term_line m_transformer (fuel + 1) (aterm.list hs) os
        = some (os ++ ['['] ++ List.intercalate [','] texts ++ [']']) := by
  simp only [write_term_line]
  rw [write_term_lines_true _ (write_term_line_append m_transformer fuel) hs texts h]

theorem appl_text_of_child_texts (fuel : Nat) (f : List Char) (ts : List aterm)
    (texts : List (List Char)) (os : List Char)
    (h : List.Forall₂ (fun t text => write_term_line identity fuel t [] = some text) ts texts) :
    write_term_line identity (fuel + 1) (aterm.appl f ts) os
      = some (write_string_with_escape_symbols f os ++
          if ts.length > 0 then ['('] ++ List.intercalate [','] texts ++ [')'] else []) := by
  cases h with
  | nil => simp [write_term_line, identity]
  | @cons t text ts' texts' h1 h2 =>
    simp only [write_term_line, identity]
    rw [write_term_line_append identity fuel t, h1]
    simp only [Option.map_some']
    rw [write_term_lines_false _ (write_term_line_append identity fuel) ts' texts' h2]
    simp [intercalate_cons_eq]

/-- With the identity transform and fuel for every node, `write_term_line` appends the
text of the term to the stream. -/
theorem write_term_line_identity (fuel : Nat) (t : aterm) (hfuel : t.size ≤ fuel)
    (os : List Char) : write_term_line identity fuel t os = some (os ++ term_text t) := by
  induction fuel generalizing t os with
  | zero =>
    have := size_pos t
    omega
  | succ fuel ih =>
    cases t with
    | int value => simp [write_term_line, term_text]
    | list l =>
      simp only [aterm.size] at hfuel
      rw [list_text_of_element_texts identity fuel l (term_texts l) os
        (forall₂_term_texts _ l fun t ht => by
          have := size_le_sizeList l t ht
          simpa using ih t (by omega) [])]
      simp [term_text]
    | appl name l =>
      simp only [aterm.size] at hfuel
      rw [appl_text_of_child_texts fuel name l (term_texts l) os
        (forall₂_term_texts _ l fun t ht => by
          have := size_le_sizeList l t ht
          simpa using ih t (by omega) [])]
      rw [write_string_with_escape_symbols_append name os]
      simp [term_text]

/-! ## The reader: applications -/

theorem parse_aterm_appl_arguments (m_transformer : aterm_transformer)
    (parse : text_aterm_input → outcome aterm)
    (es : List (List Char)) (ts : List aterm) (h : List.Forall₂ (reads_as parse) es ts)
    (rest : List Char) (hrest : no_space_ahead rest ∨ rest = ['\n'])
    (fuel : Nat) (hfuel : es.length ≤ fuel)
    (function_name : List Char) (self : text_aterm_input)
    (hp : positioned self ('(' :: List.intercalate [','] es ++ ')' :: rest)) :
    ∃ self', parse_aterm_appl m_transformer parse fuel function_name self
        = outcome.ok (m_transformer (function_name, ts)) self'
      ∧ positioned self' (after_token rest) := by
  obtain ⟨self', h1, h2⟩ := parse_aterm_list_spec parse es ts h '(' ')' (Or.inr ⟨rfl, rfl⟩)
    rest hrest fuel hfuel self hp
  exact ⟨self', by simp [parse_aterm_appl, h1, outcome.bind], h2⟩

theorem parse_aterm_appl_constant (m_transformer : aterm_transformer)
    (parse : text_aterm_input → outcome aterm) (fuel : Nat)
    (function_name : List Char) (self : text_aterm_input)
    (hc : self.character ≠ some '(') :
    parse_aterm_appl m_transformer parse fuel function_name self
      = outcome.ok (m_transformer (function_name, [])) self := by
  simp [parse_aterm_appl, parse_aterm_list, hc, outcome.bind]

theorem parse_aterm_quoted (m_transformer : aterm_transformer) (fuel : Nat)
    (self : text_aterm_input) (hc : self.character = some '"') :
    parse_aterm m_transformer (fuel + 1) self
      = (parse_quoted_string self).bind fun function_name self =>
          (parse_aterm_appl m_transformer (parse_aterm m_transformer fuel) fuel function_name
            self).bind fun appl self => outcome.ok (aterm.appl appl.1 appl.2) self := by
  simp only [parse_aterm, hc, if_true]

theorem parse_aterm_bracket (m_transformer : aterm_transformer) (fuel : Nat)
    (self : text_aterm_input) (hc : self.character = some '[') :
    parse_aterm m_transformer (fuel + 1) self
      = (parse_aterm_list (parse_aterm m_transformer fuel) fuel self '[' ']').bind
          fun list self => outcome.ok (aterm.list list) self := by
  have h1 : self.character ≠ some '"' := by rw [hc]; decide
  rw [parse_aterm, if_neg h1, if_pos hc]

theorem parse_aterm_unquoted (m_transformer : aterm_transformer) (fuel : Nat)
    (self : text_aterm_input) (c : Char) (hc : self.character = some c)
    (h1 : c ≠ '"') (h2 : c ≠ '[') (h3 : isdigit (some c) = false) (h4 : c ≠ '-') :
    parse_aterm m_transformer (fuel + 1) self
      = (parse_unquoted_string self).bind fun function_symbol self =>
          (parse_aterm_appl m_transformer (parse_aterm m_transformer fuel) fuel function_symbol
            self).bind fun appl self => outcome.ok (aterm.appl appl.1 appl.2) self := by
  have e1 : self.character ≠ some '"' := by rw [hc]; simpa using h1
  have e2 : self.character ≠ some '[' := by rw [hc]; simpa using h2
  have e3 : ¬ (isdigit self.character = true ∨ self.character = some '-') := by
    rw [hc]; simp [h3, h4]
  simp only [parse_aterm, e1, e2, e3, if_false]

/-- An unquoted identifier followed by a stopping character other than `(`, or by the
end of the input, is read as a constant. -/
theorem parse_aterm_identifier (m_transformer : aterm_transformer) (fuel : Nat)
    (f : List Char) (hf : unquoted_identifier f) (rest : List Char)
    (hrest : ∀ d, rest.head? = some d → ends_unquoted_string d = true ∧ d ≠ '(')
    (self : text_aterm_input) (hp : positioned self (f ++ rest)) :
    ∃ self', parse_aterm m_transformer (fuel + 1) self
        = outcome.ok (aterm.appl (m_transformer (f, [])).1 (m_transformer (f, [])).2) self'
      ∧ self'.character = lookahead_of rest ∧ self'.m_stream = rest.tail := by
  obtain ⟨⟨c, f', rfl, hc1, hc2, hc3⟩, hall⟩ := hf
  have hcs : ends_unquoted_string c = false := hall c (List.mem_cons_self _ _)
  have hq : c ≠ '"' := by rintro rfl; revert hcs; decide
  obtain ⟨self1, hn1, hch1, hs1⟩ := parse_unquoted_string_spec f'
    (fun x hx => hall x (List.mem_cons_of_mem _ hx)) rest (fun d hd => (hrest d hd).1) c hcs
    self hp.1 (by simpa using hp.2)
  have hpar : self1.character ≠ some '(' := by
    rw [hch1]
    unfold lookahead_of
    split_ifs with h
    · simp
    · intro h'
      exact (hrest '(' h').2 rfl
  refine ⟨self1, ?_, hch1, hs1⟩
  rw [parse_aterm_unquoted m_transformer fuel self c hp.1 hq hc1 hc2 hc3, hn1]
  simp only [outcome.bind, parse_aterm_appl_constant _ _ _ _ _ hpar]

/-- An unquoted identifier followed by a parenthesized list of argument texts. -/
theorem parse_aterm_identifier_arguments (m_transformer : aterm_transformer) (fuel : Nat)
    (f : List Char) (hf : unquoted_identifier f)
    (es : List (List Char)) (ts : List aterm)
    (h : List.Forall₂ (reads_as (parse_aterm m_transformer fuel)) es ts)
    (hfuel : es.length ≤ fuel) (rest : List Char)
    (hrest : no_space_ahead rest ∨ rest = ['\n']) (self : text_aterm_input)
    (hp : positioned self (f ++ '(' :: List.intercalate [','] es ++ ')' :: rest)) :
    ∃ self', parse_aterm m_transformer (fuel + 1) self
        = outcome.ok (aterm.appl (m_transformer (f, ts)).1 (m_transformer (f, ts)).2) self'
      ∧ positioned self' (after_token rest) := by
  obtain ⟨⟨c, f', rfl, hc1, hc2, hc3⟩, hall⟩ := hf
  have hcs : ends_unquoted_string c = false := hall c (List.mem_cons_self _ _)
  have hq : c ≠ '"' := by rintro rfl; revert hcs; decide
  have hp' : positioned self (c :: f' ++ ('(' :: List.intercalate [','] es ++ ')' :: rest)) := by
    simpa [List.append_assoc] using hp
  obtain ⟨self1, hn1, hch1, hs1⟩ := parse_unquoted_string_spec f'
    (fun x hx => hall x (List.mem_cons_of_mem _ hx))
    ('(' :: List.intercalate [','] es ++ ')' :: rest)
    (fun d hd => by
      simp only [List.cons_append, List.head?_cons, Option.some.injEq] at hd
      subst hd
      decide) c hcs self hp'.1 (by simpa using hp'.2)
  have hp1 : positioned self1 ('(' :: List.intercalate [','] es ++ ')' :: rest) := by
    refine ⟨?_, hs1⟩
    rw [hch1]
    simp [lookahead_of]
  obtain ⟨self2, hn2, hp2⟩ := parse_aterm_appl_arguments m_transformer
    (parse_aterm m_transformer fuel) es ts h rest hrest fuel hfuel (c :: f') self1 hp1
  refine ⟨self2, ?_, hp2⟩
  rw [parse_aterm_unquoted m_transformer fuel self c hp'.1 hq hc1 hc2 hc3, hn1]
  simp only [outcome.bind, hn2]

/-! ## Reading back the text of a term -/

theorem readable_name_cons (f : List Char) (h : readable_name f = true) :
    ∃ c s, f = c :: s ∧ c ≠ ' ' ∧ c ≠ '\x0b' ∧ c ≠ '\x0c' := by
  cases f with
  | nil => simp [readable_name] at h
  | cons c s =>
    simp only [readable_name, decide_eq_true_eq] at h
    exact ⟨c, s, rfl, h⟩

theorem unquoted_identifier_of_not_special (c : Char) (s : List Char)
    (h : contains_special_symbols (c :: s) = false) :
    unquoted_identifier (c :: s) ∧ c ≠ '"' ∧ c ≠ ',' ∧ c ≠ ')' ∧ c ≠ ']'
      ∧ c ≠ '\t' ∧ c ≠ '\n' ∧ c ≠ '\r' := by
  have hq : ¬ quoting_rule (c :: s) := by
    rw [← contains_special_symbols_iff, h]
    simp
  unfold quoting_rule at hq
  simp only [not_or, not_exists, not_and] at hq
  obtain ⟨h1, h2⟩ := hq
  have h1' := h1 c s rfl
  have hc := h2 c (List.mem_cons_self _ _)
  refine ⟨⟨⟨c, s, rfl, hc.2.2.2.2.1, ?_, h1'.1⟩, ?_⟩, hc.2.1, hc.2.2.2.2.2.2.1, hc.2.2.2.1,
    hc.2.2.2.2.2.1, hc.2.2.2.2.2.2.2.2.2.1, hc.2.2.2.2.2.2.2.2.1, hc.2.2.2.2.2.2.2.2.2.2⟩
  · simpa [isdigit] using h1'.2
  · intro x hx
    have := h2 x hx
    simp only [ends_unquoted_string, decide_eq_false_iff_not, not_or]
    tauto

theorem delimited_head (rest : List Char) (h : delimited rest) (d : Char)
    (hd : rest.head? = some d) : d = ',' ∨ d = ')' ∨ d = ']' := by
  rcases h with rfl | ⟨d', r, rfl, h⟩
  · simp at hd
  · simp only [List.head?_cons, Option.some.injEq] at hd
    subst hd
    exact h

theorem delimited_not_digit (rest : List Char) (h : delimited rest) :
    ∀ d, rest.head? = some d → isdigit (some d) = false := by
  intro d hd
  rcases delimited_head rest h d hd with rfl | rfl | rfl <;> decide

theorem delimited_stops (rest : List Char) (h : delimited rest) :
    ∀ d, rest.head? = some d → ends_unquoted_string d = true ∧ d ≠ '(' := by
  intro d hd
  rcases delimited_head rest h d hd with rfl | rfl | rfl <;> decide

theorem token_end_of_term_end (rest : List Char) (h : delimited rest ∨ rest = ['\n']) :
    no_space_ahead rest ∨ rest = ['\n'] :=
  h.imp (no_space_ahead_of_delimited rest) id

theorem term_end_not_digit (rest : List Char) (h : delimited rest ∨ rest = ['\n']) :
    ∀ d, rest.head? = some d → isdigit (some d) = false := by
  rcases h with h | rfl
  · exact delimited_not_digit rest h
  · intro d hd
    simp only [List.head?_cons, Option.some.injEq] at hd
    subst hd
    decide

theorem term_end_stops (rest : List Char) (h : delimited rest ∨ rest = ['\n']) :
    ∀ d, rest.head? = some d →
      ends_unquoted_string d = true ∧ d ≠ '(' ∧ (d ≠ '\n' ∨ rest = ['\n']) := by
  rcases h with h | rfl
  · intro d hd
    rcases delimited_head rest h d hd with rfl | rfl | rfl <;>
      exact ⟨by decide, by decide, Or.inl (by decide)⟩
  · intro d hd
    simp only [List.head?_cons, Option.some.injEq] at hd
    subst hd
    exact ⟨by decide, by decide, Or.inr rfl⟩

theorem positioned_of_lookahead (self : text_aterm_input) (rest : List Char)
    (hn : ∀ d, rest.head? = some d → d ≠ '\n' ∨ rest = ['\n'])
    (hc : self.character = lookahead_of rest) (hs : self.m_stream = rest.tail) :
    positioned self (after_token rest) := by
  by_cases hr : rest = ['\n']
  · subst hr
    rw [after_token_newline]
    exact ⟨by rw [hc]; rfl, by rw [hs]; rfl⟩
  · have : after_token rest = rest := by simp [after_token, hr]
    rw [this]
    refine ⟨?_, hs⟩
    rw [hc]
    unfold lookahead_of
    split_ifs with h
    · rcases hn _ h with h1 | h1
      · exact absurd rfl h1
      · exact absurd h1 hr
    · rfl

theorem after_token_head_ne_paren (rest : List Char) (h : delimited rest ∨ rest = ['\n']) :
    (after_token rest).head? ≠ some '(' := by
  by_cases hr : rest = ['\n']
  · subst hr
    simp [after_token]
  · have : after_token rest = rest := by simp [after_token, hr]
    rw [this]
    intro h'
    exact (term_end_stops rest h '(' h').2.1 rfl

/-- After the name `f` was read and the lookahead stands at the text of the arguments
`ts` followed by `rest`, `parse_aterm_appl` returns the application of `f` to `ts`. -/
theorem parse_aterm_appl_texts (parse : text_aterm_input → outcome aterm)
    (es : List (List Char)) (ts : List aterm) (h : List.Forall₂ (reads_as parse) es ts)
    (rest : List Char) (hrest : delimited rest ∨ rest = ['\n'])
    (fuel : Nat) (hfuel : es.length ≤ fuel)
    (f : List Char) (self : text_aterm_input)
    (hp : positioned self (after_token
      ((if ts.length > 0 then ['('] ++ List.intercalate [','] es ++ [')'] else []) ++ rest))) :
    ∃ self', parse_aterm_appl identity parse fuel f self = outcome.ok (f, ts) self'
      ∧ positioned self' (after_token rest) := by
  by_cases hl : ts.length > 0
  · simp only [hl, if_true] at hp
    have hat : after_token (['('] ++ List.intercalate [','] es ++ [')'] ++ rest)
        = '(' :: List.intercalate [','] es ++ ')' :: rest := by
      simp [after_token]
    rw [hat] at hp
    exact parse_aterm_appl_arguments identity parse es ts h rest
      (token_end_of_term_end rest hrest) fuel hfuel f self hp
  · simp only [hl, if_false, List.nil_append] at hp
    have hts : ts = [] := by
      cases ts with
      | nil => rfl
      | cons t ts => simp at hl
    subst hts
    have hc : self.character ≠ some '(' := by
      rw [hp.1]
      exact after_token_head_ne_paren rest hrest
    exact ⟨self, by rw [parse_aterm_appl_constant _ _ _ _ _ hc]; rfl, hp⟩

/-- The core of the round trip: with fuel for every node, `parse_aterm` with the
identity transform reads the text of a readable term as that term. -/
theorem reads_as_term_text (fuel : Nat) (t : aterm) (hfuel : t.size ≤ fuel)
    (ht : t.readable = true) : reads_as (parse_aterm identity fuel) (term_text t) t := by
  induction fuel generalizing t with
  | zero =>
    have := size_pos t
    omega
  | succ fuel ih =>
    have hchildren : ∀ l : List aterm, aterm.sizeList l ≤ fuel → aterm.readableList l = true →
        List.Forall₂ (reads_as (parse_aterm identity fuel)) (term_texts l) l := by
      intro l hl hr
      induction l with
      | nil => simp [term_texts]
      | cons u us ihl =>
        simp only [aterm.sizeList] at hl
        simp only [aterm.readableList, Bool.and_eq_true] at hr
        simp only [term_texts]
        exact List.Forall₂.cons (ih u (by omega) hr.1) (ihl (by omega) hr.2)
    have hlen : ∀ l : List aterm, aterm.sizeList l ≤ fuel → (term_texts l).length ≤ fuel := by
      intro l hl
      rw [term_texts_eq_map, List.length_map]
      exact le_trans (length_le_sizeList l) hl
    cases t with
    | int value =>
      simp only [aterm.readable, word_bits, decide_eq_true_eq] at ht
      obtain ⟨c, l, hcl⟩ := List.exists_cons_of_ne_nil (toDigits_ne_nil value)
      have hc : isdigit (some c) = true := toDigits_all_digits value c (by rw [hcl]; simp)
      refine ⟨⟨c, l, by simp [term_text, hcl], isspace_of_isdigit c hc, ?_, ?_, ?_⟩, ?_⟩
      · rintro rfl; revert hc; decide
      · rintro rfl; revert hc; decide
      · rintro rfl; revert hc; decide
      · intro self rest hrest hp
        simp only [term_text] at hp
        have hch : self.character = some c := by rw [hp.1, hcl]; rfl
        rw [parse_aterm_digit identity fuel self c hch (Or.inl hc)]
        exact parse_aterm_int_toDigits value (by simpa using ht) self rest hp
          (token_end_of_term_end rest hrest) (term_end_not_digit rest hrest)
    | list l =>
      simp only [aterm.size] at hfuel
      simp only [aterm.readable] at ht
      refine ⟨⟨'[', _, by simp [term_text]; rfl, by decide, by decide, by decide, by decide⟩, ?_⟩
      intro self rest hrest hp
      have hp' : positioned self ('[' :: List.intercalate [','] (term_texts l) ++ ']' :: rest) := by
        simpa [term_text, List.append_assoc] using hp
      obtain ⟨self', h1, h2⟩ := parse_aterm_list_spec (parse_aterm identity fuel)
        (term_texts l) l (hchildren l (by omega) ht) '[' ']' (Or.inl ⟨rfl, rfl⟩) rest
        (token_end_of_term_end rest hrest) fuel (hlen l (by omega)) self hp'
      refine ⟨self', ?_, h2⟩
      rw [parse_aterm_bracket identity fuel self hp'.1, h1]
      rfl
    | appl name l =>
      simp only [aterm.size] at hfuel
      simp only [aterm.readable, Bool.and_eq_true] at ht
      obtain ⟨c, s, rfl, hc1, hc2, hc3⟩ := readable_name_cons name ht.1
      by_cases hq : contains_special_symbols (c :: s) = true
      · have htext : ∀ rest, term_text (aterm.appl (c :: s) l) ++ rest
            = '"' :: ((c :: s).flatMap escape_symbol ++ '"' ::
              ((if l.length > 0 then ['('] ++ List.intercalate [','] (term_texts l) ++ [')']
                else []) ++ rest)) := by
          intro rest
          simp only [term_text, write_string_with_escape_symbols_eq, hq, if_true]
          simp [List.append_assoc]
        refine ⟨⟨'"', _, by simpa using htext [], by decide, by decide, by decide,
          by decide⟩, ?_⟩
        intro self rest hrest hp
        rw [htext] at hp
        have hns : no_space_ahead ((if l.length > 0
            then ['('] ++ List.intercalate [','] (term_texts l) ++ [')'] else []) ++ rest)
            ∨ (if l.length > 0
            then ['('] ++ List.intercalate [','] (term_texts l) ++ [')'] else []) ++ rest
              = ['\n'] := by
          by_cases hl : l.length > 0
          · simp only [hl, if_true]
            left
            intro d hd
            simp only [List.cons_append, List.singleton_append, List.head?_cons,
              Option.some.injEq] at hd
            subst hd
            decide
          · simp only [hl, if_false, List.nil_append]
            exact token_end_of_term_end rest hrest
        obtain ⟨self1, hn1, hp1⟩ := parse_quoted_string_spec c s _ ⟨hc1, hc2, hc3⟩ hns self hp
        obtain ⟨self2, hn2, hp2⟩ := parse_aterm_appl_texts (parse_aterm identity fuel)
          (term_texts l) l (hchildren l (by omega) ht.2) rest hrest fuel (hlen l (by omega))
          (c :: s) self1 hp1
        refine ⟨self2, ?_, hp2⟩
        rw [parse_aterm_quoted identity fuel self hp.1, hn1]
        simp only [outcome.bind, hn2]
      · have hq' : contains_special_symbols (c :: s) = false := by simpa using hq
        obtain ⟨hid, hn1, hn2, hn3, hn4, hn5, hn6, hn7⟩ :=
          unquoted_identifier_of_not_special c s hq'
        obtain ⟨⟨c', f', hcf, hb, hd, hm⟩, hall⟩ := hid
        injection hcf with e1 e2
        subst e1
        subst e2
        have hsp : isspace (some c) = false := by
          simp only [isspace, decide_eq_false_iff_not, not_or]
          exact ⟨hc1, hn5, hn6, hc2, hc3, hn7⟩
        have htext : ∀ rest, term_text (aterm.appl (c :: s) l) ++ rest
            = c :: (s ++
              ((if l.length > 0 then ['('] ++ List.intercalate [','] (term_texts l) ++ [')']
                else []) ++ rest)) := by
          intro rest
          simp only [term_text, write_string_with_escape_symbols_eq, hq', Bool.false_eq_true,
            if_false]
          simp [List.append_assoc]
        refine ⟨⟨c, _, by simpa using htext [], hsp, hn2, hn3, hn4⟩, ?_⟩
        intro self rest hrest hp
        rw [htext] at hp
        have hstop : ∀ d, ((if l.length > 0
            then ['('] ++ List.intercalate [','] (term_texts l) ++ [')'] else []) ++ rest).head?
              = some d → ends_unquoted_string d = true ∧ (d ≠ '\n' ∨
                (if l.length > 0
                  then ['('] ++ List.intercalate [','] (term_texts l) ++ [')'] else []) ++ rest
                    = ['\n']) := by
          by_cases hl : l.length > 0
          · simp only [hl, if_true]
            intro d hd
            simp only [List.cons_append, List.singleton_append, List.head?_cons,
              Option.some.injEq] at hd
            subst hd
            exact ⟨by decide, Or.inl (by decide)⟩
          · simp only [hl, if_false, List.nil_append]
            intro d hd
            exact ⟨(term_end_stops rest hrest d hd).1, (term_end_stops rest hrest d hd).2.2⟩
        obtain ⟨self1, hr1, hch1, hs1⟩ := parse_unquoted_string_spec s
          (fun x hx => hall x (List.mem_cons_of_mem _ hx)) _ (fun d hd => (hstop d hd).1) c
          (hall c (List.mem_cons_self _ _)) self hp.1 (by simpa using hp.2)
        have hp1 := positioned_of_lookahead self1 _ (fun d hd => (hstop d hd).2) hch1 hs1
        obtain ⟨self2, hr2, hp2⟩ := parse_aterm_appl_texts (parse_aterm identity fuel)
          (term_texts l) l (hchildren l (by omega) ht.2) rest hrest fuel (hlen l (by omega))
          (c :: s) self1 hp1
        refine ⟨self2, ?_, hp2⟩
        rw [parse_aterm_unquoted identity fuel self c hp.1 hn1 hb hd hm, hr1]
        simp only [outcome.bind, hr2]

/-! ## The text of a term is at least as long as the term has nodes -/

theorem sizeList_le_flatten (l : List aterm) (h : ∀ t ∈ l, t.size ≤ (term_text t).length) :
    aterm.sizeList l ≤ ((term_texts l).map fun e => ',' :: e).flatten.length := by
  induction l with
  | nil => simp [aterm.sizeList]
  | cons u us ih =>
    have h1 := h u (List.mem_cons_self _ _)
    have h2 := ih fun t ht => h t (List.mem_cons_of_mem _ ht)
    simp only [aterm.sizeList, term_texts, List.map_cons, List.flatten_cons, List.length_append,
      List.length_cons]
    omega

theorem sizeList_le_intercalate (l : List aterm) (h : ∀ t ∈ l, t.size ≤ (term_text t).length) :
    aterm.sizeList l ≤ (List.intercalate [','] (term_texts l)).length := by
  cases l with
  | nil => simp [aterm.sizeList]
  | cons u us =>
    have h1 := h u (List.mem_cons_self _ _)
    have h2 := sizeList_le_flatten us fun t ht => h t (List.mem_cons_of_mem _ ht)
    simp only [term_texts, intercalate_cons_eq, aterm.sizeList, List.length_append]
    omega

theorem length_write_string_pos (c : Char) (s : List Char) :
    0 < (write_string_with_escape_symbols (c :: s) []).length := by
  rw [write_string_with_escape_symbols_eq]
  split_ifs <;> simp

theorem size_le_length_term_text (n : Nat) (t : aterm) (hn : t.size ≤ n)
    (ht : t.readable = true) : t.size ≤ (term_text t).length := by
  induction n generalizing t with
  | zero =>
    have := size_pos t
    omega
  | succ n ih =>
    have hchildren : ∀ l : List aterm, aterm.sizeList l ≤ n → aterm.readableList l = true →
        ∀ t ∈ l, t.size ≤ (term_text t).length := by
      intro l hl hr
      induction l with
      | nil => simp
      | cons u us ihl =>
        simp only [aterm.sizeList] at hl
        simp only [aterm.readableList, Bool.and_eq_true] at hr
        intro t ht
        rcases List.mem_cons.1 ht with rfl | h
        · exact ih t (by omega) hr.1
        · exact ihl (by omega) hr.2 t h
    cases t with
    | int value =>
      have := List.length_pos.2 (toDigits_ne_nil value)
      simp only [aterm.size, term_text]
      omega
    | list l =>
      simp only [aterm.size] at hn
      simp only [aterm.readable] at ht
      have := sizeList_le_intercalate l (hchildren l (by omega) ht)
      simp only [aterm.size, term_text, List.length_append, List.length_singleton]
      omega
    | appl name l =>
      simp only [aterm.size] at hn
      simp only [aterm.readable, Bool.and_eq_true] at ht
      obtain ⟨c, s, rfl, _⟩ := readable_name_cons name ht.1
      have h1 := sizeList_le_intercalate l (hchildren l (by omega) ht.2)
      have h2 := length_write_string_pos c s
      simp only [aterm.size, term_text, List.length_append]
      by_cases hl : l.length > 0
      · simp only [hl, if_true, List.length_append, List.length_singleton]
        omega
      · have hl' : l = [] := by
          cases l with
          | nil => rfl
          | cons t ts => simp at hl
        subst hl'
        simp only [aterm.sizeList, List.length_nil, gt_iff_lt, lt_self_iff_false, if_false]
        omega

/-- Reading the text of a readable term, with or without a final newline, from the
beginning of a stream. -/
theorem read_term_text (t : aterm) (ht : t.readable = true) (rest : List Char)
    (hrest : rest = [] ∨ rest = ['\n']) (m_line m_column m_history_limit : Nat) :
    ∃ self', read_term_from_text_stream (term_text t ++ rest) m_line m_column m_history_limit
      = outcome.ok (some t) self' := by
  have hsize := size_le_length_term_text t.size t (le_refl _) ht
  have hr := reads_as_term_text ((term_text t ++ rest).length) t
    (by simp only [List.length_append]; omega) ht
  obtain ⟨⟨c, e', hce, hsp, _⟩, hread⟩ := hr
  have htext : term_text t ++ rest = c :: (e' ++ rest) := by rw [hce]; rfl
  rw [htext]
  refine read_term_from_string_of_parse c (e' ++ rest) t m_line m_column m_history_limit hsp ?_
  intro self hp
  have hlen : (e' ++ rest).length + 1 = (term_text t ++ rest).length := by
    rw [htext]; simp
  rw [hlen]
  obtain ⟨self', h1, _⟩ := hread self rest
    (hrest.imp (fun h => Or.inl h) id) (by rw [htext]; exact hp)
  exact ⟨self', h1⟩

/-! ## The fuel of the reader is sufficient -/

theorem within_bind {α β : Type} (r : outcome α) (k : α → text_aterm_input → outcome β)
    (n m : Nat) (hr : r.within n)
    (hk : ∀ a self, self.m_stream.length ≤ n → (k a self).within m) : (r.bind k).within m := by
  cases r with
  | ok a self => exact hk a self hr
  | runtime_error w self => trivial
  | undefined_behaviour => trivial
  | out_of_fuel => exact absurd hr id

theorem within_mono {α : Type} (r : outcome α) (n m : Nat) (h : r.within n) (hnm : n ≤ m) :
    r.within m := by
  cases r with
  | ok a self => exact le_trans h hnm
  | runtime_error w self => trivial
  | undefined_behaviour => trivial
  | out_of_fuel => exact h

theorem within_ne_out_of_fuel {α : Type} (r : outcome α) (n : Nat) (h : r.within n) :
    r ≠ outcome.out_of_fuel := by
  rintro rfl
  exact h

theorem consumed_succ (r : outcome (Option Char)) (required : Bool) (n : Nat)
    (h : r.consumed required n) : r.consumed required (n + 1) := by
  cases r with
  | ok c self =>
    obtain ⟨h1, h2⟩ := h
    exact ⟨by omega, fun hr => by have := h2 hr; omega⟩
  | runtime_error w self => trivial
  | undefined_behaviour => trivial
  | out_of_fuel => exact h

theorem next_char_loop_consumed (skip_whitespace required : Bool) (stream : List Char)
    (self : text_aterm_input) :
    (next_char_loop skip_whitespace required stream self).consumed required stream.length := by
  induction stream generalizing self with
  | nil =>
    cases required <;> simp [next_char_loop, outcome.consumed]
  | cons c stream ih =>
    simp only [next_char_loop]
    split_ifs <;> first
      | exact consumed_succ _ _ _ (ih _)
      | simp [outcome.consumed]

/-- A read leaves at most the characters that were unread before; a required read that
returns leaves fewer; a read that returns a character leaves fewer. -/
theorem assign_next_char_consumed (skip_whitespace required : Bool) (self : text_aterm_input) :
    match assign_next_char skip_whitespace required self with
    | outcome.ok _ self' =>
      self'.m_stream.length + (if self'.character = none then 0 else 1) ≤ self.m_stream.length
        ∧ (required = true → self'.m_stream.length < self.m_stream.length)
    | outcome.runtime_error _ _ => True
    | outcome.undefined_behaviour => True
    | outcome.out_of_fuel => False := by
  have h := next_char_loop_consumed skip_whitespace required self.m_stream
    { self with character := none }
  unfold assign_next_char next_char
  cases hr : next_char_loop skip_whitespace required self.m_stream { self with character := none }
    with
  | ok c self' =>
    rw [hr] at h
    exact h
  | runtime_error w self' => trivial
  | undefined_behaviour => trivial
  | out_of_fuel =>
    rw [hr] at h
    exact h

theorem assign_next_char_cases (skip_whitespace required : Bool) (self : text_aterm_input) :
    (∃ self', assign_next_char skip_whitespace required self = outcome.ok () self'
      ∧ self'.m_stream.length + (if self'.character = none then 0 else 1) ≤ self.m_stream.length
      ∧ (required = true → self'.m_stream.length < self.m_stream.length))
    ∨ ∃ what self', assign_next_char skip_whitespace required self
        = outcome.runtime_error what self' := by
  have h := assign_next_char_consumed skip_whitespace required self
  cases hr : assign_next_char skip_whitespace required self with
  | ok u self' =>
    rw [hr] at h
    exact Or.inl ⟨self', rfl, h⟩
  | runtime_error w self' => exact Or.inr ⟨w, self', rfl⟩
  | undefined_behaviour =>
    exfalso
    unfold assign_next_char at hr
    cases hn : next_char skip_whitespace required self with
    | ok c s =>
      rw [hn] at hr
      simp [outcome.bind] at hr
    | runtime_error w s =>
      rw [hn] at hr
      simp [outcome.bind] at hr
    | undefined_behaviour =>
      have h2 := next_char_loop_consumed skip_whitespace required self.m_stream
        { self with character := none }
      unfold next_char at hn
      have hmono : ∀ (stream : List Char) (s : text_aterm_input),
          next_char_loop skip_whitespace required stream s ≠ outcome.undefined_behaviour := by
        intro stream
        induction stream with
        | nil =>
          intro s
          cases required <;> simp [next_char_loop]
        | cons c stream ih =>
          intro s
          simp only [next_char_loop]
          split_ifs <;> first
            | exact ih _
            | simp
      exact hmono _ _ hn
    | out_of_fuel =>
      rw [hn] at hr
      simp [outcome.bind] at hr
  | out_of_fuel =>
    rw [hr] at h
    exact absurd h id

theorem parse_quoted_string_loop_within (fuel : Nat) (string : List Char)
    (self : text_aterm_input) (h : self.m_stream.length < fuel) :
    (parse_quoted_string_loop fuel string self).within self.m_stream.length := by
  induction fuel generalizing string self with
  | zero => omega
  | succ fuel ih =>
    rw [parse_quoted_string_loop]
    split_ifs with h1 h2
    · exact le_refl _
    · rcases assign_next_char_cases false true self with ⟨s1, e1, _, hlt1⟩ | ⟨w, s, e1⟩
      · rcases assign_next_char_cases false true s1 with ⟨s2, e2, _, hlt2⟩ | ⟨w, s, e2⟩
        · have hl1 := hlt1 rfl
          have hl2 := hlt2 rfl
          simp only [e1, outcome.bind, e2]
          exact within_mono _ _ _ (ih _ s2 (by omega)) (by omega)
        · simp only [e1, outcome.bind, e2]
          trivial
      · simp only [e1, outcome.bind]
        trivial
    · rcases assign_next_char_cases false true self with ⟨s1, e1, _, hlt1⟩ | ⟨w, s, e1⟩
      · have hl1 := hlt1 rfl
        simp only [e1, outcome.bind]
        exact within_mono _ _ _ (ih _ s1 (by omega)) (by omega)
      · simp only [e1, outcome.bind]
        trivial

theorem parse_quoted_string_within (self : text_aterm_input) :
    (parse_quoted_string self).within self.m_stream.length := by
  unfold parse_quoted_string
  rcases assign_next_char_cases default_skip_whitespace default_required self
    with ⟨s1, e1, hle1, _⟩ | ⟨w, s, e1⟩
  · simp only [e1, outcome.bind]
    have h2 := parse_quoted_string_loop_within (s1.m_stream.length + 2) [] s1 (by omega)
    cases e2 : parse_quoted_string_loop (s1.m_stream.length + 2) [] s1 with
    | ok string s2 =>
      rw [e2] at h2
      rcases assign_next_char_cases true false s2 with ⟨s3, e3, hle3, _⟩ | ⟨w, s, e3⟩
      · simp only [e3]
        have h3 : s3.m_stream.length ≤ s2.m_stream.length := by omega
        have h4 : s1.m_stream.length ≤ self.m_stream.length := by omega
        exact le_trans h3 (le_trans h2 h4)
      · simp only [e3]
        trivial
    | runtime_error w s => trivial
    | undefined_behaviour => trivial
    | out_of_fuel =>
      rw [e2] at h2
      exact h2
  · simp only [e1, outcome.bind]
    trivial

theorem parse_unquoted_string_loop_within (fuel : Nat) (string : List Char)
    (self : text_aterm_input)
    (h : self.m_stream.length + (if self.character = none then 0 else 1) < fuel) :
    (parse_unquoted_string_loop fuel string self).within self.m_stream.length := by
  induction fuel generalizing string self with
  | zero => omega
  | succ fuel ih =>
    rw [parse_unquoted_string_loop]
    split_ifs with h1
    · have hc : self.character ≠ none := h1.2.2.2.2.2.2.2.2.2.2
      simp only [hc, if_false] at h
      rcases assign_next_char_cases false default_required self with ⟨s1, e1, hle1, _⟩ | ⟨w, s, e1⟩
      · simp only [e1, outcome.bind]
        exact within_mono _ _ _ (ih _ s1 (by omega)) (by omega)
      · simp only [e1, outcome.bind]
        trivial
    · exact le_refl _

theorem parse_unquoted_string_within (self : text_aterm_input) :
    (parse_unquoted_string self).within self.m_stream.length := by
  unfold parse_unquoted_string
  split_ifs
  · exact parse_unquoted_string_loop_within _ [] self (by split_ifs <;> omega)
  · exact le_refl _

theorem parse_aterm_int_loop_within (room : Nat) (number : List Char)
    (self : text_aterm_input) :
    (parse_aterm_int_loop room number self).within self.m_stream.length := by
  induction room generalizing number self with
  | zero => exact le_refl _
  | succ room ih =>
    rw [parse_aterm_int_loop]
    split_ifs
    · rcases assign_next_char_cases default_skip_whitespace default_required self
        with ⟨s1, e1, hle1, _⟩ | ⟨w, s, e1⟩
      · simp only [e1, outcome.bind]
        exact within_mono _ _ _ (ih _ s1) (by omega)
      · simp only [e1, outcome.bind]
        trivial
    · exact le_refl _

theorem parse_aterm_int_within (self : text_aterm_input) :
    (parse_aterm_int self).within self.m_stream.length := by
  have hrest : ∀ (number : List Char) (s1 : text_aterm_input),
      s1.m_stream.length ≤ self.m_stream.length →
      ((parse_aterm_int_loop (32 - number.length) number s1).bind fun number self =>
        if number.length < 32 then
          match atol number with
          | some value => outcome.ok (aterm.int (value % 2 ^ word_bits).toNat) self
          | none => outcome.undefined_behaviour
        else outcome.undefined_behaviour).within self.m_stream.length := by
    intro number s1 hs1
    have h2 := parse_aterm_int_loop_within (32 - number.length) number s1
    cases e2 : parse_aterm_int_loop (32 - number.length) number s1 with
    | ok number' s2 =>
      rw [e2] at h2
      simp only [outcome.bind]
      split_ifs
      · cases atol number' with
        | some value => exact le_trans h2 hs1
        | none => trivial
      · trivial
    | runtime_error w s => trivial
    | undefined_behaviour => trivial
    | out_of_fuel =>
      rw [e2] at h2
      exact absurd h2 id
  unfold parse_aterm_int
  split_ifs
  · rcases assign_next_char_cases true true self with ⟨s1, e1, hle1, _⟩ | ⟨w, s, e1⟩
    · simp only [e1, outcome.bind]
      exact hrest ['-'] s1 (by omega)
    · simp only [e1, outcome.bind]
      trivial
  · simp only [outcome.bind]
    exact hrest [] self (le_refl _)

theorem parse_aterm_list_loop_within (parse : text_aterm_input → outcome aterm) (bound : Nat)
    (hparse : ∀ s, s.m_stream.length < bound → (parse s).within s.m_stream.length)
    (fuel : Nat) (hfuel : fuel ≤ bound) (list : List aterm) (self : text_aterm_input)
    (h : self.m_stream.length < fuel) :
    (parse_aterm_list_loop parse fuel list self).within self.m_stream.length := by
  induction fuel generalizing list self with
  | zero => omega
  | succ fuel ih =>
    rw [parse_aterm_list_loop]
    split_ifs
    · rcases assign_next_char_cases true true self with ⟨s1, e1, _, hlt1⟩ | ⟨w, s, e1⟩
      · have hl1 := hlt1 rfl
        simp only [e1, outcome.bind]
        refine within_bind (parse s1) _ s1.m_stream.length _ (hparse s1 (by omega)) ?_
        intro t s2 hs2
        exact within_mono _ _ _ (ih (by omega) (t :: list) s2 (by omega)) (by omega)
      · simp only [e1, outcome.bind]
        trivial
    · exact le_refl _

theorem parse_aterm_list_within (parse : text_aterm_input → outcome aterm) (fuel : Nat)
    (hparse : ∀ s, s.m_stream.length < fuel → (parse s).within s.m_stream.length)
    (self : text_aterm_input) (h : self.m_stream.length ≤ fuel) (begin_ end_ : Char) :
    (parse_aterm_list parse fuel self begin_ end_).within self.m_stream.length := by
  unfold parse_aterm_list
  have hlast : ∀ (list : List aterm) (s3 : text_aterm_input),
      s3.m_stream.length ≤ self.m_stream.length →
      ((assign_next_char true default_required s3).bind fun _ self =>
        outcome.ok list.reverse self).within self.m_stream.length := by
    intro list s3 hs3
    rcases assign_next_char_cases true default_required s3 with ⟨s4, e4, hle4, _⟩ | ⟨w, s, e4⟩
    · simp only [e4, outcome.bind]
      have : s4.m_stream.length ≤ s3.m_stream.length := by omega
      exact le_trans this hs3
    · simp only [e4, outcome.bind]
      trivial
  split_ifs
  · rcases assign_next_char_cases true true self with ⟨s1, e1, _, hlt1⟩ | ⟨w, s, e1⟩
    · have hl1 := hlt1 rfl
      simp only [e1, outcome.bind]
      split_ifs
      · refine within_bind _ _ s1.m_stream.length _ ?_ ?_
        · refine within_bind (parse s1) _ s1.m_stream.length _ (hparse s1 (by omega)) ?_
          intro t s2 hs2
          refine within_bind _ _ s2.m_stream.length _
            (parse_aterm_list_loop_within parse fuel hparse fuel (le_refl _) [t] s2 (by omega)) ?_
          intro list s3 hs3
          split_ifs
          · trivial
          · exact le_trans hs3 hs2
        · intro list s3 hs3
          exact hlast list s3 (by omega)
      · exact hlast [] s1 (by omega)
    · simp only [e1, outcome.bind]
      trivial
  · exact le_refl _

/-- With more fuel than unread characters `parse_aterm` does not run out of fuel, and it
leaves no more characters unread than there were. -/
theorem parse_aterm_within (m_transformer : aterm_transformer) (fuel : Nat)
    (self : text_aterm_input) (h : self.m_stream.length < fuel) :
    (parse_aterm m_transformer fuel self).within self.m_stream.length := by
  induction fuel generalizing self with
  | zero => omega
  | succ fuel ih =>
    have happl : ∀ (name : List Char) (s1 : text_aterm_input),
        s1.m_stream.length ≤ self.m_stream.length →
        ((parse_aterm_appl m_transformer (parse_aterm m_transformer fuel) fuel name s1).bind
          fun appl self => outcome.ok (aterm.appl appl.1 appl.2) self).within
            self.m_stream.length := by
      intro name s1 hs1
      unfold parse_aterm_appl
      refine within_bind _ _ s1.m_stream.length _ ?_ ?_
      · refine within_bind _ _ s1.m_stream.length _
          (parse_aterm_list_within _ fuel (fun s hs => ih s hs) s1 (by omega) '(' ')') ?_
        intro arguments s2 hs2
        exact hs2
      · intro appl s2 hs2
        exact le_trans hs2 hs1
    rw [parse_aterm]
    split_ifs
    · refine within_bind _ _ self.m_stream.length _ (parse_quoted_string_within self) ?_
      intro name s1 hs1
      exact happl name s1 hs1
    · refine within_bind _ _ self.m_stream.length _
        (parse_aterm_list_within _ fuel (fun s hs => ih s hs) self (by omega) '[' ']') ?_
      intro list s1 hs1
      exact hs1
    · exact parse_aterm_int_within self
    · refine within_bind _ _ self.m_stream.length _ (parse_unquoted_string_within self) ?_
      intro name s1 hs1
      exact happl name s1 hs1

/-- The fuel that `read_term_from_text_stream` hands to `get` is sufficient: reading a
term from a stream never runs out of fuel. -/
theorem read_term_from_text_stream_fuel (is : List Char)
    (m_line m_column m_history_limit : Nat) :
    read_term_from_text_stream is m_line m_column m_history_limit ≠ outcome.out_of_fuel := by
  unfold read_term_from_text_stream text_aterm_input.init
  rcases assign_next_char_cases default_skip_whitespace default_required
    { m_stream := is, character := none, m_line := m_line, m_column := m_column,
      m_history := [], m_history_limit := m_history_limit } with ⟨s1, e1, _, _⟩ | ⟨w, s, e1⟩
  · simp only [e1, outcome.bind, text_aterm_input.get]
    split_ifs
    · have h := parse_aterm_within identity (s1.m_stream.length + 1) s1 (by omega)
      cases e2 : parse_aterm identity (s1.m_stream.length + 1) s1 with
      | ok t s2 => simp
      | runtime_error w s => simp
      | undefined_behaviour => simp
      | out_of_fuel =>
        rw [e2] at h
        exact absurd h id
    · simp
  · simp only [e1, outcome.bind]
    simp

/-! ## The claims -/

/-- C1, as stated, fails on the code: the round trip loses a leading space of a
name (written `" a"`, read back as `a`), loses a leading vertical tab of an unquoted
name, returns "no term" for a constant with the empty name (nothing is written for it),
and for the integer `2 ^ 63` hands `atol` a text whose value is not representable. -/
theorem round_trip_fails :
    (write_term_line identity 1 (aterm.appl " a".toList []) [] = some "\" a\"".toList
      ∧ (read_term_from_text_stream "\" a\"".toList 0 0 64).value?
          = some (some (aterm.appl "a".toList []))
      ∧ aterm.appl "a".toList [] ≠ aterm.appl " a".toList [])
    ∧ (write_term_line identity 1 (aterm.appl ['\x0b', 'a'] []) [] = some ['\x0b', 'a']
      ∧ (read_term_from_text_stream ['\x0b', 'a'] 0 0 64).value?
          = some (some (aterm.appl "a".toList []))
      ∧ aterm.appl "a".toList [] ≠ aterm.appl ['\x0b', 'a'] [])
    ∧ (write_term_line identity 1 (aterm.appl [] []) [] = some []
      ∧ (read_term_from_text_stream [] 0 0 64).value? = some none)
    ∧ (write_term_line identity 1 (aterm.int (2 ^ 63)) [] = some "9223372036854775808".toList
      ∧ read_term_from_text_stream "9223372036854775808".toList 0 0 64
          = outcome.undefined_behaviour) := by
  refine ⟨⟨by rfl, by rfl, by decide⟩, ⟨by rfl, by rfl, by decide⟩, ⟨by rfl, by rfl⟩,
    ⟨by rfl, by rfl⟩⟩

/-- C1, amended (round trip): for every term in which every symbol name is non-empty and
does not start with a space, a vertical tab or a form feed, and every integer value is
below `2 ^ 63`, `text_aterm_output` with the identity transform (with or without the
trailing newline, and with fuel for every node) writes a text from which
`text_aterm_input::get` with the identity transform returns that term. -/
theorem text_round_trip (t : aterm) (ht : t.readable = true) (m_newline : Bool)
    (m_line m_column m_history_limit : Nat) :
    ∃ text,
      (∀ fuel, t.size ≤ fuel →
        text_aterm_output.write identity fuel (text_aterm_output.mk [] m_newline) t
          = some (text_aterm_output.mk text m_newline))
      ∧ ∃ self', read_term_from_text_stream text m_line m_column m_history_limit
          = outcome.ok (some t) self' := by
  cases m_newline with
  | false =>
    refine ⟨term_text t ++ [], fun fuel hfuel => ?_,
      read_term_text t ht [] (Or.inl rfl) m_line m_column m_history_limit⟩
    simp [text_aterm_output.write, write_term_line_identity fuel t hfuel]
  | true =>
    refine ⟨term_text t ++ ['\n'], fun fuel hfuel => ?_,
      read_term_text t ht ['\n'] (Or.inr rfl) m_line m_column m_history_limit⟩
    simp [text_aterm_output.write, write_term_line_identity fuel t hfuel]

theorem text_round_trip_witness :
    (aterm.appl "a b".toList [aterm.int 5, aterm.list [aterm.appl ['f'] []]]).readable = true
    ∧ ∃ text,
      (∀ fuel, (aterm.appl "a b".toList [aterm.int 5, aterm.list [aterm.appl ['f'] []]]).size
          ≤ fuel →
        text_aterm_output.write identity fuel (text_aterm_output.mk [] true)
            (aterm.appl "a b".toList [aterm.int 5, aterm.list [aterm.appl ['f'] []]])
          = some (text_aterm_output.mk text true))
      ∧ ∃ self', read_term_from_text_stream text 0 0 64
          = outcome.ok
              (some (aterm.appl "a b".toList [aterm.int 5, aterm.list [aterm.appl ['f'] []]]))
              self' :=
  ⟨by decide, text_round_trip _ (by decide) true 0 0 64⟩

/-- C2, as stated, fails on the code: the name that consists of a vertical tab and `a`
is written unquoted and read back as `a`, because the lookahead of a name is always
obtained with whitespace skipping; the name that consists of a space and `a` is written
as `" a"` with the quotes and read back as `a`, because the first character after the
opening quote is read with whitespace skipping. -/
theorem escape_round_trip_fails :
    (write_string_with_escape_symbols ['\x0b', 'a'] [] = ['\x0b', 'a']
      ∧ (read_name ['\x0b', 'a'] 0 0 64).value? = some "a".toList
      ∧ "a".toList ≠ ['\x0b', 'a'])
    ∧ (write_string_with_escape_symbols " a".toList [] = "\" a\"".toList
      ∧ (read_name "\" a\"".toList 0 0 64).value? = some "a".toList
      ∧ "a".toList ≠ " a".toList) := by
  refine ⟨⟨by rfl, by rfl, by decide⟩, ⟨by rfl, by rfl, by decide⟩⟩

/-- C2, amended (escaping round trip): for every symbol name `s` whose first character,
if there is one, is none of space, vertical tab and form feed (so also for names that
start with a digit or `-`, or contain spaces, double quotes, backslashes or control
characters), reading back the text written by `write_string_with_escape_symbols` with the
name parser yields exactly `s`. -/
theorem escape_round_trip (s : List Char)
    (hs : ∀ c, s.head? = some c → c ≠ ' ' ∧ c ≠ '\x0b' ∧ c ≠ '\x0c')
    (m_line m_column m_history_limit : Nat) :
    ∃ self', read_name (write_string_with_escape_symbols s []) m_line m_column m_history_limit
      = outcome.ok s self' := by
  cases s with
  | nil =>
    have hw : write_string_with_escape_symbols [] [] = [] := by rfl
    obtain ⟨self, h1, hp⟩ := init_positioned [] m_line m_column m_history_limit
      (by intro d hd; simp at hd)
    have hch : self.character = none := hp.1
    refine ⟨self, ?_⟩
    simp [read_name, hw, h1, outcome.bind, hch, parse_unquoted_string,
      parse_unquoted_string_loop]
  | cons c s =>
    obtain ⟨hc1, hc2, hc3⟩ := hs c rfl
    rw [write_string_with_escape_symbols_eq]
    by_cases hq : contains_special_symbols (c :: s) = true
    · simp only [hq, if_true, List.nil_append]
      obtain ⟨self, h1, hp⟩ := init_positioned
        (['"'] ++ (c :: s).flatMap escape_symbol ++ ['"']) m_line m_column m_history_limit
        (by intro d hd; simp at hd; subst hd; decide)
      have hch : self.character = some '"' := hp.1
      obtain ⟨self', h2, _⟩ := parse_quoted_string_spec c s [] ⟨hc1, hc2, hc3⟩
        (Or.inl (by intro d hd; simp at hd)) self (by simpa using hp)
      exact ⟨self', by simp only [read_name, h1, outcome.bind, hch, if_true, h2]⟩
    · have hq' : contains_special_symbols (c :: s) = false := by simpa using hq
      simp only [hq', Bool.false_eq_true, if_false, List.nil_append]
      obtain ⟨⟨_, hall⟩, hn1, _, _, _, hn5, hn6, hn7⟩ :=
        unquoted_identifier_of_not_special c s hq'
      have hsp : isspace (some c) = false := by
        simp only [isspace, decide_eq_false_iff_not, not_or]
        exact ⟨hc1, hn5, hn6, hc2, hc3, hn7⟩
      obtain ⟨self, h1, hp⟩ := init_positioned (c :: s) m_line m_column m_history_limit
        (by intro d hd; simp at hd; subst hd; exact hsp)
      have hch : self.character ≠ some '"' := by
        rw [hp.1]
        simpa using hn1
      obtain ⟨self', h2, _⟩ := parse_unquoted_string_spec s
        (fun x hx => hall x (List.mem_cons_of_mem _ hx)) [] (by intro d hd; simp at hd) c
        (hall c (List.mem_cons_self _ _)) self hp.1 (by simpa using hp.2)
      exact ⟨self', by simp only [read_name, h1, outcome.bind, hch, if_false, h2]⟩

theorem escape_round_trip_witness :
    (∀ c, "9 \"\\\n".toList.head? = some c → c ≠ ' ' ∧ c ≠ '\x0b' ∧ c ≠ '\x0c')
    ∧ ∃ self', read_name (write_string_with_escape_symbols "9 \"\\\n".toList []) 0 0 64
      = outcome.ok "9 \"\\\n".toList self' :=
  have h : ∀ c, "9 \"\\\n".toList.head? = some c → c ≠ ' ' ∧ c ≠ '\x0b' ∧ c ≠ '\x0c' := by
    intro c hc
    simp only [String.toList, List.head?_cons, Option.some.injEq] at hc
    subst hc
    decide
  ⟨h, escape_round_trip _ h 0 0 64⟩

/-- C3 (newline-terminated records) fails on the code: the constants `f` and `g`
written with the trailing newline give the stream `f\ng\n`; the first `get` returns `f`,
the second `get` returns the "no term" value instead of `g`, although `g` is still in the
stream.  The integers 1 and 2 give the stream `1\n2\n`, from which the first `get` returns
the integer 12.  The applications `f(a)` and `g(b)` are read back one by one. -/
theorem newline_records_constants :
    ((((text_aterm_output.mk [] true).write identity 1 (aterm.appl ['f'] [])).bind
        fun out => out.write identity 1 (aterm.appl ['g'] []))
      = some (text_aterm_output.mk "f\ng\n".toList true)
    ∧ (((text_aterm_input.init "f\ng\n".toList 0 0 64).bind fun _ self =>
          self.get identity 5).value? = some (some (aterm.appl ['f'] [])))
    ∧ ((((text_aterm_input.init "f\ng\n".toList 0 0 64).bind fun _ self =>
          self.get identity 5).bind fun _ self => self.get identity 5)
        = outcome.ok none ⟨"g\n".toList, none, 1, 0, [], 64⟩))
    ∧ ((((text_aterm_output.mk [] true).write identity 1 (aterm.int 1)).bind
        fun out => out.write identity 1 (aterm.int 2))
      = some (text_aterm_output.mk "1\n2\n".toList true)
    ∧ (((text_aterm_input.init "1\n2\n".toList 0 0 64).bind fun _ self =>
          self.get identity 5).value? = some (some (aterm.int 12))))
    ∧ ((((text_aterm_input.init "f(a)\ng(b)\n".toList 0 0 64).bind fun _ self =>
          self.get identity 10).value? = some (some (aterm.appl ['f'] [aterm.appl ['a'] []])))
    ∧ ((((text_aterm_input.init "f(a)\ng(b)\n".toList 0 0 64).bind fun _ self =>
          self.get identity 10).bind fun _ self => self.get identity 10).value?
        = some (some (aterm.appl ['g'] [aterm.appl ['b'] []])))) := by
  refine ⟨⟨by rfl, by rfl, by rfl⟩, ⟨by rfl, by rfl⟩, ⟨by rfl, by rfl⟩⟩

/-- C6, as stated, fails on the code: the text `-5` is read as the integer term with the
unsigned value `2 ^ 64 - 5`, and that term is written as `18446744073709551611`, not
as `-5`. -/
theorem signed_integer_minus_five :
    (read_term_from_text_stream "-5".toList 0 0 64).value?
      = some (some (aterm.int 18446744073709551611))
    ∧ write_term_line identity 1 (aterm.int 18446744073709551611) []
      = some "18446744073709551611".toList
    ∧ "18446744073709551611".toList ≠ "-5".toList := by
  refine ⟨by rfl, by rfl, by decide⟩

/-- C6, amended (integers): for every value `v` below `2 ^ 63`, the decimal text of `v`
is read as the integer term with value `v`, and that term is written as the same decimal
text again; the text of the negative value `-(v + 1)`, a `-` followed by the decimal text
of `v + 1`, is read as the integer term with the unsigned value `2 ^ 64 - (v + 1)`, which
is written as the decimal text of that unsigned value. -/
theorem integer_text_round_trip (v : Nat) (hv : v < 2 ^ 63)
    (m_line m_column m_history_limit : Nat) (m_transformer : aterm_transformer)
    (fuel : Nat) (os : List Char) :
    (∃ self', read_term_from_text_stream (Nat.toDigits 10 v) m_line m_column m_history_limit
        = outcome.ok (some (aterm.int v)) self')
    ∧ write_term_line m_transformer (fuel + 1) (aterm.int v) os = some (os ++ Nat.toDigits 10 v)
    ∧ (∃ self', read_term_from_text_stream ('-' :: Nat.toDigits 10 (v + 1))
          m_line m_column m_history_limit
        = outcome.ok (some (aterm.int (2 ^ 64 - (v + 1)))) self')
    ∧ write_term_line m_transformer (fuel + 1) (aterm.int (2 ^ 64 - (v + 1))) os
        = some (os ++ Nat.toDigits 10 (2 ^ 64 - (v + 1))) := by
  refine ⟨?_, rfl, ?_, rfl⟩
  · have h := read_term_text (aterm.int v) (by simpa [aterm.readable, word_bits] using hv) []
      (Or.inl rfl) m_line m_column m_history_limit
    simpa [term_text] using h
  · refine read_term_from_string_of_parse '-' (Nat.toDigits 10 (v + 1)) _ m_line m_column
      m_history_limit (by decide) ?_
    intro self hp
    rw [parse_aterm_digit identity _ self '-' hp.1 (Or.inr rfl)]
    obtain ⟨self', h1, _⟩ := parse_aterm_int_minus_toDigits (v + 1) (by omega) self []
      (by simpa using hp) (Or.inl (by intro d hd; simp at hd)) (by intro d hd; simp at hd)
    have key : ((-((v + 1 : Nat) : Int)) % 2 ^ word_bits).toNat = 2 ^ 64 - (v + 1) := by
      simp only [word_bits]
      omega
    exact ⟨self', by rw [h1, key]⟩

theorem integer_text_round_trip_witness :
    (4 : Nat) < 2 ^ 63
    ∧ (∃ self', read_term_from_text_stream "4".toList 0 0 64
        = outcome.ok (some (aterm.int 4)) self')
    ∧ write_term_line identity 1 (aterm.int 4) [] = some "4".toList
    ∧ (∃ self', read_term_from_text_stream "-5".toList 0 0 64
        = outcome.ok (some (aterm.int 18446744073709551611)) self')
    ∧ write_term_line identity 1 (aterm.int 18446744073709551611) []
        = some "18446744073709551611".toList :=
  ⟨by norm_num, integer_text_round_trip 4 (by norm_num) 0 0 64 identity 0 []⟩

/-- C4 (quoting rule): a non-empty name `c :: rest` is written between double quotes
exactly when its first character is `-` or a decimal digit or it contains one of
backslash, double quote, `(`, `)`, `[`, `]`, comma, space, newline, tab, carriage return;
otherwise the name itself is appended to the stream, unchanged. -/
theorem write_string_quoting_rule (c : Char) (rest os : List Char) :
    ((∃ body, write_string_with_escape_symbols (c :: rest) os = os ++ ['"'] ++ body ++ ['"'])
      ↔ ((c = '-' ∨ ('0' ≤ c ∧ c ≤ '9')) ∨
          ∃ x ∈ c :: rest, x = '\\' ∨ x = '"' ∨ x = '(' ∨ x = ')' ∨ x = '[' ∨ x = ']' ∨ x = ','
            ∨ x = ' ' ∨ x = '\n' ∨ x = '\t' ∨ x = '\r'))
    ∧ (¬ ((c = '-' ∨ ('0' ≤ c ∧ c ≤ '9')) ∨
          ∃ x ∈ c :: rest, x = '\\' ∨ x = '"' ∨ x = '(' ∨ x = ')' ∨ x = '[' ∨ x = ']' ∨ x = ','
            ∨ x = ' ' ∨ x = '\n' ∨ x = '\t' ∨ x = '\r')
        → write_string_with_escape_symbols (c :: rest) os = os ++ c :: rest) := by
  have hq : quoting_rule (c :: rest) ↔ ((c = '-' ∨ ('0' ≤ c ∧ c ≤ '9')) ∨
      ∃ x ∈ c :: rest, x = '\\' ∨ x = '"' ∨ x = '(' ∨ x = ')' ∨ x = '[' ∨ x = ']' ∨ x = ','
        ∨ x = ' ' ∨ x = '\n' ∨ x = '\t' ∨ x = '\r') := by
    unfold quoting_rule
    constructor
    · rintro (⟨c', rest', hc, hd⟩ | h)
      · injection hc with h1 h2
        subst h1
        exact Or.inl hd
      · exact Or.inr h
    · rintro (h | h)
      · exact Or.inl ⟨c, rest, rfl, h⟩
      · exact Or.inr h
  rw [← hq, ← contains_special_symbols_iff, write_string_with_escape_symbols_eq]
  by_cases h : contains_special_symbols (c :: rest) = true
  · rw [if_pos h]
    exact ⟨⟨fun _ => h, fun _ => ⟨_, rfl⟩⟩, fun hn => absurd h hn⟩
  · rw [if_neg h]
    refine ⟨⟨?_, fun hc => absurd hc h⟩, fun _ => rfl⟩
    rintro ⟨body, hb⟩
    rw [contains_special_symbols_iff]
    right
    have h1 : c :: rest = ['"'] ++ body ++ ['"'] :=
      List.append_cancel_left (by simpa [List.append_assoc] using hb :
        os ++ (c :: rest) = os ++ (['"'] ++ body ++ ['"']))
    have hc : c = '"' := by
      simp at h1
      exact h1.1
    exact ⟨c, List.mem_cons_self _ _, Or.inr (Or.inl hc)⟩

/-- C5 (escaping inside quotes): when the quoting rule holds for the name `s`, the text
written between the two double quotes is the concatenation over the characters of `s` of
backslash and the character for a backslash or a double quote, of backslash-n,
backslash-t, backslash-r for newline, tab, carriage return, and of the character itself
for every other character. -/
theorem write_string_escapes (s os : List Char) (h : quoting_rule s) :
    write_string_with_escape_symbols s os
      = os ++ ['"'] ++ s.flatMap (fun c =>
          if c = '\\' ∨ c = '"' then ['\\', c]
          else if c = '\n' then ['\\', 'n']
          else if c = '\t' then ['\\', 't']
          else if c = '\r' then ['\\', 'r']
          else [c]) ++ ['"'] := by
  rw [write_string_with_escape_symbols_eq, (contains_special_symbols_iff s).2 h]
  rfl

theorem write_string_escapes_witness :
    quoting_rule "a \"b\"\n".toList ∧
    write_string_with_escape_symbols "a \"b\"\n".toList []
      = "\"a \\\"b\\\"\\n\"".toList :=
  have h : quoting_rule "a \"b\"\n".toList := Or.inr ⟨' ', by decide, by decide⟩
  ⟨h, (write_string_escapes "a \"b\"\n".toList [] h).trans (by decide)⟩

/-- C7 (list output format): when `write_term_line` writes the elements `hs` of a list
as `texts` (one unit of fuel is spent on the list node), it appends to the stream `[`,
the texts in list order separated by single commas, and `]`; for the empty list it
appends exactly `[]`. -/
theorem write_term_line_list (m_transformer : aterm_transformer) (fuel : Nat)
    (hs : List aterm) (texts : List (List Char)) (os : List Char)
    (h : List.Forall₂ (fun h text => write_term_line m_transformer fuel h [] = some text)
      hs texts) :
    write_term_line m_transformer (fuel + 1) (aterm.list hs) os
        = some (os ++ ['['] ++ List.intercalate [','] texts ++ [']'])
    ∧ write_term_line m_transformer (fuel + 1) (aterm.list []) os = some (os ++ ['[', ']']) :=
  ⟨list_text_of_element_texts m_transformer fuel hs texts os h,
    by simp [write_term_line, write_term_lines]⟩

theorem write_term_line_list_witness :
    write_term_line identity 3
        (aterm.list [aterm.int 1, aterm.appl ['a'] [], aterm.list [aterm.int 2]]) ['x']
        = some "x[1,a,[2]]".toList
    ∧ write_term_line identity 3 (aterm.list []) ['x'] = some "x[]".toList :=
  write_term_line_list identity 2
    [aterm.int 1, aterm.appl ['a'] [], aterm.list [aterm.int 2]]
    ["1".toList, "a".toList, "[2]".toList] ['x']
    (List.Forall₂.cons (by decide) (List.Forall₂.cons (by decide)
      (List.Forall₂.cons (by decide) List.Forall₂.nil)))

/-- C8 (application output format): with the identity transform, when `write_term_line`
writes the children `ts` of an application with symbol name `f` as `texts`, it appends to
the stream the escaped form of `f` and then, when the arity is greater than 0, `(`, the
texts of the children in order separated by single commas, and `)`; when the arity is 0
it appends the escaped name alone. -/
theorem write_term_line_appl (fuel : Nat) (f : List Char) (ts : List aterm)
    (texts : List (List Char)) (os : List Char)
    (h : List.Forall₂ (fun t text => write_term_line identity fuel t [] = some text) ts texts) :
    write_term_line identity (fuel + 1) (aterm.appl f ts) os
      = some (write_string_with_escape_symbols f os ++
          if ts.length > 0 then ['('] ++ List.intercalate [','] texts ++ [')'] else []) :=
  appl_text_of_child_texts fuel f ts texts os h

theorem write_term_line_appl_witness :
    write_term_line identity 2 (aterm.appl "a b".toList [aterm.int 1, aterm.appl ['c'] []]) []
      = some "\"a b\"(1,c)".toList :=
  (write_term_line_appl 1 "a b".toList [aterm.int 1, aterm.appl ['c'] []]
    ["1".toList, "c".toList] []
    (List.Forall₂.cons (by decide) (List.Forall₂.cons (by decide) List.Forall₂.nil))).trans
    (by decide)

/-- C9 (list order preservation): for every text `[` `e1` `,` ... `,` `en` `]` whose
elements are term texts that `parse_aterm` reads as `t1`, ..., `tn`, `parse_aterm_list`
returns the `n` terms `t1`, ..., `tn` in textual order and leaves the lookahead on what
follows the `]`; `[a,b,c]` yields `a`, `b`, `c`, `[1,2,3]` yields 1, 2, 3 and `[]` yields
the empty list. -/
theorem parse_aterm_list_order (m_transformer : aterm_transformer) (fuel : Nat)
    (es : List (List Char)) (ts : List aterm)
    (h : List.Forall₂ (reads_as (parse_aterm m_transformer fuel)) es ts)
    (hfuel : es.length ≤ fuel) (rest : List Char) (hrest : no_space_ahead rest)
    (self : text_aterm_input)
    (hp : positioned self ('[' :: List.intercalate [','] es ++ ']' :: rest)) :
    (∃ self', parse_aterm_list (parse_aterm m_transformer fuel) fuel self '[' ']'
        = outcome.ok ts self' ∧ positioned self' rest)
    ∧ ts.length = es.length
    ∧ (read_term_from_text_stream "[a,b,c]".toList 0 0 64).value?
        = some (some (aterm.list [aterm.appl ['a'] [], aterm.appl ['b'] [], aterm.appl ['c'] []]))
    ∧ (read_term_from_text_stream "[1,2,3]".toList 0 0 64).value?
        = some (some (aterm.list [aterm.int 1, aterm.int 2, aterm.int 3]))
    ∧ (read_term_from_text_stream "[]".toList 0 0 64).value? = some (some (aterm.list [])) := by
  refine ⟨?_, h.length_eq.symm, by rfl, by rfl, by rfl⟩
  have := parse_aterm_list_spec (parse_aterm m_transformer fuel) es ts h '[' ']'
    (Or.inl ⟨rfl, rfl⟩) rest (Or.inl hrest) fuel hfuel self hp
  rwa [after_token_of_no_space rest hrest] at this

theorem parse_aterm_list_order_witness :
    (∃ self', parse_aterm_list (parse_aterm identity 3) 3
        (text_aterm_input.mk "a,b,c]".toList (some '[') 0 1 ['['] 64) '[' ']'
        = outcome.ok [aterm.appl ['a'] [], aterm.appl ['b'] [], aterm.appl ['c'] []] self'
        ∧ positioned self' [])
    ∧ [aterm.appl ['a'] [], aterm.appl ['b'] [], aterm.appl ['c'] []].length
        = ["a".toList, "b".toList, "c".toList].length
    ∧ (read_term_from_text_stream "[a,b,c]".toList 0 0 64).value?
        = some (some (aterm.list [aterm.appl ['a'] [], aterm.appl ['b'] [], aterm.appl ['c'] []]))
    ∧ (read_term_from_text_stream "[1,2,3]".toList 0 0 64).value?
        = some (some (aterm.list [aterm.int 1, aterm.int 2, aterm.int 3]))
    ∧ (read_term_from_text_stream "[]".toList 0 0 64).value? = some (some (aterm.list [])) :=
  parse_aterm_list_order identity 3 ["a".toList, "b".toList, "c".toList]
    [aterm.appl ['a'] [], aterm.appl ['b'] [], aterm.appl ['c'] []]
    (List.Forall₂.cons (reads_as_term_text 3 (aterm.appl ['a'] []) (by decide) (by decide))
      (List.Forall₂.cons (reads_as_term_text 3 (aterm.appl ['b'] []) (by decide) (by decide))
        (List.Forall₂.cons (reads_as_term_text 3 (aterm.appl ['c'] []) (by decide) (by decide))
          List.Forall₂.nil)))
    (by decide) [] (by intro d hd; simp at hd)
    (text_aterm_input.mk "a,b,c]".toList (some '[') 0 1 ['['] 64) ⟨rfl, rfl⟩

/-- C10 (application parsing): for every unquoted identifier `f` followed by `(`, the
texts of arguments that `parse_aterm` reads as `t1`, ..., `tn`, separated by commas, and
`)`, `parse_aterm` with the identity transform returns the application with symbol name
`f` whose children are `t1`, ..., `tn` in textual order (its arity is `n`); an identifier
followed by the end of the input or by a stopping character other than `(` yields the
application of arity 0; `f(a,b)` yields `f` with the two constants `a` and `b`. -/
theorem parse_aterm_application (fuel : Nat) (f : List Char) (hf : unquoted_identifier f)
    (es : List (List Char)) (ts : List aterm)
    (h : List.Forall₂ (reads_as (parse_aterm identity fuel)) es ts)
    (hfuel : es.length ≤ fuel) (rest : List Char) (hrest : no_space_ahead rest) :
    (∀ self, positioned self (f ++ '(' :: List.intercalate [','] es ++ ')' :: rest) →
      ∃ self', parse_aterm identity (fuel + 1) self = outcome.ok (aterm.appl f ts) self'
        ∧ positioned self' rest)
    ∧ ts.length = es.length
    ∧ (∀ follow self, (∀ d, follow.head? = some d → ends_unquoted_string d = true ∧ d ≠ '(') →
        positioned self (f ++ follow) →
        ∃ self', parse_aterm identity (fuel + 1) self = outcome.ok (aterm.appl f []) self')
    ∧ (read_term_from_text_stream "f(a,b)".toList 0 0 64).value?
        = some (some (aterm.appl ['f'] [aterm.appl ['a'] [], aterm.appl ['b'] []])) := by
  refine ⟨?_, h.length_eq.symm, ?_, by rfl⟩
  · intro self hp
    have := parse_aterm_identifier_arguments identity fuel f hf es ts h hfuel rest
      (Or.inl hrest) self hp
    rwa [after_token_of_no_space rest hrest] at this
  · intro follow self hfollow hp
    obtain ⟨self', h1, _⟩ := parse_aterm_identifier identity fuel f hf follow hfollow self hp
    exact ⟨self', h1⟩

theorem parse_aterm_application_witness :
    unquoted_identifier "f".toList
    ∧ (∀ self, positioned self "f(a,b)".toList →
      ∃ self', parse_aterm identity 3 self
          = outcome.ok (aterm.appl ['f'] [aterm.appl ['a'] [], aterm.appl ['b'] []]) self'
        ∧ positioned self' [])
    ∧ [aterm.appl ['a'] [], aterm.appl ['b'] []].length = ["a".toList, "b".toList].length
    ∧ (∀ follow self, (∀ d, follow.head? = some d → ends_unquoted_string d = true ∧ d ≠ '(') →
        positioned self ("f".toList ++ follow) →
        ∃ self', parse_aterm identity 3 self = outcome.ok (aterm.appl ['f'] []) self')
    ∧ (read_term_from_text_stream "f(a,b)".toList 0 0 64).value?
        = some (some (aterm.appl ['f'] [aterm.appl ['a'] [], aterm.appl ['b'] []])) :=
  have hf : unquoted_identifier "f".toList :=
    ⟨⟨'f', [], rfl, by decide, by decide, by decide⟩, by decide⟩
  ⟨hf, parse_aterm_application 2 "f".toList hf ["a".toList, "b".toList]
    [aterm.appl ['a'] [], aterm.appl ['b'] []]
    (List.Forall₂.cons (reads_as_term_text 2 (aterm.appl ['a'] []) (by decide) (by decide))
      (List.Forall₂.cons (reads_as_term_text 2 (aterm.appl ['b'] []) (by decide) (by decide))
        List.Forall₂.nil))
    (by decide) [] (by intro d hd; simp at hd)⟩

/-! ## Streams of whitespace, error messages, the trailing newline -/

theorem next_char_loop_whitespace (stream : List Char)
    (h : ∀ c ∈ stream, isspace (some c) = true) (self : text_aterm_input) :
    ∃ self', next_char_loop true false stream self = outcome.ok none self'
      ∧ self'.m_stream = [] ∧ self'.character = none := by
  induction stream generalizing self with
  | nil => exact ⟨_, rfl, rfl, rfl⟩
  | cons c stream ih =>
    have hc : (isspace (some c) && true) = true := by simp [h c (List.mem_cons_self _ _)]
    simp only [next_char_loop, hc, if_true]
    exact ih (fun d hd => h d (List.mem_cons_of_mem _ hd)) _

theorem init_whitespace (is : List Char) (h : ∀ c ∈ is, isspace (some c) = true)
    (m_line m_column m_history_limit : Nat) :
    ∃ self, text_aterm_input.init is m_line m_column m_history_limit = outcome.ok () self
      ∧ self.m_stream = [] ∧ self.character = none := by
  obtain ⟨self', h1, h2, _⟩ := next_char_loop_whitespace is h
    { m_stream := is, character := none, m_line := m_line, m_column := m_column,
      m_history := [], m_history_limit := m_history_limit }
  refine ⟨{ self' with character := none }, ?_, h2, rfl⟩
  simp only [text_aterm_input.init, assign_next_char, next_char, default_skip_whitespace,
    default_required]
  rw [h1]
  rfl

theorem get_runtime_error_iff (m_transformer : aterm_transformer) (fuel : Nat)
    (self : text_aterm_input) (message : List Char) (self' : text_aterm_input) :
    self.get m_transformer fuel = outcome.runtime_error message self'
      ↔ (self.character ≠ none ∧ ∃ what,
          parse_aterm m_transformer fuel self = outcome.runtime_error what self'
          ∧ message = what ++ "\n".toList ++ print_parse_error_position self') := by
  unfold text_aterm_input.get
  by_cases hc : self.character ≠ none
  · simp only [hc, if_true, ne_eq, not_false_eq_true, true_and]
    cases hp : parse_aterm m_transformer fuel self with
    | ok t s => simp
    | runtime_error what s =>
      simp only [outcome.runtime_error.injEq]
      constructor
      · rintro ⟨h1, h2⟩
        subst h2
        exact ⟨what, ⟨rfl, rfl⟩, h1.symm⟩
      · rintro ⟨w, ⟨h1, h2⟩, h3⟩
        subst h1
        subst h2
        exact ⟨h3.symm, rfl⟩
    | undefined_behaviour => simp
    | out_of_fuel => simp
  · simp only [hc, if_false, false_and, iff_false]
    simp

theorem newline_not_mem_toDigits (n : Nat) : '\n' ∉ Nat.toDigits 10 n := by
  intro h
  have := toDigits_all_digits n '\n' h
  revert this
  decide

theorem newline_not_mem_escape (s : List Char) : '\n' ∉ s.flatMap escape_symbol := by
  induction s with
  | nil => simp
  | cons c s ih =>
    simp only [List.flatMap_cons, List.mem_append, not_or]
    refine ⟨?_, ih⟩
    unfold escape_symbol
    split_ifs with h1 h2 h3 h4
    · rcases h1 with rfl | rfl <;> decide
    · decide
    · decide
    · decide
    · simp only [List.mem_singleton]
      exact fun h => h2 h.symm

theorem newline_not_mem_write_string (s : List Char) :
    '\n' ∉ write_string_with_escape_symbols s [] := by
  rw [write_string_with_escape_symbols_eq]
  split_ifs with h
  · have := newline_not_mem_escape s
    simp only [List.nil_append, List.cons_append, List.mem_cons, List.mem_append,
      List.mem_singleton, not_or]
    exact ⟨by decide, this, by decide, fun h => by simp at h⟩
  · have hq : ¬ quoting_rule s := by
      rw [← contains_special_symbols_iff]
      exact h
    intro hm
    apply hq
    right
    exact ⟨'\n', by simpa using hm, by simp⟩

theorem newline_not_mem_intercalate (texts : List (List Char))
    (h : ∀ text ∈ texts, '\n' ∉ text) : '\n' ∉ List.intercalate [','] texts := by
  cases texts with
  | nil => simp [List.intercalate]
  | cons text texts =>
    rw [intercalate_cons_eq]
    simp only [List.mem_append, List.mem_flatten, List.mem_map, not_or, not_exists, not_and]
    refine ⟨h text (List.mem_cons_self _ _), ?_⟩
    rintro l ⟨x, hx, rfl⟩
    simp only [List.mem_cons, not_or]
    exact ⟨by decide, h x (List.mem_cons_of_mem _ hx)⟩

/-- The text of a term in the output grammar holds no newline. -/
theorem newline_not_mem_term_text (n : Nat) (t : aterm) (hn : t.size ≤ n) :
    '\n' ∉ term_text t := by
  induction n generalizing t with
  | zero =>
    have := size_pos t
    omega
  | succ n ih =>
    have hchildren : ∀ l : List aterm, aterm.sizeList l ≤ n →
        '\n' ∉ List.intercalate [','] (term_texts l) := by
      intro l hl
      apply newline_not_mem_intercalate
      intro text htext
      rw [term_texts_eq_map] at htext
      obtain ⟨t, ht, rfl⟩ := List.mem_map.1 htext
      have := size_le_sizeList l t ht
      exact ih t (by omega)
    cases t with
    | int value => exact newline_not_mem_toDigits value
    | list l =>
      simp only [aterm.size] at hn
      have := hchildren l (by omega)
      simp only [term_text, List.mem_append, List.mem_singleton, not_or]
      exact ⟨⟨by decide, this⟩, by decide⟩
    | appl name l =>
      simp only [aterm.size] at hn
      have h1 := hchildren l (by omega)
      have h2 := newline_not_mem_write_string name
      simp only [term_text, List.mem_append, not_or]
      refine ⟨h2, ?_⟩
      split_ifs
      · simp only [List.mem_append, List.mem_singleton, not_or]
        exact ⟨⟨by decide, h1⟩, by decide⟩
      · simp

/-! ## The history does not steer the reader -/

theorem alike_bind {α β : Type} (a a' : outcome α)
    (f f' : α → text_aterm_input → outcome β) (h : a.alike a')
    (hf : ∀ v s s', same_position s s' → (f v s).alike (f' v s')) :
    (a.bind f).alike (a'.bind f') := by
  cases a <;> cases a' <;> simp only [outcome.alike] at h <;>
    simp only [outcome.bind, outcome.alike]
  · obtain ⟨rfl, h2⟩ := h
    exact hf _ _ _ h2
  · exact h

theorem next_char_loop_alike (skip_whitespace required : Bool) :
    ∀ (stream : List Char) (self self' : text_aterm_input), same_position self self' →
      (next_char_loop skip_whitespace required stream self).alike
        (next_char_loop skip_whitespace required stream self')
  | [], self, self', h => by
    obtain ⟨h1, h2, h3, h4⟩ := h
    unfold next_char_loop
    cases required <;> simp [outcome.alike, same_position, h3, h4]
  | c :: stream, self, self', h => by
    obtain ⟨h1, h2, h3, h4⟩ := h
    unfold next_char_loop
    cases hs : (isspace (some c) && skip_whitespace)
    · simp only [Bool.false_eq_true, if_false]
      simp only [outcome.alike, same_position]
      split_ifs <;> simp [h3, h4]
    · simp only [if_true]
      apply next_char_loop_alike
      simp only [same_position]
      split_ifs <;> simp [h3, h4]

theorem assign_next_char_alike (skip_whitespace required : Bool)
    (self self' : text_aterm_input) (h : same_position self self') :
    (assign_next_char skip_whitespace required self).alike
      (assign_next_char skip_whitespace required self') := by
  unfold assign_next_char next_char
  apply alike_bind
  · rw [h.1]
    exact next_char_loop_alike _ _ _ _ _ ⟨rfl, rfl, h.2.2.1, h.2.2.2⟩
  · intro v s s' hs
    exact ⟨rfl, hs.1, rfl, hs.2.2.1, hs.2.2.2⟩

theorem alike_ok {α : Type} (v : α) (self self' : text_aterm_input)
    (h : same_position self self') : (outcome.ok v self).alike (outcome.ok v self') :=
  ⟨rfl, h⟩

theorem alike_runtime_error {α : Type} (what : List Char) (self self' : text_aterm_input)
    (h : same_position self self') :
    (outcome.runtime_error what self : outcome α).alike (outcome.runtime_error what self') :=
  ⟨rfl, h⟩

theorem parse_quoted_string_loop_alike :
    ∀ (fuel : Nat) (string : List Char) (self self' : text_aterm_input),
      same_position self self' →
      (parse_quoted_string_loop fuel string self).alike
        (parse_quoted_string_loop fuel string self')
  | 0, _, _, _, _ => by simp [parse_quoted_string_loop, outcome.alike]
  | fuel + 1, string, self, self', h => by
    unfold parse_quoted_string_loop
    rw [h.2.1]
    split_ifs
    · exact alike_ok _ _ _ h
    · apply alike_bind _ _ _ _ (assign_next_char_alike _ _ _ _ h)
      intro _ s s' hs
      rw [hs.2.1]
      apply alike_bind _ _ _ _ (assign_next_char_alike _ _ _ _ hs)
      intro _ s2 s2' hs2
      exact parse_quoted_string_loop_alike fuel _ _ _ hs2
    · apply alike_bind _ _ _ _ (assign_next_char_alike _ _ _ _ h)
      intro _ s s' hs
      exact parse_quoted_string_loop_alike fuel _ _ _ hs

theorem parse_quoted_string_alike (self self' : text_aterm_input)
    (h : same_position self self') :
    (parse_quoted_string self).alike (parse_quoted_string self') := by
  unfold parse_quoted_string
  apply alike_bind _ _ _ _ (assign_next_char_alike _ _ _ _ h)
  intro _ s s' hs
  rw [hs.1]
  apply alike_bind _ _ _ _ (parse_quoted_string_loop_alike _ _ _ _ hs)
  intro v s2 s2' hs2
  apply alike_bind _ _ _ _ (assign_next_char_alike _ _ _ _ hs2)
  intro _ s3 s3' hs3
  exact alike_ok _ _ _ hs3

theorem parse_unquoted_string_loop_alike :
    ∀ (fuel : Nat) (string : List Char) (self self' : text_aterm_input),
      same_position self self' →
      (parse_unquoted_string_loop fuel string self).alike
        (parse_unquoted_string_loop fuel string self')
  | 0, _, _, _, _ => by simp [parse_unquoted_string_loop, outcome.alike]
  | fuel + 1, string, self, self', h => by
    unfold parse_unquoted_string_loop
    rw [h.2.1]
    split_ifs
    · apply alike_bind _ _ _ _ (assign_next_char_alike _ _ _ _ h)
      intro _ s s' hs
      exact parse_unquoted_string_loop_alike fuel _ _ _ hs
    · exact alike_ok _ _ _ h

theorem parse_unquoted_string_alike (self self' : text_aterm_input)
    (h : same_position self self') :
    (parse_unquoted_string self).alike (parse_unquoted_string self') := by
  unfold parse_unquoted_string
  rw [h.2.1, h.1]
  split_ifs
  · exact parse_unquoted_string_loop_alike _ _ _ _ h
  · exact alike_ok _ _ _ h

theorem parse_aterm_int_loop_alike :
    ∀ (room : Nat) (number : List Char) (self self' : text_aterm_input),
      same_position self self' →
      (parse_aterm_int_loop room number self).alike (parse_aterm_int_loop room number self')
  | 0, _, _, _, h => by
    unfold parse_aterm_int_loop
    exact alike_ok _ _ _ h
  | room + 1, number, self, self', h => by
    unfold parse_aterm_int_loop
    rw [h.2.1]
    split_ifs
    · apply alike_bind _ _ _ _ (assign_next_char_alike _ _ _ _ h)
      intro _ s s' hs
      exact parse_aterm_int_loop_alike room _ _ _ hs
    · exact alike_ok _ _ _ h

theorem parse_aterm_int_alike (self self' : text_aterm_input)
    (h : same_position self self') :
    (parse_aterm_int self).alike (parse_aterm_int self') := by
  unfold parse_aterm_int
  rw [h.2.1]
  apply alike_bind
  · split_ifs
    · apply alike_bind _ _ _ _ (assign_next_char_alike _ _ _ _ h)
      intro _ s s' hs
      exact alike_ok _ _ _ hs
    · exact alike_ok _ _ _ h
  · intro number s s' hs
    apply alike_bind _ _ _ _ (parse_aterm_int_loop_alike _ _ _ _ hs)
    intro number2 s2 s2' hs2
    split_ifs
    · cases atol number2 with
      | none => simp [outcome.alike]
      | some value => exact alike_ok _ _ _ hs2
    · simp [outcome.alike]

theorem parse_aterm_list_loop_alike (parse parse' : text_aterm_input → outcome aterm)
    (hp : ∀ s s', same_position s s' → (parse s).alike (parse' s')) :
    ∀ (fuel : Nat) (list : List aterm) (self self' : text_aterm_input),
      same_position self self' →
      (parse_aterm_list_loop parse fuel list self).alike
        (parse_aterm_list_loop parse' fuel list self')
  | 0, _, _, _, _ => by simp [parse_aterm_list_loop, outcome.alike]
  | fuel + 1, list, self, self', h => by
    unfold parse_aterm_list_loop
    rw [h.2.1]
    split_ifs
    · apply alike_bind _ _ _ _ (assign_next_char_alike _ _ _ _ h)
      intro _ s s' hs
      apply alike_bind _ _ _ _ (hp _ _ hs)
      intro t s2 s2' hs2
      exact parse_aterm_list_loop_alike parse parse' hp fuel _ _ _ hs2
    · exact alike_ok _ _ _ h

theorem parse_aterm_list_alike (parse parse' : text_aterm_input → outcome aterm)
    (hp : ∀ s s', same_position s s' → (parse s).alike (parse' s'))
    (fuel : Nat) (self self' : text_aterm_input) (begin_ end_ : Char)
    (h : same_position self self') :
    (parse_aterm_list parse fuel self begin_ end_).alike
      (parse_aterm_list parse' fuel self' begin_ end_) := by
  unfold parse_aterm_list
  rw [h.2.1]
  split_ifs
  · apply alike_bind _ _ _ _ (assign_next_char_alike _ _ _ _ h)
    intro _ s s' hs
    simp only []
    apply alike_bind
    · rw [hs.2.1]
      split_ifs
      · apply alike_bind _ _ _ _ (hp _ _ hs)
        intro t s2 s2' hs2
        apply alike_bind _ _ _ _ (parse_aterm_list_loop_alike parse parse' hp fuel _ _ _ hs2)
        intro list s3 s3' hs3
        rw [hs3.2.1]
        split_ifs
        · exact alike_runtime_error _ _ _ hs3
        · exact alike_ok _ _ _ hs3
      · exact alike_ok _ _ _ hs
    · intro list s4 s4' hs4
      apply alike_bind _ _ _ _ (assign_next_char_alike _ _ _ _ hs4)
      intro _ s5 s5' hs5
      exact alike_ok _ _ _ hs5
  · exact alike_ok _ _ _ h

theorem parse_aterm_appl_alike (m_transformer : aterm_transformer)
    (parse parse' : text_aterm_input → outcome aterm)
    (hp : ∀ s s', same_position s s' → (parse s).alike (parse' s'))
    (fuel : Nat) (function_name : List Char) (self self' : text_aterm_input)
    (h : same_position self self') :
    (parse_aterm_appl m_transformer parse fuel function_name self).alike
      (parse_aterm_appl m_transformer parse' fuel function_name self') := by
  unfold parse_aterm_appl
  apply alike_bind _ _ _ _ (parse_aterm_list_alike parse parse' hp fuel _ _ _ _ h)
  intro arguments s s' hs
  exact alike_ok _ _ _ hs

theorem parse_aterm_alike (m_transformer : aterm_transformer) :
    ∀ (fuel : Nat) (self self' : text_aterm_input), same_position self self' →
      (parse_aterm m_transformer fuel self).alike (parse_aterm m_transformer fuel self')
  | 0, _, _, _ => by simp [parse_aterm, outcome.alike]
  | fuel + 1, self, self', h => by
    have ih := parse_aterm_alike m_transformer fuel
    unfold parse_aterm
    rw [h.2.1]
    split_ifs
    · apply alike_bind _ _ _ _ (parse_quoted_string_alike _ _ h)
      intro name s s' hs
      apply alike_bind _ _ _ _ (parse_aterm_appl_alike m_transformer _ _ ih fuel name _ _ hs)
      intro appl s2 s2' hs2
      exact alike_ok _ _ _ hs2
    · apply alike_bind _ _ _ _ (parse_aterm_list_alike _ _ ih fuel _ _ _ _ h)
      intro list s2 s2' hs2
      exact alike_ok _ _ _ hs2
    · exact parse_aterm_int_alike _ _ h
    · apply alike_bind _ _ _ _ (parse_unquoted_string_alike _ _ h)
      intro name s s' hs
      apply alike_bind _ _ _ _ (parse_aterm_appl_alike m_transformer _ _ ih fuel name _ _ hs)
      intro appl s2 s2' hs2
      exact alike_ok _ _ _ hs2

theorem init_alike (is : List Char) (m_line m_column limit limit' : Nat) :
    (text_aterm_input.init is m_line m_column limit).alike
      (text_aterm_input.init is m_line m_column limit') := by
  unfold text_aterm_input.init
  exact assign_next_char_alike _ _ _ _ ⟨rfl, rfl, rfl, rfl⟩

theorem next_char_loop_returns (skip_whitespace : Bool) :
    ∀ (stream : List Char) (self : text_aterm_input),
      ∃ c self', next_char_loop skip_whitespace false stream self = outcome.ok c self'
  | [], self => ⟨_, _, rfl⟩
  | c :: stream, self => by
    unfold next_char_loop
    cases hs : (isspace (some c) && skip_whitespace)
    · simp only [Bool.false_eq_true, if_false]
      exact ⟨_, _, rfl⟩
    · simp only [if_true]
      exact next_char_loop_returns skip_whitespace stream _

theorem init_returns (is : List Char) (m_line m_column m_history_limit : Nat) :
    ∃ self, text_aterm_input.init is m_line m_column m_history_limit = outcome.ok () self := by
  obtain ⟨c, self', h⟩ := next_char_loop_returns default_skip_whitespace is
    { m_stream := is, character := none, m_line := m_line, m_column := m_column,
      m_history := [], m_history_limit := m_history_limit }
  refine ⟨{ self' with character := c }, ?_⟩
  show (outcome.bind (next_char_loop default_skip_whitespace false is _) _) = _
  rw [h]
  rfl

/-- A parse error of `read_term_from_text_stream` is raised with every history limit: the
message inside the parser, the line and the column are the same, the history may
differ. -/
theorem read_error_any_limit (is : List Char) (m_line m_column limit limit' : Nat)
    (message : List Char) (self : text_aterm_input)
    (h : read_term_from_text_stream is m_line m_column limit
      = outcome.runtime_error message self) :
    ∃ what self', message = what ++ "\n".toList ++ print_parse_error_position self
      ∧ same_position self self'
      ∧ read_term_from_text_stream is m_line m_column limit'
        = outcome.runtime_error (what ++ "\n".toList ++ print_parse_error_position self')
            self' := by
  obtain ⟨s0, h0⟩ := init_returns is m_line m_column limit
  obtain ⟨s0', h0'⟩ := init_returns is m_line m_column limit'
  have hi := init_alike is m_line m_column limit limit'
  rw [h0, h0'] at hi
  have hs : same_position s0 s0' := hi.2
  unfold read_term_from_text_stream at h ⊢
  rw [h0] at h
  rw [h0']
  simp only [outcome.bind] at h ⊢
  obtain ⟨hc, what, hp, hm⟩ := (get_runtime_error_iff _ _ _ _ _).mp h
  have ha := parse_aterm_alike identity (s0.m_stream.length + 1) s0 s0' hs
  rw [hp, hs.1] at ha
  cases hp' : parse_aterm identity (s0'.m_stream.length + 1) s0' with
  | ok t s => rw [hp'] at ha; exact ha.elim
  | undefined_behaviour => rw [hp'] at ha; exact ha.elim
  | out_of_fuel => rw [hp'] at ha; exact ha.elim
  | runtime_error what' self' =>
    rw [hp'] at ha
    obtain ⟨rfl, hs'⟩ := ha
    refine ⟨what, self', hm, hs', ?_⟩
    exact (get_runtime_error_iff _ _ _ _ _).mpr ⟨by rw [← hs.2.1]; exact hc, what, hp', rfl⟩

/-! ## Quoted names -/

/-- With the identity transform, a lookahead `"` makes `parse_aterm` read a quoted name
and the parenthesised arguments and return their application. -/
theorem parse_aterm_quoted_identity (fuel : Nat) (self : text_aterm_input)
    (hc : self.character = some '"') :
    parse_aterm identity (fuel + 1) self
      = (parse_quoted_string self).bind fun function_name self =>
          (parse_aterm_list (parse_aterm identity fuel) fuel self '(' ')').bind
            fun arguments self => outcome.ok (aterm.appl function_name arguments) self := by
  rw [parse_aterm_quoted identity fuel self hc]
  congr 1
  funext function_name self1
  unfold parse_aterm_appl
  cases parse_aterm_list (parse_aterm identity fuel) fuel self1 '(' ')' <;> rfl

/-- The text of a quoted name `c :: s` and of its arguments is read as the application
of the name to the arguments, whatever the first character of the name is, as long as it
is not skipped as whitespace. -/
theorem parse_aterm_quoted_name (fuel : Nat) (c : Char) (s : List Char)
    (hc : c ≠ ' ' ∧ c ≠ '\x0b' ∧ c ≠ '\x0c')
    (es : List (List Char)) (ts : List aterm)
    (h : List.Forall₂ (reads_as (parse_aterm identity fuel)) es ts) (hfuel : es.length ≤ fuel)
    (rest : List Char) (hrest : delimited rest ∨ rest = ['\n'])
    (self : text_aterm_input)
    (hp : positioned self ('"' :: ((c :: s).flatMap escape_symbol ++ '"' ::
        ((if ts.length > 0 then ['('] ++ List.intercalate [','] es ++ [')'] else [])
          ++ rest)))) :
    ∃ self', parse_aterm identity (fuel + 1) self = outcome.ok (aterm.appl (c :: s) ts) self'
      ∧ positioned self' (after_token rest) := by
  have hns : no_space_ahead ((if ts.length > 0
      then ['('] ++ List.intercalate [','] es ++ [')'] else []) ++ rest)
      ∨ (if ts.length > 0
      then ['('] ++ List.intercalate [','] es ++ [')'] else []) ++ rest = ['\n'] := by
    by_cases hl : ts.length > 0
    · simp only [hl, if_true]
      left
      intro d hd
      simp only [List.cons_append, List.singleton_append, List.head?_cons,
        Option.some.injEq] at hd
      subst hd
      decide
    · simp only [hl, if_false, List.nil_append]
      exact token_end_of_term_end rest hrest
  obtain ⟨self1, hn1, hp1⟩ := parse_quoted_string_spec c s _ hc hns self hp
  obtain ⟨self2, hn2, hp2⟩ := parse_aterm_appl_texts (parse_aterm identity fuel)
    es ts h rest hrest fuel hfuel (c :: s) self1 hp1
  refine ⟨self2, ?_, hp2⟩
  rw [parse_aterm_quoted identity fuel self hp.1, hn1]
  simp only [outcome.bind, hn2]

/-! ## The transforms of the writer and of the reader -/

/-- What `write_term_line` writes for an application node is the text of the node that
the transform returns for it: its name, and its children written by `write_term_line`. -/
theorem transformed_appl_text (g : aterm_transformer) (fuel : Nat) (name : List Char)
    (arguments : List aterm) (texts : List (List Char)) (os : List Char)
    (h : List.Forall₂ (fun t text => write_term_line g fuel t [] = some text)
      (g (name, arguments)).2 texts) :
    write_term_line g (fuel + 1) (aterm.appl name arguments) os
      = some (write_string_with_escape_symbols (g (name, arguments)).1 os ++
          if (g (name, arguments)).2.length > 0
          then ['('] ++ List.intercalate [','] texts ++ [')'] else []) := by
  simp only [write_term_line]
  generalize g (name, arguments) = appl at h ⊢
  obtain ⟨f, ts⟩ := appl
  cases h with
  | nil => simp
  | @cons t text ts' texts' h1 h2 =>
    simp only []
    rw [write_term_line_append g fuel t, h1]
    simp only [Option.map_some']
    rw [write_term_lines_false _ (write_term_line_append g fuel) ts' texts' h2]
    simp [intercalate_cons_eq]

theorem bottom_up_replace_list_eq_map (g : aterm_transformer) (l : List aterm) :
    bottom_up_replace_list g l = l.map (bottom_up_replace g) := by
  induction l with
  | nil => rfl
  | cons t ts ih => simp [bottom_up_replace_list, ih]

theorem map_bind {α β γ : Type} (f : β → γ) (a : outcome α)
    (k : α → text_aterm_input → outcome β) :
    (a.bind k).map f = a.bind fun v s => (k v s).map f := by
  cases a <;> rfl

theorem bind_map {α β γ : Type} (f : α → β) (a : outcome α)
    (k : β → text_aterm_input → outcome γ) :
    (a.map f).bind k = a.bind fun v s => k (f v) s := by
  cases a <;> rfl

theorem parse_aterm_list_loop_map (f : aterm → aterm)
    (parse parse' : text_aterm_input → outcome aterm)
    (hp : ∀ s, parse' s = (parse s).map f) :
    ∀ (fuel : Nat) (list : List aterm) (self : text_aterm_input),
      parse_aterm_list_loop parse' fuel (list.map f) self
        = (parse_aterm_list_loop parse fuel list self).map (List.map f)
  | 0, _, _ => rfl
  | fuel + 1, list, self => by
    unfold parse_aterm_list_loop
    split_ifs
    · rw [map_bind]
      congr 1
      funext _ s
      rw [hp, bind_map, map_bind]
      congr 1
      funext t s2
      exact parse_aterm_list_loop_map f parse parse' hp fuel (t :: list) s2
    · rfl

theorem parse_aterm_list_map (f : aterm → aterm)
    (parse parse' : text_aterm_input → outcome aterm)
    (hp : ∀ s, parse' s = (parse s).map f)
    (fuel : Nat) (self : text_aterm_input) (begin_ end_ : Char) :
    parse_aterm_list parse' fuel self begin_ end_
      = (parse_aterm_list parse fuel self begin_ end_).map (List.map f) := by
  unfold parse_aterm_list
  split_ifs
  · rw [map_bind]
    congr 1
    funext _ s
    simp only []
    have he : (if s.character ≠ some end_ then
          (parse' s).bind fun t self =>
            (parse_aterm_list_loop parse' fuel [t] self).bind fun list self =>
              if self.character ≠ some end_ then
                outcome.runtime_error
                  ("Missing ".toList ++ [end_] ++ " while parsing a list term".toList) self
              else outcome.ok list self
        else outcome.ok [] s)
        = (if s.character ≠ some end_ then
          (parse s).bind fun t self =>
            (parse_aterm_list_loop parse fuel [t] self).bind fun list self =>
              if self.character ≠ some end_ then
                outcome.runtime_error
                  ("Missing ".toList ++ [end_] ++ " while parsing a list term".toList) self
              else outcome.ok list self
        else outcome.ok [] s).map (List.map f) := by
      split_ifs
      · rw [hp, bind_map, map_bind]
        congr 1
        funext t s2
        have := parse_aterm_list_loop_map f parse parse' hp fuel [t] s2
        simp only [List.map_cons, List.map_nil] at this
        rw [this, bind_map, map_bind]
        congr 1
        funext list s3
        split_ifs <;> rfl
      · rfl
    rw [he, bind_map, map_bind]
    congr 1
    funext list s4
    rw [map_bind]
    congr 1
    funext _ s5
    simp [outcome.map]
  · rfl

/-- The reader with the transform `g` returns what the reader with the identity transform
returns, with the application nodes replaced bottom-up by `g`; it fails where the reader
with the identity transform fails, in the same state. -/
theorem parse_aterm_bottom_up (g : aterm_transformer) :
    ∀ (fuel : Nat) (self : text_aterm_input),
      parse_aterm g fuel self = (parse_aterm identity fuel self).map (bottom_up_replace g)
  | 0, _ => rfl
  | fuel + 1, self => by
    have ih : ∀ s, parse_aterm g fuel s
        = (parse_aterm identity fuel s).map (bottom_up_replace g) :=
      parse_aterm_bottom_up g fuel
    have happl : ∀ name s,
        ((parse_aterm_appl g (parse_aterm g fuel) fuel name s).bind
          fun appl self => outcome.ok (aterm.appl appl.1 appl.2) self)
        = ((parse_aterm_appl identity (parse_aterm identity fuel) fuel name s).bind
          fun appl self => outcome.ok (aterm.appl appl.1 appl.2) self).map
            (bottom_up_replace g) := by
      intro name s
      unfold parse_aterm_appl
      rw [parse_aterm_list_map (bottom_up_replace g) (parse_aterm identity fuel)
        (parse_aterm g fuel) ih]
      cases parse_aterm_list (parse_aterm identity fuel) fuel s '(' ')' with
      | ok arguments s2 =>
        simp [outcome.map, outcome.bind, identity, bottom_up_replace,
          bottom_up_replace_list_eq_map]
      | runtime_error w s2 => rfl
      | undefined_behaviour => rfl
      | out_of_fuel => rfl
    unfold parse_aterm
    split_ifs
    · rw [map_bind]
      congr 1
      funext name s
      exact happl name s
    · rw [parse_aterm_list_map (bottom_up_replace g) (parse_aterm identity fuel)
        (parse_aterm g fuel) ih, bind_map, map_bind]
      congr 1
      funext list s
      simp [outcome.map, bottom_up_replace, bottom_up_replace_list_eq_map]
    · cases h : parse_aterm_int self with
      | ok t s =>
        have : ∃ value, t = aterm.int value := by
          unfold parse_aterm_int at h
          simp only [outcome.bind] at h
          revert h
          split <;> try (intro h; cases h)
          rename_i number s1 _
          split <;> try (intro h; cases h)
          split <;> try (intro h; cases h)
          split <;> intro h <;> cases h
          exact ⟨_, rfl⟩
        obtain ⟨value, rfl⟩ := this
        rfl
      | runtime_error w s => rfl
      | undefined_behaviour => rfl
      | out_of_fuel => rfl
    · rw [map_bind]
      congr 1
      funext name s
      exact happl name s

theorem get_bottom_up (g : aterm_transformer) (fuel : Nat) (self : text_aterm_input) :
    self.get g fuel = (self.get identity fuel).map (Option.map (bottom_up_replace g)) := by
  unfold text_aterm_input.get
  split_ifs
  · rw [parse_aterm_bottom_up g fuel self]
    cases parse_aterm identity fuel self <;> rfl
  · rfl

theorem parse_aterm_fuel (m_transformer : aterm_transformer) (self : text_aterm_input) :
    parse_aterm m_transformer (self.m_stream.length + 1) self ≠ outcome.out_of_fuel := by
  intro h
  have := parse_aterm_within m_transformer (self.m_stream.length + 1) self (by omega)
  rw [h] at this
  exact this

/-! ## Truncated input -/

theorem bind_eq_ok {α β : Type} (a : outcome α) (k : α → text_aterm_input → outcome β)
    (v : β) (s : text_aterm_input) (h : a.bind k = outcome.ok v s) :
    ∃ v1 s1, a = outcome.ok v1 s1 ∧ k v1 s1 = outcome.ok v s := by
  cases a with
  | ok v1 s1 => exact ⟨v1, s1, rfl, h⟩
  | runtime_error w s1 => cases h
  | undefined_behaviour => cases h
  | out_of_fuel => cases h

theorem newline_not_mem_write_string_append (s os : List Char) (h : '\n' ∉ os) :
    '\n' ∉ write_string_with_escape_symbols s os := by
  have h1 := newline_not_mem_write_string s
  rw [write_string_with_escape_symbols_eq] at h1 ⊢
  split_ifs at h1 ⊢ with hq
  · simp only [List.mem_append, List.mem_singleton, not_or]
    exact ⟨⟨⟨h, by decide⟩, newline_not_mem_escape s⟩, by decide⟩
  · simp only [List.nil_append] at h1
    simp only [List.mem_append, not_or]
    exact ⟨h, h1⟩

theorem newline_not_mem_write_term_lines (write : aterm → List Char → Option (List Char))
    (hw : ∀ t os text, write t os = some text → '\n' ∉ os → '\n' ∉ text) :
    ∀ (ts : List aterm) (first : Bool) (os text : List Char),
      write_term_lines write first ts os = some text → '\n' ∉ os → '\n' ∉ text
  | [], _, os, text, h, ho => by
    simp only [write_term_lines, Option.some.injEq] at h
    subst h
    exact ho
  | t :: rest, first, os, text, h, ho => by
    unfold write_term_lines at h
    cases h1 : write t (if first then os else os ++ [',']) with
    | none => rw [h1] at h; cases h
    | some os1 =>
      rw [h1] at h
      have ho1 : '\n' ∉ os1 := by
        refine hw t _ os1 h1 ?_
        split_ifs
        · exact ho
        · simp only [List.mem_append, List.mem_singleton, not_or]
          exact ⟨ho, by decide⟩
      exact newline_not_mem_write_term_lines write hw rest false os1 text h ho1

/-- Whatever the transform is, `write_term_line` writes no newline. -/
theorem newline_not_mem_write_term_line (m_transformer : aterm_transformer) :
    ∀ (fuel : Nat) (t : aterm) (os text : List Char),
      write_term_line m_transformer fuel t os = some text → '\n' ∉ os → '\n' ∉ text
  | 0, _, _, _, h, _ => by simp [write_term_line] at h
  | fuel + 1, aterm.int value, os, text, h, ho => by
    simp only [write_term_line, Option.some.injEq] at h
    subst h
    simp only [List.mem_append, not_or]
    exact ⟨ho, newline_not_mem_toDigits value⟩
  | fuel + 1, aterm.list list, os, text, h, ho => by
    simp only [write_term_line] at h
    cases h1 : write_term_lines (write_term_line m_transformer fuel) true list (os ++ ['['])
      with
    | none => rw [h1] at h; cases h
    | some os1 =>
      rw [h1] at h
      simp only [Option.some.injEq] at h
      subst h
      have := newline_not_mem_write_term_lines _
        (newline_not_mem_write_term_line m_transformer fuel) list true _ os1 h1
        (by
          simp only [List.mem_append, List.mem_singleton, not_or]
          exact ⟨ho, by decide⟩)
      simp only [List.mem_append, List.mem_singleton, not_or]
      exact ⟨this, by decide⟩
  | fuel + 1, aterm.appl name arguments, os, text, h, ho => by
    simp only [write_term_line] at h
    have hname := newline_not_mem_write_string_append (m_transformer (name, arguments)).1 os ho
    generalize write_string_with_escape_symbols (m_transformer (name, arguments)).1 os = os0
      at h hname
    generalize (m_transformer (name, arguments)).2 = children at h
    cases children with
    | nil =>
      simp only [Option.some.injEq] at h
      subst h
      exact hname
    | cons appl_0 appl_rest =>
      simp only [] at h
      cases h1 : write_term_line m_transformer fuel appl_0 (os0 ++ ['(']) with
      | none => rw [h1] at h; cases h
      | some os1 =>
        rw [h1] at h
        simp only [] at h
        have ho1 := newline_not_mem_write_term_line m_transformer fuel appl_0 _ os1 h1
          (by
            simp only [List.mem_append, List.mem_singleton, not_or]
            exact ⟨hname, by decide⟩)
        cases h2 : write_term_lines (write_term_line m_transformer fuel) false appl_rest os1
          with
        | none => rw [h2] at h; cases h
        | some os2 =>
          rw [h2] at h
          simp only [Option.some.injEq] at h
          subst h
          have := newline_not_mem_write_term_lines _
            (newline_not_mem_write_term_line m_transformer fuel) appl_rest false os1 os2 h2 ho1
          simp only [List.mem_append, List.mem_singleton, not_or]
          exact ⟨this, by decide⟩

/-! ## The claims C12 to C20 -/

/-- C12 (end-of-stream sentinel): for every input stream that is empty or holds only
whitespace (space, tab, newline, vertical tab, form feed, carriage return), the
constructor of `text_aterm_input` leaves the lookahead at the end of the input, and `get`
returns the "no term" value and raises no error. -/
theorem end_of_stream_sentinel (is : List Char) (h : ∀ c ∈ is, isspace (some c) = true)
    (m_line m_column m_history_limit : Nat) :
    (∃ self, text_aterm_input.init is m_line m_column m_history_limit = outcome.ok () self
      ∧ ∀ m_transformer fuel, ∃ self', self.get m_transformer fuel = outcome.ok none self')
    ∧ ∃ self', read_term_from_text_stream is m_line m_column m_history_limit
        = outcome.ok none self' := by
  obtain ⟨self, h1, _, h3⟩ := init_whitespace is h m_line m_column m_history_limit
  have hget : ∀ m_transformer fuel, ∃ self',
      self.get m_transformer fuel = outcome.ok none self' := by
    intro m_transformer fuel
    exact ⟨{ self with m_column := 0, m_history := [] },
      by simp [text_aterm_input.get, h3]⟩
  refine ⟨⟨self, h1, hget⟩, ?_⟩
  obtain ⟨self', h4⟩ := hget identity (self.m_stream.length + 1)
  exact ⟨self', by simp only [read_term_from_text_stream, h1, outcome.bind, h4]⟩

theorem end_of_stream_sentinel_witness :
    (∀ c ∈ " \n\t ".toList, isspace (some c) = true)
    ∧ (∃ self, text_aterm_input.init " \n\t ".toList 1 0 64 = outcome.ok () self
      ∧ ∀ m_transformer fuel, ∃ self', self.get m_transformer fuel = outcome.ok none self')
    ∧ ∃ self', read_term_from_text_stream " \n\t ".toList 1 0 64 = outcome.ok none self' :=
  ⟨by decide, end_of_stream_sentinel " \n\t ".toList (by decide) 1 0 64⟩

/-- C14 (error diagnostics): whatever the history limit, parsing the input `f(1,2` raises
a parse error whose message is `Missing ) while parsing a list term`, a newline, and
`Error occurred at line 1, col 5 near: ` followed by the retained history; with room for
64 characters the history is `f(1,2`. -/
theorem missing_parenthesis_diagnostics (m_history_limit : Nat) :
    (∃ self', read_term_from_string "f(1,2".toList initial_line initial_column m_history_limit
        = outcome.runtime_error
            ("Missing ) while parsing a list term\nError occurred at line 1, col 5 near: ".toList
              ++ self'.m_history) self')
    ∧ read_term_from_string "f(1,2".toList initial_line initial_column 64
        = outcome.runtime_error
            "Missing ) while parsing a list term\nError occurred at line 1, col 5 near: f(1,2".toList
            ⟨[], none, 1, 5, "f(1,2".toList, 64⟩ := by
  refine ⟨?_, by rfl⟩
  have h0 : read_term_from_text_stream "f(1,2".toList initial_line initial_column 0
      = outcome.runtime_error
          ("Missing ) while parsing a list term".toList ++ "\n".toList
            ++ print_parse_error_position ⟨[], none, 1, 5, ['2'], 0⟩)
          ⟨[], none, 1, 5, ['2'], 0⟩ := by rfl
  obtain ⟨what, self', h1, h2, h3⟩ := read_error_any_limit _ _ _ 0 m_history_limit _ _ h0
  have hw : what = "Missing ) while parsing a list term".toList := by
    have := List.append_cancel_right h1
    exact (List.append_cancel_right this).symm
  refine ⟨self', ?_⟩
  rw [read_term_from_string, h3, hw]
  simp only [print_parse_error_position, ← h2.2.2.1, ← h2.2.2.2]
  rfl

/-- C15 (error enrichment): `get` ends with a parse error exactly when the lookahead is
not the end of the input and `parse_aterm` raised a parse error; the state is the one at
the throw and the message is the message raised inside the parser, unchanged, followed by
a newline and `Error occurred at line L, col C near: H` with the line counter, the column
counter and the history of that state.  The history holds the last consumed characters in
the order of consumption: with room for three characters, the error of `f(1,2` is reported
near `1,2`. -/
theorem error_enrichment (m_transformer : aterm_transformer) (fuel : Nat)
    (self : text_aterm_input) (message : List Char) (self' : text_aterm_input) :
    (self.get m_transformer fuel = outcome.runtime_error message self'
      ↔ (self.character ≠ none ∧ ∃ what,
          parse_aterm m_transformer fuel self = outcome.runtime_error what self'
          ∧ message = what ++ ['\n'] ++ "Error occurred at line ".toList
              ++ Nat.toDigits 10 self'.m_line ++ ", col ".toList
              ++ Nat.toDigits 10 self'.m_column ++ " near: ".toList ++ self'.m_history))
    ∧ read_term_from_text_stream "f(1,2".toList 1 0 3
      = outcome.runtime_error
          "Missing ) while parsing a list term\nError occurred at line 1, col 5 near: 1,2".toList
          ⟨[], none, 1, 5, "1,2".toList, 3⟩ := by
  refine ⟨?_, by rfl⟩
  rw [get_runtime_error_iff]
  simp only [print_parse_error_position, List.append_assoc]
  rfl

/-- C16 (whitespace between tokens) fails on the code: `[a,b]` is read as the list of
`a` and `b`, but `[a ,b]`, with a space between the unquoted name `a` and the comma, raises
the parse error `Missing ]`; after a quoted name and after an integer the same space is
skipped. -/
theorem whitespace_after_unquoted_name :
    (read_term_from_text_stream "[a,b]".toList 1 0 64).value?
      = some (some (aterm.list [aterm.appl ['a'] [], aterm.appl ['b'] []]))
    ∧ read_term_from_text_stream "[a ,b]".toList 1 0 64
      = outcome.runtime_error
          "Missing ] while parsing a list term\nError occurred at line 1, col 3 near: [a ".toList
          ⟨",b]".toList, some ' ', 1, 3, "[a ".toList, 64⟩
    ∧ (read_term_from_text_stream "[\"a\" ,b]".toList 1 0 64).value?
      = some (some (aterm.list [aterm.appl ['a'] [], aterm.appl ['b'] []]))
    ∧ (read_term_from_text_stream "[1 ,2]".toList 1 0 64).value?
      = some (some (aterm.list [aterm.int 1, aterm.int 2])) := by
  refine ⟨by rfl, by rfl, by rfl, by rfl⟩

/-- C17 (whitespace inside quoted strings) fails on the code: from the text `" a"` the
name `a` is read, without the space after the opening quote, and from a quoted string
with a newline between `a` and `b` the name with the character 255 in the place of the
newline is read; a space or a tab behind the first character is kept. -/
theorem whitespace_in_quoted_string :
    (read_name "\" a\"".toList 1 0 64).value? = some ['a']
    ∧ ['a'] ≠ [' ', 'a']
    ∧ (read_name "\"a\nb\"".toList 1 0 64).value? = some ['a', Char.ofNat 255, 'b']
    ∧ ['a', Char.ofNat 255, 'b'] ≠ ['a', '\n', 'b']
    ∧ (read_name "\"a\tb \"".toList 1 0 64).value? = some ['a', '\t', 'b', ' '] := by
  refine ⟨by rfl, by decide, by rfl, by decide, by rfl⟩

/-- C18 (output transform): for every transform `g`, what `write_term_line` writes for an
application node is the escaped name of `g(node)`, followed, when `g(node)` has children,
by `(`, the texts that `write_term_line` with the same `g` writes for the children of
`g(node)`, separated by commas, and `)`; an integer node is written in decimal whatever
`g` is, and a list node is written as its elements, each written by `write_term_line`
with `g`, without being passed to `g`; with the identity for `g` the output is the text
of the term in the plain grammar.  A `g` that renames `f` to `g` and drops its first
child makes `f(1,f(2,3))` be written as `g(g(3))`. -/
theorem output_transform (g : aterm_transformer) (fuel : Nat) (name : List Char)
    (arguments : List aterm) (texts : List (List Char)) (os : List Char)
    (h : List.Forall₂ (fun t text => write_term_line g fuel t [] = some text)
      (g (name, arguments)).2 texts) :
    write_term_line g (fuel + 1) (aterm.appl name arguments) os
      = some (write_string_with_escape_symbols (g (name, arguments)).1 os ++
          if (g (name, arguments)).2.length > 0
          then ['('] ++ List.intercalate [','] texts ++ [')'] else [])
    ∧ (∀ value, write_term_line g (fuel + 1) (aterm.int value) os
        = some (os ++ Nat.toDigits 10 value))
    ∧ (∀ elements element_texts,
        List.Forall₂ (fun t text => write_term_line g fuel t [] = some text)
          elements element_texts →
        write_term_line g (fuel + 1) (aterm.list elements) os
          = some (os ++ ['['] ++ List.intercalate [','] element_texts ++ [']']))
    ∧ (∀ t : aterm, t.size ≤ fuel → write_term_line identity fuel t os = some (os ++ term_text t))
    ∧ write_term_line (fun appl => if appl.1 = ['f'] then (['g'], appl.2.tail) else appl) 3
        (aterm.appl ['f'] [aterm.int 1, aterm.appl ['f'] [aterm.int 2, aterm.int 3]]) []
        = some "g(g(3))".toList :=
  ⟨transformed_appl_text g fuel name arguments texts os h,
    fun _ => rfl,
    fun elements element_texts he => list_text_of_element_texts g fuel elements element_texts os he,
    fun t ht => write_term_line_identity fuel t ht os,
    by rfl⟩

theorem output_transform_witness :
    write_term_line (fun appl => if appl.1 = ['f'] then (['g'], appl.2.tail) else appl) 2
        (aterm.appl ['f'] [aterm.int 1, aterm.int 2]) ['x']
      = some (write_string_with_escape_symbols ['g'] ['x'] ++
          if [aterm.int 2].length > 0
          then ['('] ++ List.intercalate [','] ["2".toList] ++ [')'] else [])
    ∧ (∀ value,
        write_term_line (fun appl => if appl.1 = ['f'] then (['g'], appl.2.tail) else appl) 2
          (aterm.int value) ['x'] = some (['x'] ++ Nat.toDigits 10 value))
    ∧ (∀ elements element_texts,
        List.Forall₂ (fun t text =>
          write_term_line (fun appl => if appl.1 = ['f'] then (['g'], appl.2.tail) else appl) 1
            t [] = some text) elements element_texts →
        write_term_line (fun appl => if appl.1 = ['f'] then (['g'], appl.2.tail) else appl) 2
            (aterm.list elements) ['x']
          = some (['x'] ++ ['['] ++ List.intercalate [','] element_texts ++ [']']))
    ∧ (∀ t : aterm, t.size ≤ 1 → write_term_line identity 1 t ['x'] = some (['x'] ++ term_text t))
    ∧ write_term_line (fun appl => if appl.1 = ['f'] then (['g'], appl.2.tail) else appl) 3
        (aterm.appl ['f'] [aterm.int 1, aterm.appl ['f'] [aterm.int 2, aterm.int 3]]) []
        = some "g(g(3))".toList :=
  output_transform (fun appl => if appl.1 = ['f'] then (['g'], appl.2.tail) else appl) 1 ['f']
    [aterm.int 1, aterm.int 2] ["2".toList] ['x']
    (List.Forall₂.cons rfl List.Forall₂.nil)

/-- C19 (input transform): for every transform `g`, every state of the reader and every
fuel, `parse_aterm` and `get` with the transform `g` return the term that they return
with the identity transform with its application nodes replaced bottom-up by `g`
(children first, each application rebuilt from its transformed children and then passed
to `g`; integer and list nodes are not passed to `g`), in the same state of the reader;
they raise the same errors; with more fuel than unread characters they do not run out
of fuel.  With a `g` that puts `g` in front of every name, `f(a,[b])` is read as
`gf(ga,[gb])`. -/
theorem input_transform (g : aterm_transformer) (fuel : Nat) (self : text_aterm_input) :
    parse_aterm g fuel self = (parse_aterm identity fuel self).map (bottom_up_replace g)
    ∧ self.get g fuel = (self.get identity fuel).map (Option.map (bottom_up_replace g))
    ∧ parse_aterm g (self.m_stream.length + 1) self ≠ outcome.out_of_fuel
    ∧ (∀ value, bottom_up_replace g (aterm.int value) = aterm.int value)
    ∧ (∀ l, bottom_up_replace g (aterm.list l) = aterm.list (l.map (bottom_up_replace g)))
    ∧ (∀ name l, bottom_up_replace g (aterm.appl name l)
        = aterm.appl (g (name, l.map (bottom_up_replace g))).1
            (g (name, l.map (bottom_up_replace g))).2)
    ∧ (parse_aterm (fun appl => ('g' :: appl.1, appl.2)) 8
        (text_aterm_input.mk "(a,[b])".toList (some 'f') 1 1 ['f'] 64)).value?
        = some (aterm.appl ['g', 'f']
            [aterm.appl ['g', 'a'] [], aterm.list [aterm.appl ['g', 'b'] []]])
    ∧ (parse_aterm identity 8
        (text_aterm_input.mk "(a,[b])".toList (some 'f') 1 1 ['f'] 64)).value?
        = some (aterm.appl ['f'] [aterm.appl ['a'] [], aterm.list [aterm.appl ['b'] []]]) :=
  ⟨parse_aterm_bottom_up g fuel self, get_bottom_up g fuel self, parse_aterm_fuel g self,
    fun _ => rfl,
    fun l => by simp [bottom_up_replace, bottom_up_replace_list_eq_map],
    fun name l => by simp [bottom_up_replace, bottom_up_replace_list_eq_map],
    by rfl, by rfl⟩

/-- C20 (trailing newline): `operator<<` appends to the stream the text that
`write_term_line` writes for the term, followed by exactly one newline when the newline
option is on and by nothing when it is off; the text of `write_term_line`, nested
sub-terms included, does not depend on the option and holds no newline, whatever the
transform is; with the identity transform and fuel for every node it is the text of the
term. -/
theorem trailing_newline (m_transformer : aterm_transformer) (fuel : Nat)
    (out : text_aterm_output) (t : aterm) :
    text_aterm_output.write m_transformer fuel out t
      = (write_term_line m_transformer fuel t []).map (fun text =>
          text_aterm_output.mk
            (out.m_stream ++ text ++ if out.m_newline then ['\n'] else []) out.m_newline)
    ∧ (∀ text, write_term_line m_transformer fuel t [] = some text → '\n' ∉ text)
    ∧ write_term_line identity (t.size + fuel) t [] = some (term_text t) := by
  refine ⟨?_, fun text h => newline_not_mem_write_term_line m_transformer fuel t [] text h
    (by simp), ?_⟩
  · unfold text_aterm_output.write
    rw [write_term_line_append]
    cases write_term_line m_transformer fuel t [] with
    | none => rfl
    | some text =>
      cases h : out.m_newline <;> simp [h]
  · simpa using write_term_line_identity (t.size + fuel) t (by omega) []

/-! ## The longest run of characters of a name -/

theorem mem_takeWhile_not_stop (l : List Char) :
    ∀ x ∈ l.takeWhile (fun x => !ends_unquoted_string x), ends_unquoted_string x = false := by
  induction l with
  | nil => intro x hx; cases hx
  | cons d l ih =>
    intro x hx
    by_cases hd : ends_unquoted_string d = true
    · simp [List.takeWhile_cons, hd] at hx
    · have hd' : ends_unquoted_string d = false := by simpa using hd
      simp only [List.takeWhile_cons, hd', Bool.not_false, if_true, List.mem_cons] at hx
      rcases hx with rfl | hx
      · exact hd'
      · exact ih x hx

theorem head_dropWhile_stop (l : List Char) :
    ∀ d, (l.dropWhile (fun x => !ends_unquoted_string x)).head? = some d →
      ends_unquoted_string d = true := by
  induction l with
  | nil => intro d hd; cases hd
  | cons c l ih =>
    intro d hd
    by_cases hc : ends_unquoted_string c = true
    · simp only [List.dropWhile_cons, hc, Bool.not_true, Bool.false_eq_true, if_false,
        List.head?_cons, Option.some.injEq] at hd
      subst hd
      exact hc
    · have hc' : ends_unquoted_string c = false := by simpa using hc
      simp only [List.dropWhile_cons, hc', Bool.not_false, if_true] at hd
      exact ih d hd

/-- From a lookahead that starts a name, `parse_unquoted_string` returns the longest run
of characters that are no stopping characters and leaves the lookahead behind it. -/
theorem parse_unquoted_string_longest (self : text_aterm_input) (c : Char)
    (hch : self.character = some c) (hc : ends_unquoted_string c = false) :
    ∃ self', parse_unquoted_string self
        = outcome.ok ((c :: self.m_stream).takeWhile fun x => !ends_unquoted_string x) self'
      ∧ self'.character
        = lookahead_of ((c :: self.m_stream).dropWhile fun x => !ends_unquoted_string x)
      ∧ self'.m_stream
        = ((c :: self.m_stream).dropWhile fun x => !ends_unquoted_string x).tail := by
  have h1 : (c :: self.m_stream).takeWhile (fun x => !ends_unquoted_string x)
      = c :: self.m_stream.takeWhile (fun x => !ends_unquoted_string x) := by
    simp [List.takeWhile_cons, hc]
  have h2 : (c :: self.m_stream).dropWhile (fun x => !ends_unquoted_string x)
      = self.m_stream.dropWhile (fun x => !ends_unquoted_string x) := by
    simp [List.dropWhile_cons, hc]
  rw [h1, h2]
  exact parse_unquoted_string_spec _ (mem_takeWhile_not_stop self.m_stream) _
    (head_dropWhile_stop self.m_stream) c hc self hch
    (List.takeWhile_append_dropWhile _ _).symm

/-! ## The history, the line and the column follow the consumed characters -/

theorem retained_length (limit : Nat) (l : List Char) :
    (retained limit l).length = min l.length limit := by
  simp only [retained, List.length_drop]
  omega

theorem retained_snoc (limit : Nat) (h : 1 ≤ limit) (l : List Char) (c : Char) :
    retained limit (l ++ [c])
      = (if (retained limit l).length ≥ limit then (retained limit l).tail
          else retained limit l) ++ [c] := by
  have hlen := retained_length limit l
  by_cases hfull : l.length ≥ limit
  · have h1 : (retained limit l).length ≥ limit := by rw [hlen]; omega
    rw [if_pos h1]
    simp only [retained, List.length_append, List.length_singleton, List.tail_drop]
    rw [List.drop_append_of_le_length (by omega)]
    congr 2
    omega
  · have h1 : ¬ (retained limit l).length ≥ limit := by rw [hlen]; omega
    rw [if_neg h1]
    simp only [retained, List.length_append, List.length_singleton]
    have e1 : l.length + 1 - limit = 0 := by omega
    have e2 : l.length - limit = 0 := by omega
    rw [e1, e2]
    rfl

theorem column_of_snoc (column : Nat) (l : List Char) (c : Char) :
    column_of column (l ++ [c]) = if c = '\n' then 0 else column_of column l + 1 := by
  unfold column_of
  by_cases hc : c = '\n'
  · subst hc
    simp
  · rw [if_neg hc]
    have hmem : ('\n' ∈ l ++ [c]) ↔ '\n' ∈ l := by
      simp only [List.mem_append, List.mem_singleton]
      constructor
      · rintro (h | h)
        · exact h
        · exact absurd h.symm hc
      · exact Or.inl
    by_cases hl : '\n' ∈ l
    · rw [if_pos (hmem.2 hl), if_pos hl]
      simp [List.takeWhile_cons, hc]
    · rw [if_neg (fun h => hl (hmem.1 h)), if_neg hl]
      simp only [List.length_append, List.length_singleton]
      omega

theorem tracks_snoc (limit line column : Nat) (consumed : List Char)
    (self : text_aterm_input) (ht : tracks limit line column consumed self) (c : Char)
    (stream : List Char) (character : Option Char) :
    tracks limit line column (consumed ++ [c])
      { m_stream := stream, character := character,
        m_line := if c = '\n' then self.m_line + 1 else self.m_line,
        m_column := if c = '\n' then 0 else self.m_column + 1,
        m_history := (if self.m_history.length ≥ self.m_history_limit
          then self.m_history.tail else self.m_history) ++ [c],
        m_history_limit := self.m_history_limit } := by
  obtain ⟨h1, h2, h3, h4⟩ := ht
  refine ⟨h1, fun h => ?_, ?_, ?_⟩
  · simp only []
    rw [retained_snoc limit h, h1, h2 h]
  · simp only [List.count_append, List.count_singleton]
    rw [h3]
    by_cases hc : c = '\n'
    · subst hc
      simp
      omega
    · have : ('\n' == c) = false := by simpa using fun h : '\n' = c => hc h.symm
      simp [hc, this]
  · simp only []
    rw [column_of_snoc, h4]

/-- One turn of the loop of `next_char`: the state after the character `c` was read. -/
theorem next_char_loop_cons (skip_whitespace required : Bool) (c : Char)
    (stream : List Char) (self : text_aterm_input) :
    next_char_loop skip_whitespace required (c :: stream) self
      = if (isspace (some c) && skip_whitespace) = true then
          next_char_loop skip_whitespace required stream
            { m_stream := stream, character := some c,
              m_line := if c = '\n' then self.m_line + 1 else self.m_line,
              m_column := if c = '\n' then 0 else self.m_column + 1,
              m_history := (if self.m_history.length ≥ self.m_history_limit
                then self.m_history.tail else self.m_history) ++ [c],
              m_history_limit := self.m_history_limit }
        else
          outcome.ok (if c = '\n' then none else some c)
            { m_stream := stream, character := some c,
              m_line := if c = '\n' then self.m_line + 1 else self.m_line,
              m_column := if c = '\n' then 0 else self.m_column + 1,
              m_history := (if self.m_history.length ≥ self.m_history_limit
                then self.m_history.tail else self.m_history) ++ [c],
              m_history_limit := self.m_history_limit } := by
  rw [next_char_loop]
  by_cases hc : c = '\n' <;> by_cases hh : self.m_history.length ≥ self.m_history_limit <;>
    simp only [hc, hh, if_true, if_false]

/-- A call of the loop of `next_char` ends in a state that follows the characters it
consumed. -/
theorem next_char_loop_tracks (skip_whitespace required : Bool) (limit line column : Nat) :
    ∀ (stream consumed : List Char) (self : text_aterm_input),
      tracks limit line column consumed self →
      ∃ self' read, (next_char_loop skip_whitespace required stream self).state? = some self'
        ∧ stream = read ++ self'.m_stream
        ∧ tracks limit line column (consumed ++ read) self'
  | [], consumed, self, ht => by
    refine ⟨{ self with m_stream := [], character := none }, [], ?_, rfl, ?_⟩
    · rw [next_char_loop]
      cases required <;> rfl
    · simpa using ht
  | c :: stream, consumed, self, ht => by
    rw [next_char_loop_cons]
    have hs := tracks_snoc limit line column consumed self ht c stream (some c)
    by_cases hsp : (isspace (some c) && skip_whitespace) = true
    · rw [if_pos hsp]
      obtain ⟨self', read, e1, e2, e3⟩ := next_char_loop_tracks skip_whitespace required
        limit line column stream (consumed ++ [c]) _ hs
      refine ⟨self', c :: read, e1, by rw [e2]; simp, ?_⟩
      simpa [List.append_assoc] using e3
    · rw [if_neg hsp]
      exact ⟨_, [c], rfl, rfl, hs⟩

/-- A call of `next_char` ends in a state that follows the characters it consumed. -/
theorem next_char_tracks (skip_whitespace required : Bool) (limit line column : Nat)
    (consumed : List Char) (self : text_aterm_input)
    (ht : tracks limit line column consumed self) :
    ∃ self' read, (next_char skip_whitespace required self).state? = some self'
      ∧ self.m_stream = read ++ self'.m_stream
      ∧ tracks limit line column (consumed ++ read) self' :=
  next_char_loop_tracks skip_whitespace required limit line column self.m_stream consumed
    { self with character := none } ht

/-- A sequence of calls of `next_char` ends in a state that follows the characters the
calls consumed. -/
theorem next_chars_tracks (limit line column : Nat) :
    ∀ (calls : List (Bool × Bool)) (consumed : List Char) (self : text_aterm_input),
      tracks limit line column consumed self →
      ∃ read, self.m_stream = read ++ (next_chars calls self).m_stream
        ∧ tracks limit line column (consumed ++ read) (next_chars calls self)
  | [], consumed, self, ht => ⟨[], rfl, by simpa using ht⟩
  | call :: calls, consumed, self, ht => by
    obtain ⟨self1, read1, e1, e2, e3⟩ := next_char_tracks call.1 call.2 limit line column
      consumed self ht
    obtain ⟨read2, e4, e5⟩ := next_chars_tracks limit line column calls (consumed ++ read1)
      self1 e3
    refine ⟨read1 ++ read2, ?_, ?_⟩
    · rw [next_chars, e1, e2, e4]
      simp
    · rw [next_chars, e1]
      simpa [List.append_assoc] using e5

/-- At the end of the input a call of `next_char` changes neither the line, the column
nor the history. -/
theorem next_char_at_end (skip_whitespace required : Bool) (self : text_aterm_input)
    (hs : self.m_stream = []) :
    ∃ self', (next_char skip_whitespace required self).state? = some self'
      ∧ self'.m_line = self.m_line ∧ self'.m_column = self.m_column
      ∧ self'.m_history = self.m_history := by
  refine ⟨{ self with m_stream := [], character := none }, ?_, rfl, rfl, rfl⟩
  rw [next_char, hs, next_char_loop]
  cases required <;> rfl

theorem retained_nil (limit : Nat) : retained limit [] = [] := by
  simp [retained]

theorem tracks_start (self : text_aterm_input) (he : self.m_history = []) :
    tracks self.m_history_limit self.m_line self.m_column [] self :=
  ⟨rfl, fun _ => by rw [he, retained_nil], rfl, rfl⟩

theorem retained_suffix (limit : Nat) (l : List Char) : retained limit l <:+ l :=
  List.drop_suffix _ _

theorem column_of_line_start (column : Nat) (l : List Char) :
    column_of column (l ++ ['\n']) = 0 := by
  rw [column_of_snoc]
  rfl

theorem next_char_alike (skip_whitespace required : Bool) (self self' : text_aterm_input)
    (h : same_position self self') :
    (next_char skip_whitespace required self).alike
      (next_char skip_whitespace required self') := by
  unfold next_char
  rw [h.1]
  exact next_char_loop_alike _ _ _ _ _ ⟨rfl, rfl, h.2.2.1, h.2.2.2⟩

/-- The history does not steer a sequence of calls of `next_char`. -/
theorem next_chars_alike :
    ∀ (calls : List (Bool × Bool)) (self self' : text_aterm_input),
      same_position self self' → same_position (next_chars calls self) (next_chars calls self')
  | [], _, _, h => h
  | call :: calls, self, self', h => by
    have ha := next_char_alike call.1 call.2 self self' h
    rw [next_chars, next_chars]
    cases e1 : next_char call.1 call.2 self <;> cases e2 : next_char call.1 call.2 self' <;>
      rw [e1, e2] at ha <;> simp only [outcome.alike] at ha <;>
      simp only [outcome.state?]
    · exact next_chars_alike calls _ _ ha.2
    · exact next_chars_alike calls _ _ ha.2
    · exact h
    · exact h

theorem load_aterm_of_error (read_binary read_text : List Char → aterm_transformer →
      Except (List Char) (Option aterm))
    (stream : List Char) (binary : Bool) (format source : List Char)
    (transformer : aterm_transformer) (m : List Char)
    (h : (if binary then read_binary stream transformer else read_text stream transformer)
      = Except.error m) :
    load_aterm read_binary read_text stream binary format source transformer
      = if source = [] then
          Except.error ("Failed to read a valid ".toList ++ format
            ++ " from the input.\n".toList ++ m)
        else
          Except.error ("Failed to read a valid ".toList ++ format
            ++ " from the input ".toList ++ source ++ ".\n".toList ++ m) := by
  unfold load_aterm
  rw [h]

theorem load_aterm_of_ok (read_binary read_text : List Char → aterm_transformer →
      Except (List Char) (Option aterm))
    (stream : List Char) (binary : Bool) (format source : List Char)
    (transformer : aterm_transformer) (result : Option aterm)
    (h : (if binary then read_binary stream transformer else read_text stream transformer)
      = Except.ok result) :
    load_aterm read_binary read_text stream binary format source transformer
      = Except.ok result := by
  unfold load_aterm
  rw [h]

/-- A node with the symbol `DataVarIdNoIndex` or `OpIdNoIndex` has two children. -/
theorem two_children (x : aterm_appl) (symbol : function_symbol) (h : function x = symbol)
    (h2 : symbol.2 = 2) : ∃ x_0 x_1, x = (symbol.1, [x_0, x_1]) := by
  obtain ⟨name, arguments⟩ := x
  subst h
  simp only [function] at h2
  match arguments, h2 with
  | [x_0, x_1], _ => exact ⟨x_0, x_1, rfl⟩

/-- What `add_index_impl` returns for a node with the symbol `DataVarIdNoIndex`: the
node with the symbol `DataVarId` and the index that the table hands out as third
child. -/
theorem add_index_impl_variable {index_tables : Type}
    (insert_variable insert_function_symbol :
      aterm × aterm → index_tables → Nat × index_tables)
    (x_0 x_1 : aterm) (tables : index_tables) :
    add_index_impl insert_variable insert_function_symbol
        ("DataVarIdNoIndex".toList, [x_0, x_1]) tables
      = (("DataVarId".toList, [x_0, x_1, aterm.int (insert_variable (x_0, x_1) tables).1]),
          (insert_variable (x_0, x_1) tables).2) := by
  rfl

theorem add_index_impl_function_symbol {index_tables : Type}
    (insert_variable insert_function_symbol :
      aterm × aterm → index_tables → Nat × index_tables)
    (x_0 x_1 : aterm) (tables : index_tables) :
    add_index_impl insert_variable insert_function_symbol
        ("OpIdNoIndex".toList, [x_0, x_1]) tables
      = (("OpId".toList, [x_0, x_1, aterm.int (insert_function_symbol (x_0, x_1) tables).1]),
          (insert_function_symbol (x_0, x_1) tables).2) := by
  rfl

theorem remove_index_impl_variable (x_0 x_1 index : aterm) :
    remove_index_impl ("DataVarId".toList, [x_0, x_1, index])
      = ("DataVarIdNoIndex".toList, [x_0, x_1]) := by
  rfl

theorem remove_index_impl_function_symbol (x_0 x_1 index : aterm) :
    remove_index_impl ("OpId".toList, [x_0, x_1, index])
      = ("OpIdNoIndex".toList, [x_0, x_1]) := by
  rfl

theorem index_adder_eq {index_tables : Type}
    (insert_variable insert_function_symbol :
      aterm × aterm → index_tables → Nat × index_tables)
    (x : aterm_appl) (tables : index_tables) :
    index_adder insert_variable insert_function_symbol x tables
      = add_index_impl insert_variable insert_function_symbol x tables := rfl

theorem index_remover_eq (x : aterm_appl) : index_remover x = remove_index_impl x := rfl

/-- Removing the index that was added gives the node back. -/
theorem remove_add_index {index_tables : Type}
    (insert_variable insert_function_symbol :
      aterm × aterm → index_tables → Nat × index_tables)
    (x : aterm_appl) (tables : index_tables)
    (h : function x = function_symbol_DataVarIdNoIndex
      ∨ function x = function_symbol_OpIdNoIndex) :
    remove_index_impl (add_index_impl insert_variable insert_function_symbol x tables).1
      = x := by
  rcases h with h | h
  · obtain ⟨x_0, x_1, rfl⟩ := two_children x _ h rfl
    show remove_index_impl (add_index_impl insert_variable insert_function_symbol
      ("DataVarIdNoIndex".toList, [x_0, x_1]) tables).1 = _
    rw [add_index_impl_variable, remove_index_impl_variable]
    rfl
  · obtain ⟨x_0, x_1, rfl⟩ := two_children x _ h rfl
    show remove_index_impl (add_index_impl insert_variable insert_function_symbol
      ("OpIdNoIndex".toList, [x_0, x_1]) tables).1 = _
    rw [add_index_impl_function_symbol, remove_index_impl_function_symbol]
    rfl

/-! ## The term store: hash-consing -/

theorem make_extends (store : term_store) (shape : term_node) :
    store.nodes <+: (store.make shape).2.nodes := by
  unfold term_store.make
  split_ifs
  · exact List.prefix_refl _
  · exact List.prefix_append _ _

theorem make_index (store : term_store) (shape : term_node) :
    shape ∈ (store.make shape).2.nodes
      ∧ (store.make shape).1 = (store.make shape).2.nodes.indexOf shape := by
  unfold term_store.make
  split_ifs with h
  · exact ⟨h, rfl⟩
  · refine ⟨by simp, ?_⟩
    simp only []
    rw [List.indexOf_append_of_not_mem h]
    simp

/-- A shape that was made is found again in every later store, at the same handle and
without a new node. -/
theorem make_again (store later : term_store) (shape : term_node)
    (h : (store.make shape).2.nodes <+: later.nodes) :
    later.make shape = ((store.make shape).1, later) := by
  obtain ⟨h1, h2⟩ := make_index store shape
  obtain ⟨more, hm⟩ := h
  have hmem : shape ∈ later.nodes := by
    rw [← hm]
    exact List.mem_append_left _ h1
  rw [term_store.make, if_pos hmem, h2, ← hm, List.indexOf_append_of_mem h1]

mutual
theorem intern_extends : ∀ (t : aterm) (store : term_store),
    store.nodes <+: (store.intern t).2.nodes
  | .int value, store => by
    rw [term_store.intern]
    exact make_extends _ _
  | .list l, store => by
    rw [term_store.intern]
    exact intern_list_extends l store
  | .appl name arguments, store => by
    rw [term_store.intern]
    exact (intern_children_extends arguments store).trans (make_extends _ _)
theorem intern_list_extends : ∀ (l : List aterm) (store : term_store),
    store.nodes <+: (store.intern_list l).2.nodes
  | [], store => by
    rw [term_store.intern_list]
    exact make_extends _ _
  | t :: ts, store => by
    rw [term_store.intern_list]
    exact ((intern_extends t store).trans (intern_list_extends ts _)).trans (make_extends _ _)
theorem intern_children_extends : ∀ (l : List aterm) (store : term_store),
    store.nodes <+: (store.intern_children l).2.nodes
  | [], store => by
    rw [term_store.intern_children]
  | t :: ts, store => by
    rw [term_store.intern_children]
    exact (intern_extends t store).trans (intern_children_extends ts _)
end

mutual
/-- A term that was constructed is found again in every later store, at the same handle
and without a new node. -/
theorem intern_again : ∀ (t : aterm) (store later : term_store),
    (store.intern t).2.nodes <+: later.nodes →
    later.intern t = ((store.intern t).1, later)
  | .int value, store, later, h => by
    rw [term_store.intern] at h ⊢
    rw [term_store.intern]
    exact make_again store later _ h
  | .list l, store, later, h => by
    rw [term_store.intern] at h ⊢
    rw [term_store.intern]
    exact intern_list_again l store later h
  | .appl name arguments, store, later, h => by
    rw [term_store.intern] at h ⊢
    rw [term_store.intern]
    have h1 := intern_children_again arguments store later ((make_extends _ _).trans h)
    rw [h1]
    exact make_again _ later _ h
theorem intern_list_again : ∀ (l : List aterm) (store later : term_store),
    (store.intern_list l).2.nodes <+: later.nodes →
    later.intern_list l = ((store.intern_list l).1, later)
  | [], store, later, h => by
    rw [term_store.intern_list] at h ⊢
    rw [term_store.intern_list]
    exact make_again store later _ h
  | t :: ts, store, later, h => by
    rw [term_store.intern_list] at h ⊢
    rw [term_store.intern_list]
    have h2 := (make_extends _ _).trans h
    have h1 := intern_again t store later ((intern_list_extends ts _).trans h2)
    rw [h1]
    simp only []
    have h3 := intern_list_again ts (store.intern t).2 later h2
    rw [h3]
    exact make_again _ later _ h
theorem intern_children_again : ∀ (l : List aterm) (store later : term_store),
    (store.intern_children l).2.nodes <+: later.nodes →
    later.intern_children l = ((store.intern_children l).1, later)
  | [], store, later, _ => by
    rw [term_store.intern_children, term_store.intern_children]
  | t :: ts, store, later, h => by
    rw [term_store.intern_children] at h ⊢
    rw [term_store.intern_children]
    have h1 := intern_again t store later ((intern_children_extends ts _).trans h)
    rw [h1]
    simp only []
    have h3 := intern_children_again ts (store.intern t).2 later h
    rw [h3]
end

theorem holds_inj (store : term_store) (handle : Nat) (x y : term_node)
    (hx : store.holds handle x) (hy : store.holds handle y) : x = y :=
  (List.indexOf_inj hx.1 hy.1).1 (hx.2.trans hy.2.symm)

theorem store_eq_of_prefix (store later : term_store) (h1 : store.nodes <+: later.nodes)
    (h2 : later.nodes.length ≤ store.nodes.length) : later = store := by
  have := h1.eq_of_length_le h2
  cases store
  cases later
  simp only [term_store.mk.injEq]
  exact this.symm

/-- A construction that allocates nothing found its node in the store. -/
theorem make_fixed (store : term_store) (shape : term_node) (handle : Nat)
    (e : store.make shape = (handle, store)) : store.holds handle shape := by
  unfold term_store.make at e
  split_ifs at e with h
  · injection e with e1 _
    exact ⟨h, e1⟩
  · injection e with _ e2
    have : (store.nodes ++ [shape]).length = store.nodes.length :=
      congrArg (fun s : term_store => s.nodes.length) e2
    simp at this

theorem intern_appl_fixed (store : term_store) (name : List Char) (arguments : List aterm)
    (handle : Nat) (e : store.intern (aterm.appl name arguments) = (handle, store)) :
    ∃ children, store.intern_children arguments = (children, store)
      ∧ store.holds handle (term_node.application (name, arguments.length) children) := by
  rw [term_store.intern] at e
  have h1 := intern_children_extends arguments store
  have h2 := make_extends (store.intern_children arguments).2
    (term_node.application (name, arguments.length) (store.intern_children arguments).1)
  rw [e] at h2
  have hs := store_eq_of_prefix store _ h1 h2.length_le
  refine ⟨(store.intern_children arguments).1, ?_, ?_⟩
  · exact Prod.ext rfl hs
  · rw [hs] at e
    exact make_fixed store _ handle e

theorem intern_list_nil_fixed (store : term_store) (handle : Nat)
    (e : store.intern_list [] = (handle, store)) :
    store.holds handle term_node.empty_list := by
  rw [term_store.intern_list] at e
  exact make_fixed store _ handle e

theorem intern_list_cons_fixed (store : term_store) (t : aterm) (ts : List aterm)
    (handle : Nat) (e : store.intern_list (t :: ts) = (handle, store)) :
    ∃ head tail, store.intern t = (head, store) ∧ store.intern_list ts = (tail, store)
      ∧ store.holds handle (term_node.list head tail) := by
  rw [term_store.intern_list] at e
  have h1 := intern_extends t store
  have h2 := intern_list_extends ts (store.intern t).2
  have h3 := make_extends ((store.intern t).2.intern_list ts).2
    (term_node.list (store.intern t).1 ((store.intern t).2.intern_list ts).1)
  rw [e] at h3
  have hs1 := store_eq_of_prefix store _ h1 (h2.length_le.trans h3.length_le)
  rw [hs1] at h2 h3 e
  have hs2 := store_eq_of_prefix store _ h2 h3.length_le
  refine ⟨(store.intern t).1, (store.intern_list ts).1, Prod.ext rfl hs1, Prod.ext rfl hs2, ?_⟩
  rw [hs2] at e
  exact make_fixed store _ handle e

theorem intern_children_cons_fixed (store : term_store) (t : aterm) (ts : List aterm)
    (children : List Nat) (e : store.intern_children (t :: ts) = (children, store)) :
    ∃ first rest, children = first :: rest ∧ store.intern t = (first, store)
      ∧ store.intern_children ts = (rest, store) := by
  rw [term_store.intern_children] at e
  injection e with e1 e2
  have h1 := intern_extends t store
  have h2 := intern_children_extends ts (store.intern t).2
  rw [e2] at h2
  have hs1 := store_eq_of_prefix store _ h1 h2.length_le
  rw [hs1] at e1 e2
  exact ⟨(store.intern t).1, (store.intern_children ts).1, e1.symm, Prod.ext rfl hs1,
    Prod.ext rfl e2⟩

theorem intern_list_holds (store : term_store) (l : List aterm) (handle : Nat)
    (e : store.intern_list l = (handle, store)) :
    store.holds handle term_node.empty_list
      ∨ ∃ head tail, store.holds handle (term_node.list head tail) := by
  cases l with
  | nil => exact Or.inl (intern_list_nil_fixed store handle e)
  | cons t ts =>
    obtain ⟨head, tail, _, _, h⟩ := intern_list_cons_fixed store t ts handle e
    exact Or.inr ⟨head, tail, h⟩

mutual
/-- Two terms that are found in the store at the same handle are the same term. -/
theorem intern_inj : ∀ (a b : aterm) (store : term_store) (handle : Nat),
    store.intern a = (handle, store) → store.intern b = (handle, store) → a = b
  | .int value, b, store, handle, ea, eb => by
    rw [term_store.intern] at ea
    have ha := make_fixed store _ handle ea
    cases b with
    | int value' =>
      rw [term_store.intern] at eb
      have := holds_inj store handle _ _ ha (make_fixed store _ handle eb)
      injection this with this
      rw [this]
    | list l =>
      rw [term_store.intern] at eb
      rcases intern_list_holds store l handle eb with hb | ⟨_, _, hb⟩ <;>
        cases holds_inj store handle _ _ ha hb
    | appl name arguments =>
      obtain ⟨_, _, hb⟩ := intern_appl_fixed store name arguments handle eb
      cases holds_inj store handle _ _ ha hb
  | .list l, b, store, handle, ea, eb => by
    rw [term_store.intern] at ea
    cases b with
    | int value' =>
      rw [term_store.intern] at eb
      have hb := make_fixed store _ handle eb
      rcases intern_list_holds store l handle ea with ha | ⟨_, _, ha⟩ <;>
        cases holds_inj store handle _ _ ha hb
    | list l' =>
      rw [term_store.intern] at eb
      rw [intern_list_inj l l' store handle ea eb]
    | appl name arguments =>
      obtain ⟨_, _, hb⟩ := intern_appl_fixed store name arguments handle eb
      rcases intern_list_holds store l handle ea with ha | ⟨_, _, ha⟩ <;>
        cases holds_inj store handle _ _ ha hb
  | .appl name arguments, b, store, handle, ea, eb => by
    obtain ⟨children, ec, ha⟩ := intern_appl_fixed store name arguments handle ea
    cases b with
    | int value' =>
      rw [term_store.intern] at eb
      cases holds_inj store handle _ _ ha (make_fixed store _ handle eb)
    | list l =>
      rw [term_store.intern] at eb
      rcases intern_list_holds store l handle eb with hb | ⟨_, _, hb⟩ <;>
        cases holds_inj store handle _ _ ha hb
    | appl name' arguments' =>
      obtain ⟨children', ec', hb⟩ := intern_appl_fixed store name' arguments' handle eb
      have := holds_inj store handle _ _ ha hb
      injection this with h1 h2
      injection h1 with h3 _
      subst h3
      subst h2
      rw [intern_children_inj arguments arguments' store children ec ec']
theorem intern_list_inj : ∀ (l l' : List aterm) (store : term_store) (handle : Nat),
    store.intern_list l = (handle, store) → store.intern_list l' = (handle, store) → l = l'
  | [], l', store, handle, ea, eb => by
    have ha := intern_list_nil_fixed store handle ea
    cases l' with
    | nil => rfl
    | cons t' ts' =>
      obtain ⟨_, _, _, _, hb⟩ := intern_list_cons_fixed store t' ts' handle eb
      cases holds_inj store handle _ _ ha hb
  | t :: ts, l', store, handle, ea, eb => by
    obtain ⟨head, tail, e1, e2, ha⟩ := intern_list_cons_fixed store t ts handle ea
    cases l' with
    | nil => cases holds_inj store handle _ _ ha (intern_list_nil_fixed store handle eb)
    | cons t' ts' =>
      obtain ⟨head', tail', e1', e2', hb⟩ := intern_list_cons_fixed store t' ts' handle eb
      have := holds_inj store handle _ _ ha hb
      injection this with h1 h2
      subst h1
      subst h2
      rw [intern_inj t t' store head e1 e1', intern_list_inj ts ts' store tail e2 e2']
theorem intern_children_inj : ∀ (l l' : List aterm) (store : term_store)
    (children : List Nat),
    store.intern_children l = (children, store) →
    store.intern_children l' = (children, store) → l = l'
  | [], l', store, children, ea, eb => by
    rw [term_store.intern_children] at ea
    injection ea with ea1 _
    subst ea1
    cases l' with
    | nil => rfl
    | cons t' ts' =>
      obtain ⟨_, _, h, _, _⟩ := intern_children_cons_fixed store t' ts' [] eb
      cases h
  | t :: ts, l', store, children, ea, eb => by
    obtain ⟨first, rest, rfl, e1, e2⟩ := intern_children_cons_fixed store t ts children ea
    cases l' with
    | nil =>
      rw [term_store.intern_children] at eb
      injection eb with eb1 _
      cases eb1
    | cons t' ts' =>
      obtain ⟨first', rest', h, e1', e2'⟩ := intern_children_cons_fixed store t' ts' _ eb
      injection h with h1 h2
      subst h1
      subst h2
      rw [intern_inj t t' store first e1 e1', intern_children_inj ts ts' store rest e2 e2']
end

/-- Hash-consing: a term constructed after another has the handle of the other exactly
when the two terms have the same content, and then nothing is allocated. -/
theorem intern_same_handle (store : term_store) (a b : aterm) :
    ((store.intern a).2.intern b).1 = (store.intern a).1 ↔ a = b := by
  constructor
  · intro h
    have hb : ((store.intern a).2.intern b).2.intern b
        = (((store.intern a).2.intern b).1, ((store.intern a).2.intern b).2) :=
      intern_again b (store.intern a).2 _ (List.prefix_refl _)
    have ha : ((store.intern a).2.intern b).2.intern a
        = ((store.intern a).1, ((store.intern a).2.intern b).2) :=
      intern_again a store _ (intern_extends b _)
    rw [h] at hb
    exact intern_inj a b _ _ ha hb
  · rintro rfl
    rw [intern_again a store (store.intern a).2 (List.prefix_refl _)]

theorem make_nodup (store : term_store) (shape : term_node) (h : store.nodes.Nodup) :
    (store.make shape).2.nodes.Nodup := by
  unfold term_store.make
  split_ifs with hm
  · exact h
  · simp only []
    rw [List.nodup_append]
    refine ⟨h, List.nodup_singleton _, ?_⟩
    intro x hx hy
    simp only [List.mem_singleton] at hy
    subst hy
    exact hm hx

/-! ## The claims C21 to C30 -/

/-- C21 (quoted-string escapes) fails on the code: the escapes are decoded as the claim
says (the text `"a\nb\"c\qd\\"` yields `a`, newline, `b`, `"`, `c`, `q`, `d`, backslash),
but a newline between the quotes is not copied (the character 255 is appended in its
place), a backslash followed by a newline yields the character 255 and not the newline,
and whitespace directly behind the opening quote is dropped. -/
theorem quoted_string_escapes :
    (read_name "\"a\\nb\\\"c\\qd\\\\\"".toList 1 0 64).value?
      = some ['a', '\n', 'b', '"', 'c', 'q', 'd', '\\']
    ∧ (read_name "\"\\t\\r\\ \"x".toList 1 0 64).value? = some ['\t', '\r', ' ']
    ∧ (read_name "\"a\nb\"".toList 1 0 64).value? = some ['a', Char.ofNat 255, 'b']
    ∧ (read_name "\"a\\\nb\"".toList 1 0 64).value? = some ['a', Char.ofNat 255, 'b']
    ∧ (read_name "\" \ta\"".toList 1 0 64).value? = some ['a']
    ∧ Char.ofNat 255 ≠ '\n' := by
  refine ⟨by rfl, by rfl, by rfl, by rfl, by rfl, by decide⟩

/-- C23 (integer literals are maximal digit runs) fails on the code: the text `1 2` is
read as the integer 12 and `[1 2]` as the list of the integer 12, because the digit loop
of `parse_aterm_int` reads on with whitespace skipping; a character that is neither a
digit nor whitespace ends the run: `12a` is read as 12 with `a` as lookahead. -/
theorem digit_run_across_whitespace :
    (read_term_from_text_stream "1 2".toList 1 0 64).value? = some (some (aterm.int 12))
    ∧ (read_term_from_text_stream "[1 2]".toList 1 0 64).value?
        = some (some (aterm.list [aterm.int 12]))
    ∧ (read_term_from_text_stream "1\t2\n3".toList 1 0 64).value? = some (some (aterm.int 123))
    ∧ read_term_from_text_stream "12a".toList 1 0 64
        = outcome.ok (some (aterm.int 12))
            (text_aterm_input.mk [] (some 'a') 1 3 "12a".toList 64) := by
  refine ⟨by rfl, by rfl, by rfl, by rfl⟩

/-- C24 (bounded history): with a history limit `limit` of at least 1, after any sequence
of calls of `next_char` from a state with the empty history, the calls consumed the
characters `consumed` of the stream and the history holds the last `limit` of them (all of
them when they are fewer), in the order of consumption: its length is the minimum of
their number and `limit`, it never exceeds `limit`, and it is a suffix of `consumed`, so
the oldest characters are the ones evicted. -/
theorem bounded_history (limit : Nat) (h : 1 ≤ limit) (calls : List (Bool × Bool))
    (self : text_aterm_input) (hl : self.m_history_limit = limit)
    (he : self.m_history = []) :
    ∃ consumed, self.m_stream = consumed ++ (next_chars calls self).m_stream
      ∧ (next_chars calls self).m_history = consumed.drop (consumed.length - limit)
      ∧ (next_chars calls self).m_history.length = min consumed.length limit
      ∧ (next_chars calls self).m_history.length ≤ limit
      ∧ (next_chars calls self).m_history <:+ consumed := by
  subst hl
  obtain ⟨read, e1, _, e2, _⟩ := next_chars_tracks self.m_history_limit self.m_line
    self.m_column calls [] self (tracks_start self he)
  have e3 := e2 h
  rw [List.nil_append] at e3
  refine ⟨read, e1, e3, ?_, ?_, ?_⟩
  · rw [e3, retained_length]
  · rw [e3, retained_length]
    omega
  · rw [e3]
    exact retained_suffix _ _

theorem bounded_history_witness :
    ∃ consumed, (text_aterm_input.mk "f(1, 2)".toList none 1 0 [] 3).m_stream
        = consumed ++ (next_chars [(true, false), (true, true), (false, false), (true, false)]
            (text_aterm_input.mk "f(1, 2)".toList none 1 0 [] 3)).m_stream
      ∧ (next_chars [(true, false), (true, true), (false, false), (true, false)]
          (text_aterm_input.mk "f(1, 2)".toList none 1 0 [] 3)).m_history
        = consumed.drop (consumed.length - 3)
      ∧ (next_chars [(true, false), (true, true), (false, false), (true, false)]
          (text_aterm_input.mk "f(1, 2)".toList none 1 0 [] 3)).m_history.length
        = min consumed.length 3
      ∧ (next_chars [(true, false), (true, true), (false, false), (true, false)]
          (text_aterm_input.mk "f(1, 2)".toList none 1 0 [] 3)).m_history.length ≤ 3
      ∧ (next_chars [(true, false), (true, true), (false, false), (true, false)]
          (text_aterm_input.mk "f(1, 2)".toList none 1 0 [] 3)).m_history <:+ consumed :=
  bounded_history 3 (by decide) [(true, false), (true, true), (false, false), (true, false)]
    (text_aterm_input.mk "f(1, 2)".toList none 1 0 [] 3) rfl rfl

/-- C25 (line and column tracking): after any sequence of calls of `next_char`, the calls
consumed the characters `consumed` of the stream, the line counter has increased by the
number of newlines among them, and the column counter is the number of characters
consumed since the last newline (counted from the column before the calls when no newline
was consumed): it is 0 directly after a newline and one more after every other character.
A call at the end of the input changes neither counter. -/
theorem line_column_tracking (calls : List (Bool × Bool)) (self : text_aterm_input) :
    (∃ consumed, self.m_stream = consumed ++ (next_chars calls self).m_stream
      ∧ (next_chars calls self).m_line = self.m_line + consumed.count '\n'
      ∧ (next_chars calls self).m_column
        = if '\n' ∈ consumed
          then (consumed.reverse.takeWhile fun c => decide (c ≠ '\n')).length
          else self.m_column + consumed.length)
    ∧ (∀ (column : Nat) (l : List Char) (c : Char),
        column_of column (l ++ [c]) = if c = '\n' then 0 else column_of column l + 1)
    ∧ (∀ skip_whitespace required,
        ∃ self', (next_char skip_whitespace required { self with m_stream := [] }).state?
            = some self'
          ∧ self'.m_line = self.m_line ∧ self'.m_column = self.m_column) := by
  refine ⟨?_, column_of_snoc, ?_⟩
  · obtain ⟨read, e1, _, _, e2, e3⟩ := next_chars_tracks self.m_history_limit self.m_line
      self.m_column calls [] { self with m_history := [] } (tracks_start _ rfl)
    have hs := next_chars_alike calls self { self with m_history := [] } ⟨rfl, rfl, rfl, rfl⟩
    rw [List.nil_append] at e2 e3
    refine ⟨read, ?_, ?_, ?_⟩
    · rw [hs.1]
      exact e1
    · rw [hs.2.2.1]
      exact e2
    · rw [hs.2.2.2]
      exact e3
  · intro skip_whitespace required
    obtain ⟨self', e1, e2, e3, _⟩ := next_char_at_end skip_whitespace required
      { self with m_stream := [] } rfl
    exact ⟨self', e1, e2, e3⟩

/-- C26 (load_aterm error wrapping): when the selected codec (the binary one when
`binary` holds, the text one otherwise) throws with the message `m`, `load_aterm` throws
with the message `Failed to read a valid `, the format and ` from the input.`, a newline
and `m` when the source is empty, and with `Failed to read a valid `, the format,
` from the input `, the source and `.`, a newline and `m` otherwise; when the selected
codec returns a term, `load_aterm` returns that term. -/
theorem load_aterm_error_wrapping (read_binary read_text : List Char → aterm_transformer →
      Except (List Char) (Option aterm))
    (stream : List Char) (binary : Bool) (format source : List Char)
    (transformer : aterm_transformer) (m : List Char)
    (h : (if binary then read_binary stream transformer else read_text stream transformer)
      = Except.error m) :
    (source = [] →
      load_aterm read_binary read_text stream binary format source transformer
        = Except.error ("Failed to read a valid ".toList ++ format
            ++ " from the input.".toList ++ ['\n'] ++ m))
    ∧ (source ≠ [] →
      load_aterm read_binary read_text stream binary format source transformer
        = Except.error ("Failed to read a valid ".toList ++ format
            ++ " from the input ".toList ++ source ++ ['.'] ++ ['\n'] ++ m))
    ∧ (∀ (other : List Char) (result : Option aterm),
        (if binary then read_binary other transformer else read_text other transformer)
          = Except.ok result →
        load_aterm read_binary read_text other binary format source transformer
          = Except.ok result) := by
  refine ⟨fun hs => ?_, fun hs => ?_, fun other result ho => ?_⟩
  · rw [load_aterm_of_error _ _ _ _ _ _ _ m h, if_pos hs]
    simp [List.append_assoc]
  · rw [load_aterm_of_error _ _ _ _ _ _ _ m h, if_neg hs]
    simp [List.append_assoc]
  · exact load_aterm_of_ok _ _ _ _ _ _ _ result ho

theorem load_aterm_error_wrapping_witness :
    (("bes.txt".toList : List Char) = [] →
      load_aterm (fun _ _ => Except.ok none)
          (fun stream _ => if stream = "f(1,2".toList
            then Except.error "Missing ) while parsing a list term".toList
            else Except.ok none)
          "f(1,2".toList false "BES".toList "bes.txt".toList identity
        = Except.error ("Failed to read a valid ".toList ++ "BES".toList
            ++ " from the input.".toList ++ ['\n']
            ++ "Missing ) while parsing a list term".toList))
    ∧ (("bes.txt".toList : List Char) ≠ [] →
      load_aterm (fun _ _ => Except.ok none)
          (fun stream _ => if stream = "f(1,2".toList
            then Except.error "Missing ) while parsing a list term".toList
            else Except.ok none)
          "f(1,2".toList false "BES".toList "bes.txt".toList identity
        = Except.error ("Failed to read a valid ".toList ++ "BES".toList
            ++ " from the input ".toList ++ "bes.txt".toList ++ ['.'] ++ ['\n']
            ++ "Missing ) while parsing a list term".toList))
    ∧ (∀ (other : List Char) (result : Option aterm),
        (if false = true then (fun _ _ => Except.ok none) other identity
          else (fun stream (_ : aterm_transformer) => if stream = "f(1,2".toList
            then (Except.error "Missing ) while parsing a list term".toList :
              Except (List Char) (Option aterm))
            else Except.ok none) other identity)
          = Except.ok result →
        load_aterm (fun _ _ => Except.ok none)
          (fun stream _ => if stream = "f(1,2".toList
            then Except.error "Missing ) while parsing a list term".toList
            else Except.ok none)
          other false "BES".toList "bes.txt".toList identity
          = Except.ok result) :=
  load_aterm_error_wrapping (fun _ _ => Except.ok none)
    (fun stream _ => if stream = "f(1,2".toList
      then Except.error "Missing ) while parsing a list term".toList
      else Except.ok none)
    "f(1,2".toList false "BES".toList "bes.txt".toList identity
    "Missing ) while parsing a list term".toList rfl

/-- C27 (index transforms are inverse): for every application node `x` whose symbol is
`DataVarIdNoIndex` or `OpIdNoIndex` (it has two children), whatever the index tables hand
out, `add_index_impl` returns the node with the symbol `DataVarId` or `OpId`, the two
children of `x` and the index as third child, and `remove_index_impl` of that node is `x`;
the same holds for `index_adder` and `index_remover`. -/
theorem index_transforms_inverse {index_tables : Type}
    (insert_variable insert_function_symbol :
      aterm × aterm → index_tables → Nat × index_tables)
    (x : aterm_appl) (tables : index_tables)
    (h : function x = function_symbol_DataVarIdNoIndex
      ∨ function x = function_symbol_OpIdNoIndex) :
    remove_index_impl (add_index_impl insert_variable insert_function_symbol x tables).1 = x
    ∧ index_remover (index_adder insert_variable insert_function_symbol x tables).1 = x
    ∧ x.2.length = 2
    ∧ (∃ index, (add_index_impl insert_variable insert_function_symbol x tables).1.2
        = x.2 ++ [aterm.int index])
    ∧ (function x = function_symbol_DataVarIdNoIndex →
        function (add_index_impl insert_variable insert_function_symbol x tables).1
          = function_symbol_DataVarId)
    ∧ (function x = function_symbol_OpIdNoIndex →
        function (add_index_impl insert_variable insert_function_symbol x tables).1
          = function_symbol_OpId) := by
  have h1 := remove_add_index insert_variable insert_function_symbol x tables h
  refine ⟨h1, ?_, ?_, ?_, ?_, ?_⟩
  · rw [index_adder_eq, index_remover_eq]
    exact h1
  · rcases h with h | h <;> obtain ⟨x_0, x_1, rfl⟩ := two_children x _ h rfl <;> rfl
  · rcases h with h | h <;> obtain ⟨x_0, x_1, rfl⟩ := two_children x _ h rfl
    · exact ⟨(insert_variable (x_0, x_1) tables).1, rfl⟩
    · exact ⟨(insert_function_symbol (x_0, x_1) tables).1, rfl⟩
  · intro h'
    obtain ⟨x_0, x_1, rfl⟩ := two_children x _ h' rfl
    rfl
  · intro h'
    obtain ⟨x_0, x_1, rfl⟩ := two_children x _ h' rfl
    rfl

theorem index_transforms_inverse_witness :
    remove_index_impl (add_index_impl (fun _ (n : Nat) => (n, n + 1))
        (fun _ (n : Nat) => (n, n + 1))
        ("OpIdNoIndex".toList, [aterm.appl ['f'] [], aterm.appl ['s'] []]) 7).1
      = ("OpIdNoIndex".toList, [aterm.appl ['f'] [], aterm.appl ['s'] []])
    ∧ index_remover (index_adder (fun _ (n : Nat) => (n, n + 1))
        (fun _ (n : Nat) => (n, n + 1))
        ("OpIdNoIndex".toList, [aterm.appl ['f'] [], aterm.appl ['s'] []]) 7).1
      = ("OpIdNoIndex".toList, [aterm.appl ['f'] [], aterm.appl ['s'] []])
    ∧ [aterm.appl ['f'] [], aterm.appl ['s'] []].length = 2
    ∧ (∃ index, (add_index_impl (fun _ (n : Nat) => (n, n + 1))
        (fun _ (n : Nat) => (n, n + 1))
        ("OpIdNoIndex".toList, [aterm.appl ['f'] [], aterm.appl ['s'] []]) 7).1.2
        = [aterm.appl ['f'] [], aterm.appl ['s'] []] ++ [aterm.int index])
    ∧ (function ("OpIdNoIndex".toList, [aterm.appl ['f'] [], aterm.appl ['s'] []])
          = function_symbol_DataVarIdNoIndex →
        function (add_index_impl (fun _ (n : Nat) => (n, n + 1))
          (fun _ (n : Nat) => (n, n + 1))
          ("OpIdNoIndex".toList, [aterm.appl ['f'] [], aterm.appl ['s'] []]) 7).1
          = function_symbol_DataVarId)
    ∧ (function ("OpIdNoIndex".toList, [aterm.appl ['f'] [], aterm.appl ['s'] []])
          = function_symbol_OpIdNoIndex →
        function (add_index_impl (fun _ (n : Nat) => (n, n + 1))
          (fun _ (n : Nat) => (n, n + 1))
          ("OpIdNoIndex".toList, [aterm.appl ['f'] [], aterm.appl ['s'] []]) 7).1
          = function_symbol_OpId) :=
  index_transforms_inverse (fun _ (n : Nat) => (n, n + 1)) (fun _ (n : Nat) => (n, n + 1))
    ("OpIdNoIndex".toList, [aterm.appl ['f'] [], aterm.appl ['s'] []]) 7 (Or.inr rfl)

/-- C28 (hash-consing identity): in the Term Store as the specification describes it,
constructing a term whose content was constructed before returns the handle of the
earlier construction and allocates no node, in the same store and in every later one; and
two terms constructed one after the other have the same handle exactly when they have the
same variant and recursively the same content, so that equality of handles is structural
equality.  A store without two nodes of the same content stays so.  In `f(1,1)` the two
children are the one node of the integer 1. -/
theorem hash_consing_identity (store : term_store) (a b : aterm) :
    (store.intern a).2.intern a = ((store.intern a).1, (store.intern a).2)
    ∧ (((store.intern a).2.intern b).1 = (store.intern a).1 ↔ a = b)
    ∧ (∀ later : term_store, (store.intern a).2.nodes <+: later.nodes →
        later.intern a = ((store.intern a).1, later))
    ∧ (∀ shape, (store.make shape).2.make shape = ((store.make shape).1, (store.make shape).2))
    ∧ (∀ shape, store.nodes.Nodup → (store.make shape).2.nodes.Nodup)
    ∧ (term_store.mk []).intern (aterm.appl ['f'] [aterm.int 1, aterm.int 1])
      = (1, term_store.mk
          [term_node.int 1, term_node.application (['f'], 2) [0, 0]]) :=
  ⟨intern_again a store _ (List.prefix_refl _), intern_same_handle store a b,
    fun later h => intern_again a store later h,
    fun shape => make_again store _ shape (List.prefix_refl _),
    fun shape h => make_nodup store shape h, by rfl⟩

/-- C30 (diagnostics are reset per term) fails on the code: from the stream `f(a) g(b)`
the first `get` returns `f(a)` and leaves the column 6 and the history `f(a) g`; from the
stream `f(a) g(` the error of the second `get` is reported at column 7 near `f(a) g(`,
with the characters of the first term.  The column and the history are reset only by a
`get` that returns the "no term" value. -/
theorem diagnostics_after_a_term :
    ((text_aterm_input.init "f(a) g(b)".toList 1 0 64).bind fun _ self => self.get identity 9)
      = outcome.ok (some (aterm.appl ['f'] [aterm.appl ['a'] []]))
          (text_aterm_input.mk "(b)".toList (some 'g') 1 6 "f(a) g".toList 64)
    ∧ (((text_aterm_input.init "f(a) g(".toList 1 0 64).bind fun _ self =>
          self.get identity 7).bind fun _ self => self.get identity 7)
      = outcome.runtime_error
          "Premature end of file while parsing.\nError occurred at line 1, col 7 near: f(a) g(".toList
          (text_aterm_input.mk [] none 1 7 "f(a) g(".toList 64)
    ∧ (((text_aterm_input.init "f(a)".toList 1 0 64).bind fun _ self =>
          self.get identity 4).bind fun _ self => self.get identity 4)
      = outcome.ok none (text_aterm_input.mk [] none 1 0 [] 64) := by
  refine ⟨by rfl, by rfl, by rfl⟩

/-! ## The buffer of integer literals -/

theorem parse_aterm_int_loop_length (room : Nat) (number : List Char) (self : text_aterm_input)
    (number' : List Char) (self' : text_aterm_input)
    (h : parse_aterm_int_loop room number self = outcome.ok number' self') :
    number'.length ≤ number.length + room := by
  induction room generalizing number self with
  | zero =>
    simp only [parse_aterm_int_loop, outcome.ok.injEq] at h
    rw [← h.1]
    omega
  | succ room ih =>
    rw [parse_aterm_int_loop] at h
    split_ifs at h with hd
    · obtain ⟨_, s1, _, h2⟩ := bind_eq_ok _ _ _ _ h
      have := ih _ s1 h2
      simp only [List.length_append, List.length_singleton] at this
      omega
    · simp only [outcome.ok.injEq] at h
      rw [← h.1]
      omega

/-- The loop of `parse_aterm_int` writes at the indices 0 to 31 only: it leaves at most
32 characters in the buffer. -/
theorem parse_aterm_int_number_length (self : text_aterm_input) (number : List Char)
    (self' : text_aterm_input) (h : parse_aterm_int_number self = outcome.ok number self') :
    number.length ≤ 32 := by
  unfold parse_aterm_int_number at h
  obtain ⟨start, s1, h1, h2⟩ := bind_eq_ok _ _ _ _ h
  have hlen := parse_aterm_int_loop_length _ _ _ _ _ h2
  have hstart : start.length ≤ 1 := by
    split_ifs at h1
    · obtain ⟨_, s0, _, h4⟩ := bind_eq_ok _ _ _ _ h1
      simp only [outcome.ok.injEq] at h4
      rw [← h4.1]
      simp
    · simp only [outcome.ok.injEq] at h1
      rw [← h1.1]
      simp
  omega

/-- The method `parse_aterm_int` writes the terminating NUL behind what its loop wrote and
hands the buffer to `atol`; the NUL fits when fewer than 32 characters were written. -/
theorem parse_aterm_int_of_number (self : text_aterm_input) :
    parse_aterm_int self
      = (parse_aterm_int_number self).bind fun number self =>
          if number.length < 32 then
            match atol number with
            | some value => outcome.ok (aterm.int (value % 2 ^ word_bits).toNat) self
            | none => outcome.undefined_behaviour
          else outcome.undefined_behaviour := by
  unfold parse_aterm_int parse_aterm_int_number
  split_ifs
  · cases assign_next_char true true self <;> rfl
  · rfl

/-! ## Reading term by term -/

/-- A call of `get` that returns a term and leaves the reader as it was is repeated for
ever: the "no term" value never comes. -/
theorem read_terms_stuck (m_transformer : aterm_transformer) (self : text_aterm_input)
    (t : aterm)
    (h : self.get m_transformer (self.m_stream.length + 1) = outcome.ok (some t) self) :
    ∀ calls, read_terms m_transformer calls self = outcome.out_of_fuel := by
  intro calls
  induction calls with
  | zero => rfl
  | succ calls ih =>
    rw [read_terms, h]
    simp only [outcome.bind, ih]

theorem read_terms_after (m_transformer : aterm_transformer) (self self' : text_aterm_input)
    (t : aterm)
    (h : self.get m_transformer (self.m_stream.length + 1) = outcome.ok (some t) self')
    (h' : ∀ calls, read_terms m_transformer calls self' = outcome.out_of_fuel) :
    ∀ calls, read_terms m_transformer calls self = outcome.out_of_fuel := by
  intro calls
  cases calls with
  | zero => rfl
  | succ calls =>
    rw [read_terms, h]
    simp only [outcome.bind, h']

/-! ## Removing the index of a variable or a function symbol -/

/-- A node with the symbol `DataVarId` or `OpId` has three children. -/
theorem three_children (x : aterm_appl) (symbol : function_symbol) (h : function x = symbol)
    (h3 : symbol.2 = 3) : ∃ x_0 x_1 x_2, x = (symbol.1, [x_0, x_1, x_2]) := by
  obtain ⟨name, arguments⟩ := x
  subst h
  simp only [function] at h3
  match arguments, h3 with
  | [x_0, x_1, x_2], _ => exact ⟨x_0, x_1, x_2, rfl⟩

theorem remove_index_impl_other (x : aterm_appl) (h1 : function x ≠ function_symbol_DataVarId)
    (h2 : function x ≠ function_symbol_OpId) : remove_index_impl x = x := by
  unfold remove_index_impl
  rw [if_neg h1, if_neg h2]

/-! ## The conjunction of tribools -/

theorem operator_and_functions_value {state : Type} (a : state → tribool × state)
    (b : Bool → state → tribool × state) (s : state) :
    (operator_and_functions a b s).1
      = operator_and (a s).1 (b (decide ((a s).1 = tribool.no)) (a s).2).1 := by
  unfold operator_and_functions
  by_cases h : (a s).1 = tribool.yes
  · simp [h, operator_and]
  · simp [h]

theorem operator_and_functions_yes {state : Type} (a : state → tribool × state)
    (b : Bool → state → tribool × state) (s : state) (h : (a s).1 = tribool.yes) :
    operator_and_functions a b s = (true, (a s).2) := by
  unfold operator_and_functions
  simp [h]

theorem operator_and_functions_not_yes {state : Type} (a : state → tribool × state)
    (b : Bool → state → tribool × state) (s : state) (h : (a s).1 ≠ tribool.yes) :
    operator_and_functions a b s
      = (operator_and (a s).1 (b (decide ((a s).1 = tribool.no)) (a s).2).1,
          (b (decide ((a s).1 = tribool.no)) (a s).2).2) := by
  unfold operator_and_functions
  simp [h]

theorem operator_and_no (b : tribool) :
    operator_and tribool.no b = decide (b = tribool.yes) := by
  cases b <;> rfl

theorem accords_data_needs_yes {data_expression : Type} (is_true : data_expression → Bool)
    (yes_condition : data_expression → data_expression)
    (condition : data_expression → data_expression → data_expression)
    (affect_set : Bool) (make_antecedent make_consequent : Unit → data_expression) :
    accords_data is_true yes_condition condition affect_set true make_antecedent make_consequent
      = if is_true (yes_condition (make_antecedent ())) then tribool.yes else tribool.no := by
  unfold accords_data
  simp

theorem accords_data_exact {data_expression : Type} (is_true : data_expression → Bool)
    (yes_condition : data_expression → data_expression)
    (condition : data_expression → data_expression → data_expression)
    (make_antecedent make_consequent : Unit → data_expression) :
    accords_data is_true yes_condition condition false false make_antecedent make_consequent
      = if is_true (yes_condition (make_antecedent ())) then tribool.yes
        else if is_true (condition (make_antecedent ()) (make_consequent ())) then tribool.maybe
        else tribool.no := by
  unfold accords_data
  simp

/-! ## Reading a text from its first character to its end -/

/-- Reading a text whose first character is no whitespace: the result of
`read_term_from_text_stream` is that of `parse_aterm` on the first lookahead, with the
state that `parse_aterm` leaves. -/
theorem read_of_parse (text : List Char) (t : aterm) (P : text_aterm_input → Prop)
    (m_line m_column m_history_limit : Nat) (hne : text ≠ []) (hc : no_space_ahead text)
    (h : ∀ self, positioned self text →
      ∃ self', parse_aterm identity (self.m_stream.length + 1) self = outcome.ok t self'
        ∧ P self') :
    ∃ self', read_term_from_text_stream text m_line m_column m_history_limit
      = outcome.ok (some t) self' ∧ P self' := by
  obtain ⟨self, h1, hp⟩ := init_positioned text m_line m_column m_history_limit hc
  obtain ⟨self', h2, h3⟩ := h self hp
  refine ⟨self', ?_, h3⟩
  have hch : self.character ≠ none := by
    rw [hp.1]
    cases text with
    | nil => exact absurd rfl hne
    | cons c l => simp
  simp only [read_term_from_text_stream, h1, outcome.bind, text_aterm_input.get, h2]
  simp [hch]

theorem after_token_end (rest : List Char) (hrest : rest = [] ∨ rest = ['\n']) :
    after_token rest = [] := by
  rcases hrest with rfl | rfl <;> rfl

/-- Reading the text of a readable term, with or without a final newline, from the
beginning of a stream: the term is returned and the whole stream is read. -/
theorem read_term_text_end (t : aterm) (ht : t.readable = true) (rest : List Char)
    (hrest : rest = [] ∨ rest = ['\n']) (m_line m_column m_history_limit : Nat) :
    ∃ self', read_term_from_text_stream (term_text t ++ rest) m_line m_column m_history_limit
      = outcome.ok (some t) self' ∧ positioned self' [] := by
  obtain ⟨⟨c, e', hce, hsp, _⟩, _⟩ := reads_as_term_text t.size t (le_refl _) ht
  refine read_of_parse _ t _ m_line m_column m_history_limit (by rw [hce]; simp)
    (by
      intro d hd
      rw [hce] at hd
      simp only [List.cons_append, List.head?_cons, Option.some.injEq] at hd
      subst hd
      exact hsp) ?_
  intro self hp
  have hsize := size_le_length_term_text t.size t (le_refl _) ht
  have hlen : self.m_stream.length + 1 = (term_text t ++ rest).length := by
    rw [hp.2, hce]
    simp
  have hfuel : t.size ≤ self.m_stream.length + 1 := by
    rw [hlen, List.length_append]
    omega
  obtain ⟨self', h1, h2⟩ := (reads_as_term_text _ t hfuel ht).2 self rest
    (hrest.imp (fun h => Or.inl h) id) hp
  rw [after_token_end rest hrest] at h2
  exact ⟨self', h1, h2⟩

/-- With the end of the input as lookahead `get` returns the "no term" value. -/
theorem get_at_end (m_transformer : aterm_transformer) (fuel : Nat) (self : text_aterm_input)
    (h : self.character = none) :
    self.get m_transformer fuel = outcome.ok none { self with m_column := 0, m_history := [] } := by
  simp [text_aterm_input.get, h]

/-! ## Names and the lookahead at which they are read -/

/-- With a lookahead that does not end an unquoted name, `parse_aterm` returns an integer,
a list, or an application whose name starts with the lookahead. -/
theorem parse_aterm_name_head (fuel : Nat) (self : text_aterm_input) (c : Char)
    (hch : self.character = some c) (hc : ends_unquoted_string c = false)
    (t : aterm) (self' : text_aterm_input)
    (h : parse_aterm identity fuel self = outcome.ok t self') :
    ∀ name arguments, t = aterm.appl name arguments → name.head? = some c := by
  intro name arguments ht
  cases fuel with
  | zero => simp [parse_aterm] at h
  | succ fuel =>
    have hq : c ≠ '"' := by rintro rfl; revert hc; decide
    by_cases hb : c = '['
    · subst hb
      rw [parse_aterm_bracket identity fuel self hch] at h
      obtain ⟨list, s1, _, h2⟩ := bind_eq_ok _ _ _ _ h
      simp only [outcome.ok.injEq] at h2
      rw [← h2.1] at ht
      cases ht
    by_cases hd : isdigit (some c) = true ∨ c = '-'
    · rw [parse_aterm_digit identity fuel self c hch hd, parse_aterm_int] at h
      obtain ⟨number, s1, _, h2⟩ := bind_eq_ok _ _ _ _ h
      obtain ⟨number', s2, _, h3⟩ := bind_eq_ok _ _ _ _ h2
      split_ifs at h3
      · cases hat : atol number' with
        | none => rw [hat] at h3; cases h3
        | some value =>
          rw [hat] at h3
          simp only [outcome.ok.injEq] at h3
          rw [← h3.1] at ht
          cases ht
    · have hd1 : isdigit (some c) = false := by
        cases hx : isdigit (some c)
        · rfl
        · exact absurd (Or.inl hx) hd
      have hd2 : c ≠ '-' := fun hx => hd (Or.inr hx)
      rw [parse_aterm_unquoted identity fuel self c hch hq hb hd1 hd2] at h
      obtain ⟨s1, hn, _, _⟩ := parse_unquoted_string_longest self c hch hc
      rw [hn] at h
      simp only [outcome.bind] at h
      obtain ⟨appl, s2, h1, h2⟩ := bind_eq_ok _ _ _ _ h
      unfold parse_aterm_appl at h1
      obtain ⟨arguments, s3, _, h4⟩ := bind_eq_ok _ _ _ _ h1
      simp only [outcome.ok.injEq, identity] at h4 h2
      rw [← h2.1, ← h4.1] at ht
      simp only [aterm.appl.injEq] at ht
      rw [← ht.1]
      simp [List.takeWhile_cons, hc]

/-- With `(` as lookahead, `parse_aterm` reads an application of the empty name: the guard
of `parse_unquoted_string` returns the empty string. -/
theorem parse_aterm_nameless (fuel : Nat) (self : text_aterm_input)
    (hch : self.character = some '(') :
    parse_unquoted_string self = outcome.ok [] self
    ∧ parse_aterm identity (fuel + 1) self
      = (parse_aterm_list (parse_aterm identity fuel) fuel self '(' ')').bind
          fun arguments self => outcome.ok (aterm.appl [] arguments) self := by
  have h1 : parse_unquoted_string self = outcome.ok [] self := by
    simp [parse_unquoted_string, hch]
  refine ⟨h1, ?_⟩
  rw [parse_aterm_unquoted identity fuel self '(' hch (by decide) (by decide) (by decide)
    (by decide), h1]
  simp only [outcome.bind, parse_aterm_appl, identity]
  cases parse_aterm_list (parse_aterm identity fuel) fuel self '(' ')' <;> rfl

/-! ## A name with and without an empty list of arguments -/

/-- A read with whitespace skipping passes over the whitespace and stops at the first
character that is none. -/
theorem assign_next_char_skips (required : Bool) (ws : List Char) (d : Char) (l : List Char)
    (hws : ∀ c ∈ ws, isspace (some c) = true) (hd : isspace (some d) = false)
    (self : text_aterm_input) (hs : self.m_stream = ws ++ d :: l) :
    ∃ self', assign_next_char true required self = outcome.ok () self'
      ∧ positioned self' (d :: l) := by
  have hloop : ∀ (ws : List Char) (s : text_aterm_input),
      (∀ c ∈ ws, isspace (some c) = true) →
      ∃ s', next_char_loop true required (ws ++ d :: l) s = outcome.ok (some d) s'
        ∧ s'.m_stream = l := by
    intro ws
    induction ws with
    | nil =>
      intro s _
      have hn : d ≠ '\n' := by rintro rfl; revert hd; decide
      rw [List.nil_append, next_char_loop_cons]
      simp only [hd, Bool.false_and, Bool.false_eq_true, if_false, if_neg hn]
      exact ⟨_, rfl, rfl⟩
    | cons c ws ih =>
      intro s hcws
      rw [List.cons_append, next_char_loop_cons]
      simp only [hcws c (List.mem_cons_self _ _), Bool.and_self, if_true]
      exact ih _ (fun x hx => hcws x (List.mem_cons_of_mem _ hx))
  obtain ⟨s', h1, h2⟩ := hloop ws { self with character := none } hws
  refine ⟨{ s' with character := some d }, ?_, rfl, h2⟩
  unfold assign_next_char next_char
  rw [hs] at h1
  rw [hs, h1]
  rfl

theorem escape_symbol_blank (c : Char) (h : c = ' ' ∨ c = '\x0b' ∨ c = '\x0c') :
    escape_symbol c = [c] := by
  rcases h with rfl | rfl | rfl <;> rfl

theorem flatMap_escape_blanks (ws : List Char)
    (h : ∀ c ∈ ws, c = ' ' ∨ c = '\x0b' ∨ c = '\x0c') : ws.flatMap escape_symbol = ws := by
  induction ws with
  | nil => rfl
  | cons c ws ih =>
    rw [List.flatMap_cons, escape_symbol_blank c (h c (List.mem_cons_self _ _)),
      ih (fun x hx => h x (List.mem_cons_of_mem _ hx))]
    rfl

theorem quoted_body_starts (s rest : List Char)
    (hs : ∀ c, s.head? = some c → ¬ (c = ' ' ∨ c = '\x0b' ∨ c = '\x0c')) :
    ∃ d l, s.flatMap escape_symbol ++ '"' :: rest = d :: l ∧ isspace (some d) = false := by
  cases s with
  | nil => exact ⟨'"', rest, rfl, by decide⟩
  | cons c s =>
    have hc := hs c rfl
    simp only [not_or] at hc
    simp only [List.flatMap_cons, escape_symbol]
    split_ifs with h1 h2 h3 h4
    · exact ⟨'\\', _, rfl, by decide⟩
    · exact ⟨'\\', _, rfl, by decide⟩
    · exact ⟨'\\', _, rfl, by decide⟩
    · exact ⟨'\\', _, rfl, by decide⟩
    · refine ⟨c, _, rfl, ?_⟩
      simp only [isspace, decide_eq_false_iff_not, not_or]
      exact ⟨hc.1, h3, h2, hc.2.1, hc.2.2, h4⟩

/-- Reading a quoted name: the blanks behind the opening double quote are skipped, the
rest of the name is read as it was escaped. -/
theorem parse_quoted_string_any (name rest : List Char)
    (hrest : no_space_ahead rest ∨ rest = ['\n']) (self : text_aterm_input)
    (hp : positioned self ('"' :: (name.flatMap escape_symbol ++ '"' :: rest))) :
    ∃ self', parse_quoted_string self
        = outcome.ok (name.dropWhile fun c => decide (c = ' ' ∨ c = '\x0b' ∨ c = '\x0c')) self'
      ∧ positioned self' (after_token rest) := by
  let p : Char → Bool := fun c => decide (c = ' ' ∨ c = '\x0b' ∨ c = '\x0c')
  have hsplit : name = name.takeWhile p ++ name.dropWhile p :=
    (List.takeWhile_append_dropWhile p name).symm
  have hws : ∀ c ∈ name.takeWhile p, c = ' ' ∨ c = '\x0b' ∨ c = '\x0c' := by
    intro c hc
    have := List.mem_takeWhile_imp hc
    simpa [p] using this
  have hs : ∀ c, (name.dropWhile p).head? = some c → ¬ (c = ' ' ∨ c = '\x0b' ∨ c = '\x0c') := by
    intro c hc hc'
    have := List.head?_dropWhile_not p name
    rw [hc] at this
    simp only [p, Option.map_some', Option.some.injEq, decide_eq_false_iff_not, not_or,
      Option.map_some] at this
    rcases hc' with h | h | h
    · exact this.1 h
    · exact this.2.1 h
    · exact this.2.2 h
  obtain ⟨d, l, hdl, hd⟩ := quoted_body_starts (name.dropWhile p) rest hs
  have hbody : name.flatMap escape_symbol ++ '"' :: rest = name.takeWhile p ++ d :: l := by
    conv_lhs => rw [hsplit]
    rw [List.flatMap_append, flatMap_escape_blanks _ hws, List.append_assoc, hdl]
  obtain ⟨self1, hn1, hp1⟩ := assign_next_char_skips default_required (name.takeWhile p) d l
    (fun c hc => by rcases hws c hc with rfl | rfl | rfl <;> decide) hd self
    (by rw [hp.2, List.tail_cons, hbody])
  rw [← hdl] at hp1
  have hlen : (name.dropWhile p).length + 1 ≤ self1.m_stream.length + 2 := by
    have h1 := length_le_flatMap_escape (name.dropWhile p)
    have h2 : ((name.dropWhile p).flatMap escape_symbol ++ '"' :: rest).length
        = (d :: l).length := by rw [hdl]
    rw [hp1.2, hdl, List.tail_cons]
    simp only [List.length_append, List.length_cons] at h2 h1 ⊢
    omega
  obtain ⟨self2, hn2, hp2⟩ := parse_quoted_string_loop_spec (name.dropWhile p) rest
    (self1.m_stream.length + 2) hlen [] self1 hp1
  obtain ⟨self3, hn3, hp3⟩ := assign_next_char_end self2 '"' rest hp2 hrest
  refine ⟨self3, ?_, hp3⟩
  have hn1' : assign_next_char default_skip_whitespace default_required self
      = outcome.ok () self1 := hn1
  simp only [parse_quoted_string, hn1', outcome.bind, hn2, hn3]
  rfl

theorem dropWhile_blank_readable (name : List Char) (h : readable_name name = true ∨ name = []) :
    (name.dropWhile fun c => decide (c = ' ' ∨ c = '\x0b' ∨ c = '\x0c')) = name := by
  rcases h with h | rfl
  · obtain ⟨c, s, rfl, h1, h2, h3⟩ := readable_name_cons name h
    simp [List.dropWhile_cons, h1, h2, h3]
  · rfl

theorem write_term_lines_some (write : aterm → List Char → Option (List Char))
    (hw : ∀ t os text, write t os = some text → text = os ++ term_text t) :
    ∀ (l : List aterm) (first : Bool) (os text : List Char),
      write_term_lines write first l os = some text →
      text = os ++ if first then List.intercalate [','] (term_texts l)
        else ((term_texts l).map fun e => ',' :: e).flatten := by
  intro l
  induction l with
  | nil =>
    intro first os text h
    simp only [write_term_lines, Option.some.injEq] at h
    subst h
    cases first <;> simp [term_texts, List.intercalate]
  | cons t rest ih =>
    intro first os text h
    unfold write_term_lines at h
    cases hwt : write t (if first = true then os else os ++ [',']) with
    | none => rw [hwt] at h; cases h
    | some os1 =>
      rw [hwt] at h
      have h1 := hw _ _ _ hwt
      have h2 := ih false os1 text h
      rw [h2, h1]
      cases first
      · simp [term_texts]
      · simp [term_texts, intercalate_cons_eq]

/-- Whatever the fuel, a text that `write_term_line` returns with the identity transform
is the stream followed by the text of the term. -/
theorem write_term_line_some :
    ∀ (fuel : Nat) (t : aterm) (os text : List Char),
      write_term_line identity fuel t os = some text → text = os ++ term_text t := by
  intro fuel
  induction fuel with
  | zero =>
    intro t os text h
    simp [write_term_line] at h
  | succ fuel ih =>
    intro t os text h
    cases t with
    | int value =>
      simp only [write_term_line, Option.some.injEq] at h
      rw [← h]
      rfl
    | list l =>
      simp only [write_term_line] at h
      cases h1 : write_term_lines (write_term_line identity fuel) true l (os ++ ['[']) with
      | none => rw [h1] at h; cases h
      | some os1 =>
        rw [h1] at h
        simp only [Option.some.injEq] at h
        have h2 := write_term_lines_some _ ih l true _ _ h1
        rw [← h, h2]
        simp [term_text]
    | appl name arguments =>
      simp only [write_term_line, identity] at h
      rw [write_string_with_escape_symbols_append] at h
      cases arguments with
      | nil =>
        simp only [Option.some.injEq] at h
        rw [← h]
        simp [term_text]
      | cons appl_0 appl_rest =>
        simp only [] at h
        cases h1 : write_term_line identity fuel appl_0
            (os ++ write_string_with_escape_symbols name [] ++ ['(']) with
        | none => rw [h1] at h; cases h
        | some os1 =>
          rw [h1] at h
          simp only [] at h
          cases h2 : write_term_lines (write_term_line identity fuel) false appl_rest os1 with
          | none => rw [h2] at h; cases h
          | some os2 =>
            rw [h2] at h
            simp only [Option.some.injEq] at h
            have h3 := ih _ _ _ h1
            have h4 := write_term_lines_some _ ih appl_rest false _ _ h2
            rw [← h, h4, h3]
            simp [term_text, term_texts, intercalate_cons_eq]

/-! ## No control character in a text, and spaces between double quotes only -/

theorem mem_intercalate_comma (x : Char) (texts : List (List Char))
    (h : x ∈ List.intercalate [','] texts) : x = ',' ∨ ∃ text ∈ texts, x ∈ text := by
  cases texts with
  | nil => simp [List.intercalate] at h
  | cons text texts =>
    rw [intercalate_cons_eq] at h
    simp only [List.mem_append, List.mem_flatten, List.mem_map] at h
    rcases h with h | ⟨l, ⟨e, he, rfl⟩, hx⟩
    · exact Or.inr ⟨text, List.mem_cons_self _ _, h⟩
    · rcases List.mem_cons.1 hx with rfl | hx
      · exact Or.inl rfl
      · exact Or.inr ⟨e, List.mem_cons_of_mem _ he, hx⟩

/-- A name that is written without quotes holds none of the special symbols. -/
theorem not_special_of_unquoted (s : List Char) (h : contains_special_symbols s = false) :
    ∀ x ∈ s, is_special_symbol x = false := by
  intro x hx
  by_contra hsp
  have hsp' : is_special_symbol x = true := by simpa using hsp
  have : quoting_rule s := by
    refine Or.inr ⟨x, hx, ?_⟩
    simpa [is_special_symbol] using hsp'
  rw [← contains_special_symbols_iff, h] at this
  cases this

theorem control_not_mem_escape (x : Char) (hx : x = '\n' ∨ x = '\t' ∨ x = '\r')
    (s : List Char) : x ∉ s.flatMap escape_symbol := by
  intro h
  obtain ⟨c, _, hc⟩ := List.mem_flatMap.1 h
  unfold escape_symbol at hc
  split_ifs at hc with h1 h2 h3 h4
  · simp only [List.mem_cons, List.mem_singleton, List.not_mem_nil, or_false] at hc
    rcases hc with rfl | rfl
    · revert hx; decide
    · rcases h1 with rfl | rfl <;> revert hx <;> decide
  · simp only [List.mem_cons, List.mem_singleton, List.not_mem_nil, or_false] at hc
    rcases hc with rfl | rfl <;> revert hx <;> decide
  · simp only [List.mem_cons, List.mem_singleton, List.not_mem_nil, or_false] at hc
    rcases hc with rfl | rfl <;> revert hx <;> decide
  · simp only [List.mem_cons, List.mem_singleton, List.not_mem_nil, or_false] at hc
    rcases hc with rfl | rfl <;> revert hx <;> decide
  · simp only [List.mem_singleton] at hc
    subst hc
    rcases hx with rfl | rfl | rfl
    · exact h2 rfl
    · exact h3 rfl
    · exact h4 rfl

theorem control_not_mem_write_string (x : Char) (hx : x = '\n' ∨ x = '\t' ∨ x = '\r')
    (s : List Char) : x ∉ write_string_with_escape_symbols s [] := by
  rw [write_string_with_escape_symbols_eq]
  split_ifs with h
  · simp only [List.nil_append, List.mem_append, List.mem_singleton, not_or]
    refine ⟨⟨?_, control_not_mem_escape x hx s⟩, ?_⟩ <;>
      (rintro rfl; revert hx; decide)
  · have h' : contains_special_symbols s = false := by simpa using h
    intro hm
    have := not_special_of_unquoted s h' x (by simpa using hm)
    rcases hx with rfl | rfl | rfl <;> revert this <;> decide

theorem control_not_mem_toDigits (x : Char) (hx : x = '\n' ∨ x = '\t' ∨ x = '\r') (n : Nat) :
    x ∉ Nat.toDigits 10 n := by
  intro h
  have := toDigits_all_digits n x h
  rcases hx with rfl | rfl | rfl <;> revert this <;> decide

/-- No newline, tab or carriage return in the text of a term. -/
theorem control_not_mem_term_text (x : Char) (hx : x = '\n' ∨ x = '\t' ∨ x = '\r') (n : Nat) :
    ∀ t : aterm, t.size ≤ n → x ∉ term_text t := by
  have hcomma : x ≠ ',' := by rintro rfl; revert hx; decide
  induction n with
  | zero =>
    intro t hn
    have := size_pos t
    omega
  | succ n ih =>
    have hlist : ∀ l : List aterm, aterm.sizeList l ≤ n →
        x ∉ List.intercalate [','] (term_texts l) := by
      intro l hl hm
      rcases mem_intercalate_comma x _ hm with h | ⟨text, htext, hxt⟩
      · exact hcomma h
      · rw [term_texts_eq_map] at htext
        obtain ⟨t, ht, rfl⟩ := List.mem_map.1 htext
        exact ih t (le_trans (size_le_sizeList l t ht) hl) hxt
    intro t hn
    cases t with
    | int value => exact control_not_mem_toDigits x hx value
    | list l =>
      simp only [aterm.size] at hn
      simp only [term_text, List.mem_append, List.mem_singleton, not_or]
      refine ⟨⟨?_, hlist l (by omega)⟩, ?_⟩ <;> (rintro rfl; revert hx; decide)
    | appl name l =>
      simp only [aterm.size] at hn
      simp only [term_text, List.mem_append, not_or]
      refine ⟨control_not_mem_write_string x hx name, ?_⟩
      split_ifs
      · simp only [List.mem_append, List.mem_singleton, not_or]
        refine ⟨⟨?_, hlist l (by omega)⟩, ?_⟩ <;> (rintro rfl; revert hx; decide)
      · simp

theorem outside_quotes_plain (a b : List Char) (ha : '"' ∉ a) :
    outside_quotes false false (a ++ b) = a ++ outside_quotes false false b := by
  induction a with
  | nil => rfl
  | cons c a ih =>
    have hc : c ≠ '"' := fun h => ha (by rw [h]; exact List.mem_cons_self _ _)
    have ha' : '"' ∉ a := fun h => ha (List.mem_cons_of_mem _ h)
    rw [List.cons_append, outside_quotes, if_neg hc, ih ha']
    rfl

/-- The escaped characters of a name and the closing double quote are between quotes. -/
theorem outside_quotes_quoted (s b : List Char) :
    outside_quotes true false (s.flatMap escape_symbol ++ '"' :: b)
      = outside_quotes false false b := by
  induction s with
  | nil => simp [outside_quotes]
  | cons c s ih =>
    simp only [List.flatMap_cons, escape_symbol]
    split_ifs with h1 h2 h3 h4
    · simp only [List.cons_append, List.nil_append, outside_quotes]
      simpa using ih
    · simp only [List.cons_append, List.nil_append, outside_quotes]
      simpa using ih
    · simp only [List.cons_append, List.nil_append, outside_quotes]
      simpa using ih
    · simp only [List.cons_append, List.nil_append, outside_quotes]
      simpa using ih
    · have hq : c ≠ '"' := fun h => h1 (Or.inr h)
      have hb : c ≠ '\\' := fun h => h1 (Or.inl h)
      simp only [List.cons_append, List.nil_append, outside_quotes, if_neg hq]
      simpa [hb] using ih

theorem space_outside_plain (a b : List Char) (h1 : '"' ∉ a) (h2 : ' ' ∉ a)
    (hb : ' ' ∉ outside_quotes false false b) : ' ' ∉ outside_quotes false false (a ++ b) := by
  rw [outside_quotes_plain a b h1]
  simp only [List.mem_append, not_or]
  exact ⟨h2, hb⟩

theorem space_outside_write_string (s b : List Char)
    (hb : ' ' ∉ outside_quotes false false b) :
    ' ' ∉ outside_quotes false false (write_string_with_escape_symbols s [] ++ b) := by
  rw [write_string_with_escape_symbols_eq]
  split_ifs with h
  · have e : [] ++ ['"'] ++ s.flatMap escape_symbol ++ ['"'] ++ b
        = '"' :: (s.flatMap escape_symbol ++ '"' :: b) := by simp
    rw [e, outside_quotes, if_pos rfl, outside_quotes_quoted]
    exact hb
  · have h' : contains_special_symbols s = false := by simpa using h
    have hs := not_special_of_unquoted s h'
    refine space_outside_plain _ b ?_ ?_ hb
    · intro hm
      have := hs _ (by simpa using hm)
      revert this
      decide
    · intro hm
      have := hs _ (by simpa using hm)
      revert this
      decide

theorem space_outside_elements (texts : List (List Char))
    (h : ∀ e ∈ texts, ∀ b, ' ' ∉ outside_quotes false false b →
      ' ' ∉ outside_quotes false false (e ++ b))
    (b : List Char) (hb : ' ' ∉ outside_quotes false false b) :
    ' ' ∉ outside_quotes false false (List.intercalate [','] texts ++ b) := by
  have hrest : ∀ texts : List (List Char),
      (∀ e ∈ texts, ∀ b, ' ' ∉ outside_quotes false false b →
        ' ' ∉ outside_quotes false false (e ++ b)) →
      ' ' ∉ outside_quotes false false ((texts.map fun e => ',' :: e).flatten ++ b) := by
    intro texts
    induction texts with
    | nil => intro _; simpa using hb
    | cons e texts ih =>
      intro he
      have h1 := he e (List.mem_cons_self _ _) _
        (ih (fun e' he' => he e' (List.mem_cons_of_mem _ he')))
      have e' : ((e :: texts).map fun e => ',' :: e).flatten ++ b
          = ',' :: (e ++ ((texts.map fun e => ',' :: e).flatten ++ b)) := by simp
      rw [e', outside_quotes, if_neg (by decide)]
      simp only [List.mem_cons, not_or]
      exact ⟨by decide, h1⟩
  cases texts with
  | nil => simpa [List.intercalate] using hb
  | cons e texts =>
    rw [intercalate_cons_eq, List.append_assoc]
    exact h e (List.mem_cons_self _ _) _
      (hrest texts (fun e' he' => h e' (List.mem_cons_of_mem _ he')))

/-- Outside the double quotes of its quoted names the text of a term holds no space. -/
theorem space_outside_term_text (n : Nat) :
    ∀ t : aterm, t.size ≤ n → ∀ b, ' ' ∉ outside_quotes false false b →
      ' ' ∉ outside_quotes false false (term_text t ++ b) := by
  induction n with
  | zero =>
    intro t hn
    have := size_pos t
    omega
  | succ n ih =>
    have hlist : ∀ l : List aterm, aterm.sizeList l ≤ n →
        ∀ b, ' ' ∉ outside_quotes false false b →
          ' ' ∉ outside_quotes false false (List.intercalate [','] (term_texts l) ++ b) := by
      intro l hl b hb
      refine space_outside_elements _ ?_ b hb
      intro e he
      rw [term_texts_eq_map] at he
      obtain ⟨t, ht, rfl⟩ := List.mem_map.1 he
      exact ih t (le_trans (size_le_sizeList l t ht) hl)
    have hclose : ∀ (d : Char) (b : List Char), d ≠ '"' → d ≠ ' ' →
        ' ' ∉ outside_quotes false false b → ' ' ∉ outside_quotes false false (d :: b) := by
      intro d b h1 h2 hb
      simp only [outside_quotes, if_neg h1, List.mem_cons, not_or]
      exact ⟨fun h => h2 h.symm, hb⟩
    intro t hn b hb
    cases t with
    | int value =>
      refine space_outside_plain _ b ?_ ?_ hb
      · intro hm
        have := toDigits_all_digits value _ hm
        revert this
        decide
      · intro hm
        have := toDigits_all_digits value _ hm
        revert this
        decide
    | list l =>
      simp only [aterm.size] at hn
      simp only [term_text, List.singleton_append, List.cons_append, List.append_assoc]
      refine hclose '[' _ (by decide) (by decide) ?_
      exact hlist l (by omega) _ (hclose ']' b (by decide) (by decide) hb)
    | appl name l =>
      simp only [aterm.size] at hn
      simp only [term_text, List.append_assoc]
      refine space_outside_write_string name _ ?_
      split_ifs
      · simp only [List.singleton_append, List.cons_append, List.append_assoc]
        refine hclose '(' _ (by decide) (by decide) ?_
        exact hlist l (by omega) _ (hclose ')' b (by decide) (by decide) hb)
      · simpa using hb

/-! ## The text of a term determines the term -/

theorem text_kind_term (t : aterm) (r : List Char) (hn : t.named = true) :
    text_kind (term_text t ++ r) = t.kind := by
  cases t with
  | int value =>
    obtain ⟨c, l, hcl⟩ := List.exists_cons_of_ne_nil (toDigits_ne_nil value)
    have hc : isdigit (some c) = true := toDigits_all_digits value c (by rw [hcl]; simp)
    simp only [term_text, hcl, List.cons_append, text_kind, hc, if_true, aterm.kind]
  | list l =>
    simp only [term_text, List.singleton_append, List.cons_append, aterm.kind]
    rfl
  | appl name l =>
    simp only [aterm.named, Bool.and_eq_true, Bool.not_eq_true', List.isEmpty_eq_false] at hn
    obtain ⟨c, s, rfl⟩ := List.exists_cons_of_ne_nil hn.1
    simp only [term_text, aterm.kind, write_string_with_escape_symbols_eq]
    by_cases h : contains_special_symbols (c :: s) = true
    · simp only [h, if_true, List.nil_append, List.singleton_append, List.cons_append]
      rfl
    · have h' : contains_special_symbols (c :: s) = false := by simpa using h
      obtain ⟨⟨⟨c', f', hcf, h1, h2, _⟩, _⟩, h3, h4, h5, h6, _⟩ :=
        unquoted_identifier_of_not_special c s h'
      simp only [List.cons.injEq] at hcf
      obtain ⟨rfl, _⟩ := hcf
      simp only [h', Bool.false_eq_true, if_false, List.nil_append, List.cons_append,
        text_kind, h2, h1, h3, h4, h5, h6, or_self]

theorem text_kind_delimited (r : List Char) (h : delimited r) : text_kind r = 4 := by
  rcases h with rfl | ⟨d, r', rfl, rfl | rfl | rfl⟩ <;> rfl

theorem kind_ne_four (t : aterm) : t.kind ≠ 4 := by
  cases t with
  | int value => simp [aterm.kind]
  | list l => simp [aterm.kind]
  | appl name l =>
    simp only [aterm.kind]
    split_ifs <;> simp

/-- A run of characters with a property, followed by a character without it, is found in
one way only. -/
theorem span_unique (p : Char → Bool) (a a' b b' : List Char)
    (ha : ∀ x ∈ a, p x = true) (ha' : ∀ x ∈ a', p x = true)
    (hb : ∀ d, b.head? = some d → p d = false) (hb' : ∀ d, b'.head? = some d → p d = false)
    (h : a ++ b = a' ++ b') : a = a' ∧ b = b' := by
  induction a generalizing a' with
  | nil =>
    cases a' with
    | nil => exact ⟨rfl, h⟩
    | cons c a'' =>
      have h1 := ha' c (List.mem_cons_self _ _)
      have h2 := hb c (by rw [List.nil_append] at h; rw [h]; rfl)
      rw [h1] at h2
      cases h2
  | cons c a ih =>
    cases a' with
    | nil =>
      have h1 := ha c (List.mem_cons_self _ _)
      have h2 := hb' c (by rw [List.nil_append] at h; rw [← h]; rfl)
      rw [h1] at h2
      cases h2
    | cons c' a'' =>
      simp only [List.cons_append, List.cons.injEq] at h
      obtain ⟨rfl, h⟩ := h
      obtain ⟨rfl, hbb⟩ := ih a'' (fun x hx => ha x (List.mem_cons_of_mem _ hx))
        (fun x hx => ha' x (List.mem_cons_of_mem _ hx)) h
      exact ⟨rfl, hbb⟩

theorem toDigits_injective (v w : Nat) (h : Nat.toDigits 10 v = Nat.toDigits 10 w) : v = w := by
  have h1 := atol_digits_toDigits v
  rw [h, atol_digits_toDigits] at h1
  exact_mod_cast h1.symm

/-- The escaped characters of a name up to the closing double quote are found in one way
only: `parse_quoted_string` reads them back. -/
theorem escape_unique (s1 s2 x1 x2 : List Char)
    (h : s1.flatMap escape_symbol ++ '"' :: x1 = s2.flatMap escape_symbol ++ '"' :: x2) :
    s1 = s2 ∧ x1 = x2 := by
  have hp1 : positioned
      (text_aterm_input.mk (s1.flatMap escape_symbol ++ '"' :: x1).tail
        (s1.flatMap escape_symbol ++ '"' :: x1).head? 0 0 [] 0)
      (s1.flatMap escape_symbol ++ '"' :: x1) := ⟨rfl, rfl⟩
  have hp2 := hp1
  rw [h] at hp2
  rw [← h] at hp2
  have hp2' : positioned
      (text_aterm_input.mk (s1.flatMap escape_symbol ++ '"' :: x1).tail
        (s1.flatMap escape_symbol ++ '"' :: x1).head? 0 0 [] 0)
      (s2.flatMap escape_symbol ++ '"' :: x2) := by rw [← h]; exact hp1
  obtain ⟨a, ha, hpa⟩ := parse_quoted_string_loop_spec s1 x1 (s1.length + s2.length + 1)
    (by omega) [] _ hp1
  obtain ⟨b, hb, hpb⟩ := parse_quoted_string_loop_spec s2 x2 (s1.length + s2.length + 1)
    (by omega) [] _ hp2'
  rw [ha] at hb
  simp only [List.nil_append, outcome.ok.injEq] at hb
  obtain ⟨hs, hab⟩ := hb
  refine ⟨hs, ?_⟩
  have h1 : a.m_stream = x1 := hpa.2
  have h2 : b.m_stream = x2 := hpb.2
  rw [← h1, ← h2, hab]

theorem named_of_mem (l : List aterm) (h : aterm.namedList l = true) :
    ∀ t ∈ l, t.named = true := by
  induction l with
  | nil => intro t ht; cases ht
  | cons u us ih =>
    simp only [aterm.namedList, Bool.and_eq_true] at h
    intro t ht
    rcases List.mem_cons.1 ht with rfl | ht
    · exact h.1
    · exact ih h.2 t ht

theorem delimited_elements (ts : List aterm) (r : List Char)
    (hr : ∃ d r', r = d :: r' ∧ (d = ')' ∨ d = ']')) :
    delimited (((term_texts ts).map fun e => ',' :: e).flatten ++ r) := by
  cases ts with
  | nil =>
    obtain ⟨d, r', rfl, hd⟩ := hr
    exact Or.inr ⟨d, r', rfl, Or.inr hd⟩
  | cons t ts =>
    exact Or.inr ⟨',', term_text t ++ (((term_texts ts).map fun e => ',' :: e).flatten ++ r),
      by simp [term_texts], Or.inl rfl⟩

/-- The elements behind the first one, each with its comma, up to the closing bracket. -/
theorem elements_unique (l1 : List aterm) (ih : ∀ t ∈ l1, canonical_text t) :
    ∀ (l2 : List aterm) (r1 r2 : List Char), aterm.namedList l1 = true →
      aterm.namedList l2 = true →
      (∃ d r', r1 = d :: r' ∧ (d = ')' ∨ d = ']')) →
      (∃ d r', r2 = d :: r' ∧ (d = ')' ∨ d = ']')) →
      ((term_texts l1).map fun e => ',' :: e).flatten ++ r1
        = ((term_texts l2).map fun e => ',' :: e).flatten ++ r2 →
      l1 = l2 ∧ r1 = r2 := by
  induction l1 with
  | nil =>
    intro l2 r1 r2 _ _ hr1 hr2 h
    cases l2 with
    | nil => exact ⟨rfl, by simpa [term_texts] using h⟩
    | cons t' ts' =>
      obtain ⟨d, r', rfl, hd⟩ := hr1
      simp only [term_texts, List.map_nil, List.flatten_nil, List.nil_append, List.map_cons,
        List.flatten_cons, List.cons_append, List.cons.injEq] at h
      rcases hd with rfl | rfl <;> exact absurd h.1 (by decide)
  | cons t ts ih2 =>
    intro l2 r1 r2 hn1 hn2 hr1 hr2 h
    cases l2 with
    | nil =>
      obtain ⟨d, r', rfl, hd⟩ := hr2
      simp only [term_texts, List.map_nil, List.flatten_nil, List.nil_append, List.map_cons,
        List.flatten_cons, List.cons_append, List.cons.injEq] at h
      rcases hd with rfl | rfl <;> exact absurd h.1 (by decide)
    | cons t' ts' =>
      simp only [aterm.namedList, Bool.and_eq_true] at hn1 hn2
      simp only [term_texts, List.map_cons, List.flatten_cons, List.cons_append,
        List.append_assoc, List.cons.injEq, true_and] at h
      obtain ⟨rfl, h'⟩ := ih t (List.mem_cons_self _ _) t' _ _ hn1.1 hn2.1
        (delimited_elements ts r1 hr1) (delimited_elements ts' r2 hr2) h
      obtain ⟨rfl, hr⟩ := ih2 (fun u hu => ih u (List.mem_cons_of_mem _ hu)) ts' r1 r2
        hn1.2 hn2.2 hr1 hr2 h'
      exact ⟨rfl, hr⟩

/-- The elements between brackets, up to the closing bracket. -/
theorem sequence_unique (l1 : List aterm) (ih : ∀ t ∈ l1, canonical_text t)
    (l2 : List aterm) (r1 r2 : List Char) (hn1 : aterm.namedList l1 = true)
    (hn2 : aterm.namedList l2 = true)
    (hr1 : ∃ d r', r1 = d :: r' ∧ (d = ')' ∨ d = ']'))
    (hr2 : ∃ d r', r2 = d :: r' ∧ (d = ')' ∨ d = ']'))
    (h : List.intercalate [','] (term_texts l1) ++ r1
      = List.intercalate [','] (term_texts l2) ++ r2) :
    l1 = l2 ∧ r1 = r2 := by
  have hd1 : delimited r1 := by
    obtain ⟨d, r', rfl, hd⟩ := hr1
    exact Or.inr ⟨d, r', rfl, Or.inr hd⟩
  have hd2 : delimited r2 := by
    obtain ⟨d, r', rfl, hd⟩ := hr2
    exact Or.inr ⟨d, r', rfl, Or.inr hd⟩
  cases l1 with
  | nil =>
    cases l2 with
    | nil => exact ⟨rfl, by simpa [term_texts, List.intercalate] using h⟩
    | cons t' ts' =>
      simp only [aterm.namedList, Bool.and_eq_true] at hn2
      have hk := congrArg text_kind h
      have e : List.intercalate [','] ([] : List (List Char)) = [] := rfl
      simp only [term_texts] at hk
      rw [intercalate_cons_eq, List.append_assoc, text_kind_term t' _ hn2.1, e,
        List.nil_append, text_kind_delimited r1 hd1] at hk
      exact absurd hk.symm (kind_ne_four t')
  | cons t ts =>
    simp only [aterm.namedList, Bool.and_eq_true] at hn1
    cases l2 with
    | nil =>
      have hk := congrArg text_kind h
      have e : List.intercalate [','] ([] : List (List Char)) = [] := rfl
      simp only [term_texts] at hk
      rw [intercalate_cons_eq, List.append_assoc, text_kind_term t _ hn1.1, e,
        List.nil_append, text_kind_delimited r2 hd2] at hk
      exact absurd hk (kind_ne_four t)
    | cons t' ts' =>
      simp only [aterm.namedList, Bool.and_eq_true] at hn2
      rw [term_texts, term_texts, intercalate_cons_eq, intercalate_cons_eq, List.append_assoc,
        List.append_assoc] at h
      obtain ⟨rfl, h'⟩ := ih t (List.mem_cons_self _ _) t' _ _ hn1.1 hn2.1
        (delimited_elements ts r1 hr1) (delimited_elements ts' r2 hr2) h
      obtain ⟨rfl, hr⟩ := elements_unique ts (fun u hu => ih u (List.mem_cons_of_mem _ hu))
        ts' r1 r2 hn1.2 hn2.2 hr1 hr2 h'
      exact ⟨rfl, hr⟩

/-- The arguments in parentheses behind a name, or their absence. -/
theorem arguments_unique (l1 : List aterm) (ih : ∀ t ∈ l1, canonical_text t)
    (l2 : List aterm) (r1 r2 : List Char) (hn1 : aterm.namedList l1 = true)
    (hn2 : aterm.namedList l2 = true) (hr1 : delimited r1) (hr2 : delimited r2)
    (h : (if l1.length > 0 then ['('] ++ List.intercalate [','] (term_texts l1) ++ [')']
        else []) ++ r1
      = (if l2.length > 0 then ['('] ++ List.intercalate [','] (term_texts l2) ++ [')']
        else []) ++ r2) :
    l1 = l2 ∧ r1 = r2 := by
  have hopen : ∀ r : List Char, delimited r → ∀ x, r ≠ '(' :: x := by
    intro r hr x hx
    rcases hr with rfl | ⟨d, r', rfl, hd⟩
    · cases hx
    · simp only [List.cons.injEq] at hx
      rcases hd with rfl | rfl | rfl <;> exact absurd hx.1 (by decide)
  cases l1 with
  | nil =>
    cases l2 with
    | nil => exact ⟨rfl, by simpa using h⟩
    | cons t' ts' =>
      simp only [List.length_nil, gt_iff_lt, lt_self_iff_false, if_false, List.nil_append,
        List.length_cons, Nat.zero_lt_succ, if_true, List.singleton_append, List.cons_append,
        List.append_assoc] at h
      exact absurd h (hopen r1 hr1 _)
  | cons t ts =>
    cases l2 with
    | nil =>
      simp only [List.length_nil, gt_iff_lt, lt_self_iff_false, if_false, List.nil_append,
        List.length_cons, Nat.zero_lt_succ, if_true, List.singleton_append, List.cons_append,
        List.append_assoc] at h
      exact absurd h.symm (hopen r2 hr2 _)
    | cons t' ts' =>
      simp only [List.length_cons, gt_iff_lt, Nat.zero_lt_succ, if_true, List.singleton_append,
        List.cons_append, List.append_assoc, List.cons.injEq, true_and] at h
      obtain ⟨hl, hr⟩ := sequence_unique (t :: ts) ih (t' :: ts') (')' :: r1) (')' :: r2)
        hn1 hn2 ⟨')', r1, rfl, Or.inl rfl⟩ ⟨')', r2, rfl, Or.inl rfl⟩ h
      simp only [List.cons.injEq, true_and] at hr
      exact ⟨hl, hr⟩

theorem arguments_head_special (l : List aterm) (r : List Char) (hr : delimited r) :
    ∀ d, ((if l.length > 0 then ['('] ++ List.intercalate [','] (term_texts l) ++ [')']
        else []) ++ r).head? = some d → (!is_special_symbol d) = false := by
  intro d hd
  split_ifs at hd
  · simp only [List.singleton_append, List.cons_append, List.head?_cons,
      Option.some.injEq] at hd
    subst hd
    rfl
  · rcases hr with rfl | ⟨d', r', rfl, h | h | h⟩
    · cases hd
    all_goals
      simp only [List.nil_append, List.head?_cons, Option.some.injEq] at hd
      subst hd
      subst h
      rfl

theorem delimited_head_no_digit (r : List Char) (hr : delimited r) :
    ∀ d, r.head? = some d → isdigit (some d) = false := by
  intro d hd
  rcases hr with rfl | ⟨d', r', rfl, h | h | h⟩
  · cases hd
  all_goals
    simp only [List.head?_cons, Option.some.injEq] at hd
    subst hd
    subst h
    rfl

/-- The text of a term without empty names, up to what may follow a term, determines the
term. -/
theorem canonical_text_holds (n : Nat) : ∀ t1 : aterm, t1.size ≤ n → canonical_text t1 := by
  induction n with
  | zero =>
    intro t1 hn
    have := size_pos t1
    omega
  | succ n ih =>
    have helems : ∀ l : List aterm, aterm.sizeList l ≤ n → ∀ t ∈ l, canonical_text t :=
      fun l hl t ht => ih t (le_trans (size_le_sizeList l t ht) hl)
    intro t1 hsize t2 r1 r2 hn1 hn2 hr1 hr2 h
    have hk : t1.kind = t2.kind := by
      rw [← text_kind_term t1 r1 hn1, h, text_kind_term t2 r2 hn2]
    cases t1 with
    | int v =>
      cases t2 with
      | int w =>
        simp only [term_text] at h
        obtain ⟨h1, h2⟩ := span_unique (fun c => isdigit (some c)) _ _ _ _
          (toDigits_all_digits v) (toDigits_all_digits w)
          (delimited_head_no_digit r1 hr1) (delimited_head_no_digit r2 hr2) h
        rw [toDigits_injective v w h1]
        exact ⟨rfl, h2⟩
      | list l2 => simp [aterm.kind] at hk
      | appl n2 l2 =>
        simp only [aterm.kind] at hk
        exact absurd hk (by split_ifs <;> decide)
    | list l1 =>
      cases t2 with
      | int w => simp [aterm.kind] at hk
      | list l2 =>
        simp only [aterm.size] at hsize
        simp only [aterm.named] at hn1 hn2
        simp only [term_text, List.singleton_append, List.cons_append, List.append_assoc,
          List.cons.injEq, true_and] at h
        obtain ⟨hl, hr⟩ := sequence_unique l1 (helems l1 (by omega)) l2
          (']' :: r1) (']' :: r2) hn1 hn2 ⟨']', r1, rfl, Or.inr rfl⟩ ⟨']', r2, rfl, Or.inr rfl⟩ h
        simp only [List.cons.injEq, true_and] at hr
        subst hl
        exact ⟨rfl, hr⟩
      | appl n2 l2 =>
        simp only [aterm.kind] at hk
        exact absurd hk (by split_ifs <;> decide)
    | appl n1 l1 =>
      cases t2 with
      | int w =>
        simp only [aterm.kind] at hk
        exact absurd hk (by split_ifs <;> decide)
      | list l2 =>
        simp only [aterm.kind] at hk
        exact absurd hk (by split_ifs <;> decide)
      | appl n2 l2 =>
        simp only [aterm.size] at hsize
        simp only [aterm.named, Bool.and_eq_true] at hn1 hn2
        simp only [term_text, write_string_with_escape_symbols_eq, List.append_assoc] at h
        simp only [aterm.kind] at hk
        by_cases hs1 : contains_special_symbols n1 = true
        · have hs2 : contains_special_symbols n2 = true := by
            by_contra hs2
            simp [hs1, hs2] at hk
          simp only [hs1, hs2, if_true, List.nil_append, List.singleton_append,
            List.cons_append, List.append_assoc, List.cons.injEq, true_and] at h
          obtain ⟨rfl, hrest⟩ := escape_unique n1 n2 _ _ h
          obtain ⟨rfl, hr⟩ := arguments_unique l1 (helems l1 (by omega)) l2 r1 r2 hn1.2 hn2.2
            hr1 hr2 (by simpa using hrest)
          exact ⟨rfl, hr⟩
        · have hs1' : contains_special_symbols n1 = false := by simpa using hs1
          have hs2' : contains_special_symbols n2 = false := by
            cases hs2 : contains_special_symbols n2
            · rfl
            · simp [hs1', hs2] at hk
          simp only [hs1', hs2', Bool.false_eq_true, if_false, List.nil_append] at h
          obtain ⟨rfl, hrest⟩ := span_unique (fun c => !is_special_symbol c) n1 n2 _ _
            (fun x hx => by simp [not_special_of_unquoted n1 hs1' x hx])
            (fun x hx => by simp [not_special_of_unquoted n2 hs2' x hx])
            (arguments_head_special l1 r1 hr1) (arguments_head_special l2 r2 hr2)
            (by simpa using h)
          obtain ⟨rfl, hr⟩ := arguments_unique l1 (helems l1 (by omega)) l2 r1 r2 hn1.2 hn2.2
            hr1 hr2 hrest
          exact ⟨rfl, hr⟩

/-- Two terms without empty names that have the same text are equal. -/
theorem term_text_injective (t1 t2 : aterm) (h1 : t1.named = true) (h2 : t2.named = true)
    (h : term_text t1 = term_text t2) : t1 = t2 :=
  (canonical_text_holds t1.size t1 (le_refl _) t2 [] [] h1 h2 (Or.inl rfl) (Or.inl rfl)
    (by rw [h])).1

/-! ## The claims C31 to C39 -/

/-- C31 (`remove_index_impl`): for an application node `x` with the symbol `DataVarId`
(respectively `OpId`) the result has the symbol `DataVarIdNoIndex` (respectively
`OpIdNoIndex`) and its children are the children of `x` without the last one, in the same
order; for every other symbol the result is `x` itself, also for a node with one of the
two names and another arity; `index_remover` does the same. -/
theorem remove_index_impl_result (x : aterm_appl) :
    (function x = function_symbol_DataVarId →
      function (remove_index_impl x) = function_symbol_DataVarIdNoIndex
      ∧ ∃ last, x.2 = (remove_index_impl x).2 ++ [last])
    ∧ (function x = function_symbol_OpId →
      function (remove_index_impl x) = function_symbol_OpIdNoIndex
      ∧ ∃ last, x.2 = (remove_index_impl x).2 ++ [last])
    ∧ (function x ≠ function_symbol_DataVarId → function x ≠ function_symbol_OpId →
      remove_index_impl x = x)
    ∧ index_remover x = remove_index_impl x
    ∧ remove_index_impl
        ("DataVarId".toList, [aterm.appl ['x'] [], aterm.appl ['S'] [], aterm.int 7])
      = ("DataVarIdNoIndex".toList, [aterm.appl ['x'] [], aterm.appl ['S'] []])
    ∧ remove_index_impl
        ("OpId".toList, [aterm.appl ['f'] [], aterm.appl ['S'] [], aterm.int 3])
      = ("OpIdNoIndex".toList, [aterm.appl ['f'] [], aterm.appl ['S'] []])
    ∧ remove_index_impl ("OpId".toList, [aterm.appl ['f'] [], aterm.appl ['S'] []])
      = ("OpId".toList, [aterm.appl ['f'] [], aterm.appl ['S'] []])
    ∧ remove_index_impl ("f".toList, [aterm.int 1, aterm.int 2, aterm.int 3])
      = ("f".toList, [aterm.int 1, aterm.int 2, aterm.int 3]) := by
  refine ⟨fun h => ?_, fun h => ?_, remove_index_impl_other x, index_remover_eq x,
    by rfl, by rfl, by rfl, by rfl⟩
  · obtain ⟨x_0, x_1, x_2, rfl⟩ := three_children x _ h rfl
    exact ⟨rfl, x_2, rfl⟩
  · obtain ⟨x_0, x_1, x_2, rfl⟩ := three_children x _ h rfl
    exact ⟨rfl, x_2, rfl⟩

/-- C32 (integer buffer, evaluation at literals of 31 and of 32 characters): the loop of
`parse_aterm_int` never leaves more than 32 characters in the buffer, so its own writes
are at the indices 0 to 31; for the literal of 32 digits `00000000000000000000000000000001`
it leaves all 32 of them, so the terminating NUL is written at index 32, behind the
buffer, and the behaviour is undefined, while the literal of 31 digits
`0000000000000000000000000000001` is read as the integer 1. -/
theorem integer_buffer_terminator :
    (∀ self number self', parse_aterm_int_number self = outcome.ok number self' →
      number.length ≤ 32)
    ∧ (∃ self self',
        text_aterm_input.init "00000000000000000000000000000001".toList 1 0 64
          = outcome.ok () self
        ∧ parse_aterm_int_number self
          = outcome.ok "00000000000000000000000000000001".toList self'
        ∧ "00000000000000000000000000000001".toList.length = 32
        ∧ parse_aterm_int self = outcome.undefined_behaviour)
    ∧ read_term_from_text_stream "00000000000000000000000000000001".toList 1 0 64
        = outcome.undefined_behaviour
    ∧ (read_term_from_text_stream "0000000000000000000000000000001".toList 1 0 64).value?
        = some (some (aterm.int 1))
    ∧ (∃ self self',
        text_aterm_input.init "0000000000000000000000000000001".toList 1 0 64
          = outcome.ok () self
        ∧ parse_aterm_int_number self
          = outcome.ok "0000000000000000000000000000001".toList self'
        ∧ "0000000000000000000000000000001".toList.length = 31) := by
  refine ⟨parse_aterm_int_number_length, ⟨_, _, by rfl, by rfl, by rfl, by rfl⟩, by rfl,
    by rfl, ⟨_, _, by rfl, by rfl, by rfl⟩⟩

/-- C33 (progress, evaluation at `)`, `]`, `,` and `a b`): on the input `)` the call of
`get` returns a term, the constant with the empty name, and leaves the lookahead, the
stream, the position and the history as they were, so every further call does the same
and reading term by term never reaches the "no term" value, whatever the number of calls;
the same holds for `]` and `,`, and for `a b` after the first call returned `a` and left
the space as lookahead.  The stream `f(a)`, newline, `g(b)`, newline is read with three
calls. -/
theorem no_progress_at_closing_bracket :
    (∃ self, text_aterm_input.init ")".toList 1 0 64 = outcome.ok () self
      ∧ self.character = some ')' ∧ self.m_stream = []
      ∧ self.get identity (self.m_stream.length + 1) = outcome.ok (some (aterm.appl [] [])) self
      ∧ ∀ calls, read_terms identity calls self = outcome.out_of_fuel)
    ∧ (∃ self, text_aterm_input.init "]".toList 1 0 64 = outcome.ok () self
      ∧ self.get identity (self.m_stream.length + 1) = outcome.ok (some (aterm.appl [] [])) self
      ∧ ∀ calls, read_terms identity calls self = outcome.out_of_fuel)
    ∧ (∃ self, text_aterm_input.init ",".toList 1 0 64 = outcome.ok () self
      ∧ self.get identity (self.m_stream.length + 1) = outcome.ok (some (aterm.appl [] [])) self
      ∧ ∀ calls, read_terms identity calls self = outcome.out_of_fuel)
    ∧ (∃ self self', text_aterm_input.init "a b".toList 1 0 64 = outcome.ok () self
      ∧ self.get identity (self.m_stream.length + 1)
          = outcome.ok (some (aterm.appl ['a'] [])) self'
      ∧ self'.character = some ' ' ∧ self'.m_stream = ['b']
      ∧ self'.get identity (self'.m_stream.length + 1)
          = outcome.ok (some (aterm.appl [] [])) self'
      ∧ ∀ calls, read_terms identity calls self = outcome.out_of_fuel)
    ∧ (∃ self, text_aterm_input.init "f(a)\ng(b)\n".toList 1 0 64 = outcome.ok () self
      ∧ (read_terms identity 3 self).value?
          = some [aterm.appl ['f'] [aterm.appl ['a'] []],
              aterm.appl ['g'] [aterm.appl ['b'] []]]) := by
  refine ⟨⟨_, by rfl, by rfl, by rfl, by rfl, read_terms_stuck _ _ _ (by rfl)⟩,
    ⟨_, by rfl, by rfl, read_terms_stuck _ _ _ (by rfl)⟩,
    ⟨_, by rfl, by rfl, read_terms_stuck _ _ _ (by rfl)⟩,
    ⟨_, _, by rfl, by rfl, by rfl, by rfl, by rfl,
      read_terms_after _ _ _ _ (by rfl) (read_terms_stuck _ _ _ (by rfl))⟩,
    ⟨_, by rfl, by rfl⟩⟩

/-- C34, as stated, fails on the code: the text `(a)` is read as the application of the
empty name to `a`, because `parse_unquoted_string` returns the empty string when the
lookahead is `(`, and the text of two double quotes is read as the constant with the
empty name: the parser returns terms with an application node whose name is empty. -/
theorem nameless_application :
    (read_term_from_text_stream "(a)".toList 1 0 64).value?
        = some (some (aterm.appl [] [aterm.appl ['a'] []]))
    ∧ (aterm.appl [] [aterm.appl ['a'] []]).named = false
    ∧ (read_term_from_text_stream "\"\"".toList 1 0 64).value? = some (some (aterm.appl [] []))
    ∧ (aterm.appl [] []).named = false
    ∧ (∃ self, text_aterm_input.init "(a)".toList 1 0 64 = outcome.ok () self
        ∧ parse_unquoted_string self = outcome.ok [] self) := by
  refine ⟨by rfl, by rfl, by rfl, by rfl, ⟨_, by rfl, by rfl⟩⟩

/-- C34, amended (well-formed symbols): when `parse_aterm` (identity transform) returns an
application node and the lookahead at its start is none of the characters that end an
unquoted name (double quote, `(`, `)`, `]`, comma, space, newline, tab, carriage return),
the function-symbol name of the node is not empty and starts with that lookahead; with
`(` as lookahead the guard of `parse_unquoted_string` returns the empty string and the
node is the application of the empty name to the arguments in the parentheses; with a
double quote as lookahead the name is the string that `parse_quoted_string` returns. -/
theorem application_names (fuel : Nat) (self : text_aterm_input) (c : Char)
    (hch : self.character = some c) (hc : ends_unquoted_string c = false)
    (t : aterm) (self' : text_aterm_input)
    (h : parse_aterm identity fuel self = outcome.ok t self') :
    (∀ name arguments, t = aterm.appl name arguments → name ≠ [] ∧ name.head? = some c)
    ∧ (∀ (fuel : Nat) (other : text_aterm_input), other.character = some '(' →
        parse_unquoted_string other = outcome.ok [] other
        ∧ parse_aterm identity (fuel + 1) other
          = (parse_aterm_list (parse_aterm identity fuel) fuel other '(' ')').bind
              fun arguments self => outcome.ok (aterm.appl [] arguments) self)
    ∧ (∀ (fuel : Nat) (other : text_aterm_input), other.character = some '"' →
        parse_aterm identity (fuel + 1) other
          = (parse_quoted_string other).bind fun function_name self =>
              (parse_aterm_list (parse_aterm identity fuel) fuel self '(' ')').bind
                fun arguments self => outcome.ok (aterm.appl function_name arguments) self) := by
  refine ⟨fun name arguments ht => ?_, fun fuel other ho => parse_aterm_nameless fuel other ho,
    fun fuel other ho => parse_aterm_quoted_identity fuel other ho⟩
  have hhead := parse_aterm_name_head fuel self c hch hc t self' h name arguments ht
  refine ⟨?_, hhead⟩
  rintro rfl
  cases hhead

theorem application_names_witness :
    (∀ name arguments,
        aterm.appl ['f'] [aterm.appl ['b'] []] = aterm.appl name arguments →
        name ≠ [] ∧ name.head? = some 'f')
    ∧ (∀ (fuel : Nat) (other : text_aterm_input), other.character = some '(' →
        parse_unquoted_string other = outcome.ok [] other
        ∧ parse_aterm identity (fuel + 1) other
          = (parse_aterm_list (parse_aterm identity fuel) fuel other '(' ')').bind
              fun arguments self => outcome.ok (aterm.appl [] arguments) self)
    ∧ (∀ (fuel : Nat) (other : text_aterm_input), other.character = some '"' →
        parse_aterm identity (fuel + 1) other
          = (parse_quoted_string other).bind fun function_name self =>
              (parse_aterm_list (parse_aterm identity fuel) fuel self '(' ')').bind
                fun arguments self => outcome.ok (aterm.appl function_name arguments) self) :=
  application_names 4 (text_aterm_input.mk "(b)".toList (some 'f') 1 1 ['f'] 64) 'f' rfl
    (by decide) (aterm.appl ['f'] [aterm.appl ['b'] []])
    (text_aterm_input.mk [] none 1 4 "f(b)".toList 64) (by rfl)

/-- C35 (restricted round trip): for every term in which every symbol name is non-empty
and does not start with a space, a vertical tab or a form feed, and every integer value is
below `2 ^ 63`, `write_term_line` with the identity transform (and fuel for every node)
writes a text from which `read_term_from_string`, with the identity transform, returns a
term equal to the term written; no error is raised, the whole text is read, and the next
call of `get` returns the "no term" value. -/
theorem restricted_round_trip (t : aterm) (ht : t.readable = true) (fuel : Nat)
    (hfuel : t.size ≤ fuel) (m_line m_column m_history_limit : Nat) :
    ∃ text, write_term_line identity fuel t [] = some text
      ∧ ∃ self', read_term_from_string text m_line m_column m_history_limit
          = outcome.ok (some t) self'
        ∧ self'.character = none ∧ self'.m_stream = []
        ∧ ∀ fuel', (self'.get identity fuel').value? = some none := by
  refine ⟨term_text t, by simpa using write_term_line_identity fuel t hfuel [], ?_⟩
  obtain ⟨self', h1, h2, h3⟩ := read_term_text_end t ht [] (Or.inl rfl) m_line m_column
    m_history_limit
  refine ⟨self', by simpa [read_term_from_string] using h1, h2, h3, fun fuel' => ?_⟩
  rw [get_at_end identity fuel' self' h2]
  rfl

theorem restricted_round_trip_witness :
    (aterm.appl ['f'] [aterm.int 12, aterm.list [aterm.appl "a b".toList []]]).readable = true
    ∧ ∃ text,
      write_term_line identity 4
          (aterm.appl ['f'] [aterm.int 12, aterm.list [aterm.appl "a b".toList []]]) []
        = some text
      ∧ ∃ self', read_term_from_string text 1 0 64
          = outcome.ok
              (some (aterm.appl ['f'] [aterm.int 12, aterm.list [aterm.appl "a b".toList []]]))
              self'
        ∧ self'.character = none ∧ self'.m_stream = []
        ∧ ∀ fuel', (self'.get identity fuel').value? = some none :=
  ⟨by decide, restricted_round_trip _ (by decide) 4 (by decide) 1 0 64⟩

/-- C36 (the written text is canonical): for all terms `t1` and `t2` in which every
symbol name is non-empty, if `write_term_line` with the identity transform produces the
same text for `t1` and for `t2`, then `t1` equals `t2`. -/
theorem written_text_canonical (t1 t2 : aterm) (h1 : t1.named = true) (h2 : t2.named = true)
    (fuel1 fuel2 : Nat) (text : List Char)
    (hw1 : write_term_line identity fuel1 t1 [] = some text)
    (hw2 : write_term_line identity fuel2 t2 [] = some text) : t1 = t2 := by
  have e1 := write_term_line_some fuel1 t1 [] text hw1
  have e2 := write_term_line_some fuel2 t2 [] text hw2
  exact term_text_injective t1 t2 h1 h2 (by simpa using e1.symm.trans e2)

theorem written_text_canonical_witness :
    (aterm.appl ['f'] [aterm.int 1, aterm.list [aterm.appl "a b".toList []]]).named = true
    ∧ write_term_line identity 4
        (aterm.appl ['f'] [aterm.int 1, aterm.list [aterm.appl "a b".toList []]]) []
      = some "f(1,[\"a b\"])".toList
    ∧ write_term_line identity 7
        (aterm.appl "f".toList [aterm.int 1, aterm.list [aterm.appl ['a', ' ', 'b'] []]]) []
      = some "f(1,[\"a b\"])".toList
    ∧ aterm.appl ['f'] [aterm.int 1, aterm.list [aterm.appl "a b".toList []]]
      = aterm.appl "f".toList [aterm.int 1, aterm.list [aterm.appl ['a', ' ', 'b'] []]] :=
  ⟨by rfl, by rfl, by rfl,
    written_text_canonical _ _ (by rfl) (by rfl) 4 7 "f(1,[\"a b\"])".toList (by rfl) (by rfl)⟩

/-- C37 (one term per line): for every term, the text that `write_term_line` with the
identity transform produces holds no newline, no tab and no carriage return, and outside
the double quotes of its quoted names it holds no space; so with the newline option on,
`operator<<` appends that text and one newline, the record terminator, which is the only
newline written. -/
theorem one_term_per_line (fuel : Nat) (t : aterm) (text : List Char)
    (h : write_term_line identity fuel t [] = some text) :
    '\n' ∉ text ∧ '\t' ∉ text ∧ '\r' ∉ text
    ∧ ' ' ∉ outside_quotes false false text
    ∧ (∀ os : List Char,
        text_aterm_output.write identity fuel (text_aterm_output.mk os true) t
          = some (text_aterm_output.mk (os ++ text ++ ['\n']) true))
    ∧ (text ++ ['\n']).count '\n' = 1
    ∧ (text ++ ['\n']).getLast? = some '\n' := by
  have htext : text = term_text t := by
    simpa using write_term_line_some fuel t [] text h
  have hn : '\n' ∉ text := by
    rw [htext]
    exact control_not_mem_term_text '\n' (Or.inl rfl) t.size t (le_refl _)
  refine ⟨hn, ?_, ?_, ?_, fun os => ?_, ?_, by simp⟩
  · rw [htext]
    exact control_not_mem_term_text '\t' (Or.inr (Or.inl rfl)) t.size t (le_refl _)
  · rw [htext]
    exact control_not_mem_term_text '\r' (Or.inr (Or.inr rfl)) t.size t (le_refl _)
  · have := space_outside_term_text t.size t (le_refl _) [] (by simp [outside_quotes])
    rw [htext]
    simpa using this
  · unfold text_aterm_output.write
    rw [write_term_line_append, h]
    simp
  · rw [List.count_append, List.count_eq_zero_of_not_mem hn]
    rfl

theorem one_term_per_line_witness :
    outside_quotes false false "\"a b\"(1,[c])".toList = "(1,[c])".toList
    ∧ '\n' ∉ "\"a b\"(1,[c])".toList ∧ '\t' ∉ "\"a b\"(1,[c])".toList
    ∧ '\r' ∉ "\"a b\"(1,[c])".toList
    ∧ ' ' ∉ outside_quotes false false "\"a b\"(1,[c])".toList
    ∧ (∀ os : List Char,
        text_aterm_output.write identity 4 (text_aterm_output.mk os true)
            (aterm.appl "a b".toList [aterm.int 1, aterm.list [aterm.appl ['c'] []]])
          = some (text_aterm_output.mk (os ++ "\"a b\"(1,[c])".toList ++ ['\n']) true))
    ∧ ("\"a b\"(1,[c])".toList ++ ['\n']).count '\n' = 1
    ∧ ("\"a b\"(1,[c])".toList ++ ['\n']).getLast? = some '\n' :=
  ⟨by rfl, one_term_per_line 4
    (aterm.appl "a b".toList [aterm.int 1, aterm.list [aterm.appl ['c'] []]])
    "\"a b\"(1,[c])".toList (by rfl)⟩

/-- C39 (short-circuit conjunction of tribools): for all functions `a` and `b` the
function-valued `operator&&` returns the boolean that `operator&&` on tribools gives for
the values of `a()` and of `b(a() == no)`; when `a()` is `yes` it returns true with the
state that `a` left, whatever `b` is, so `b` is not called; otherwise `b` is called once,
after `a`; when `a()` is `no` the result is true exactly when the value of `b` is `yes`,
so `no` and `maybe` from `b` give the same result, and `accords_data` with `needs_yes`,
which returns `no` without testing for `maybe`, gives the result of the full test. -/
theorem short_circuit_conjunction {state data_expression : Type}
    (a : state → tribool × state) (b : Bool → state → tribool × state) (s : state)
    (is_true : data_expression → Bool)
    (yes_condition : data_expression → data_expression)
    (condition : data_expression → data_expression → data_expression)
    (affect_set : Bool) (make_antecedent make_consequent : Unit → data_expression) :
    (operator_and_functions a b s).1
      = operator_and (a s).1 (b (decide ((a s).1 = tribool.no)) (a s).2).1
    ∧ ((a s).1 = tribool.yes →
        ∀ b' : Bool → state → tribool × state, operator_and_functions a b' s = (true, (a s).2))
    ∧ ((a s).1 ≠ tribool.yes →
        (operator_and_functions a b s).2 = (b (decide ((a s).1 = tribool.no)) (a s).2).2)
    ∧ ((a s).1 = tribool.no →
        ((operator_and_functions a b s).1 = true ↔ (b true (a s).2).1 = tribool.yes))
    ∧ (∀ x, operator_and tribool.no x = decide (x = tribool.yes))
    ∧ operator_and tribool.no tribool.no = operator_and tribool.no tribool.maybe
    ∧ operator_and tribool.no
        (accords_data is_true yes_condition condition affect_set true make_antecedent
          make_consequent)
      = operator_and tribool.no
        (accords_data is_true yes_condition condition false false make_antecedent
          make_consequent)
    ∧ operator_and_functions (fun n : Nat => (tribool.yes, n))
        (fun _ n => (tribool.no, n + 1)) 0 = (true, 0)
    ∧ operator_and_functions (fun n : Nat => (tribool.maybe, n))
        (fun needs_yes n => (if needs_yes then tribool.no else tribool.maybe, n + 1)) 0
      = (true, 1)
    ∧ operator_and_functions (fun n : Nat => (tribool.no, n))
        (fun needs_yes n => (if needs_yes then tribool.no else tribool.maybe, n + 1)) 0
      = (false, 1) := by
  refine ⟨operator_and_functions_value a b s,
    fun h b' => operator_and_functions_yes a b' s h,
    fun h => by rw [operator_and_functions_not_yes a b s h],
    fun h => ?_, operator_and_no, by rfl, ?_, by rfl, by rfl, by rfl⟩
  · rw [operator_and_functions_value, h, operator_and_no]
    simp
  · rw [operator_and_no, operator_and_no, accords_data_needs_yes, accords_data_exact]
    cases is_true (yes_condition (make_antecedent ())) <;>
      cases is_true (condition (make_antecedent ()) (make_consequent ())) <;> rfl

/-! ## Quoted names with blanks behind the opening double quote -/

/-- Reading an application with a quoted name, whatever the name: the symbol is the name
without the blanks at its beginning, which `parse_quoted_string` skips. -/
theorem parse_aterm_quoted_any (fuel : Nat) (name : List Char)
    (es : List (List Char)) (ts : List aterm)
    (h : List.Forall₂ (reads_as (parse_aterm identity fuel)) es ts) (hfuel : es.length ≤ fuel)
    (rest : List Char) (hrest : delimited rest ∨ rest = ['\n'])
    (self : text_aterm_input)
    (hp : positioned self ('"' :: (name.flatMap escape_symbol ++ '"' ::
        ((if ts.length > 0 then ['('] ++ List.intercalate [','] es ++ [')'] else [])
          ++ rest)))) :
    ∃ self', parse_aterm identity (fuel + 1) self
        = outcome.ok (aterm.appl
            (name.dropWhile fun c => decide (c = ' ' ∨ c = '\x0b' ∨ c = '\x0c')) ts) self'
      ∧ positioned self' (after_token rest) := by
  have hns : no_space_ahead ((if ts.length > 0
      then ['('] ++ List.intercalate [','] es ++ [')'] else []) ++ rest)
      ∨ (if ts.length > 0
      then ['('] ++ List.intercalate [','] es ++ [')'] else []) ++ rest = ['\n'] := by
    by_cases hl : ts.length > 0
    · simp only [hl, if_true]
      left
      intro d hd
      simp only [List.cons_append, List.singleton_append, List.head?_cons,
        Option.some.injEq] at hd
      subst hd
      decide
    · simp only [hl, if_false, List.nil_append]
      exact token_end_of_term_end rest hrest
  obtain ⟨self1, hn1, hp1⟩ := parse_quoted_string_any name _ hns self hp
  obtain ⟨self2, hn2, hp2⟩ := parse_aterm_appl_texts (parse_aterm identity fuel)
    es ts h rest hrest fuel hfuel
    (name.dropWhile fun c => decide (c = ' ' ∨ c = '\x0b' ∨ c = '\x0c')) self1 hp1
  refine ⟨self2, ?_, hp2⟩
  rw [parse_aterm_quoted identity fuel self hp.1, hn1]
  simp only [outcome.bind, hn2]

/-! ## The claim C11, on every quoted name -/

/-- C11 (quoted names, evaluation at `" a"(1)`): with a double quote as lookahead the
result is never an integer or a list but an application with the parenthesised arguments
as children, yet its symbol is not always the unescaped content of the quoted string.  The
text `" a"(1)` is read as the application of the name `a`, not of the name that consists
of a space and `a`, and a raw newline between the quotes is read as the character 255.
For every name, escaped as the writer escapes it and followed by the texts of `n`
arguments in parentheses (by nothing when `n = 0`), the symbol is the name without the
spaces, vertical tabs and form feeds at its beginning: the name itself when it is empty or
starts with another character, also with a digit, `-` or `[`.  The text `"a b"(1)` yields
the name `a b` with the integer child 1 and is written back as `"a b"(1)`. -/
theorem quoted_names_any_name :
    (read_term_from_text_stream "\" a\"(1)".toList 1 0 64).value?
        = some (some (aterm.appl ['a'] [aterm.int 1]))
    ∧ (aterm.appl ['a'] [aterm.int 1] ≠ aterm.appl [' ', 'a'] [aterm.int 1])
    ∧ (read_term_from_text_stream "\"a\nb\"(1)".toList 1 0 64).value?
        = some (some (aterm.appl ['a', Char.ofNat 255, 'b'] [aterm.int 1]))
    ∧ (∀ (fuel : Nat) (name : List Char) (es : List (List Char)) (ts : List aterm)
        (rest : List Char) (self : text_aterm_input),
        List.Forall₂ (reads_as (parse_aterm identity fuel)) es ts → es.length ≤ fuel →
        (delimited rest ∨ rest = ['\n']) →
        positioned self ('"' :: (name.flatMap escape_symbol ++ '"' ::
          ((if ts.length > 0 then ['('] ++ List.intercalate [','] es ++ [')'] else [])
            ++ rest))) →
        parse_aterm identity (fuel + 1) self
          = ((parse_quoted_string self).bind fun function_name self =>
              (parse_aterm_list (parse_aterm identity fuel) fuel self '(' ')').bind
                fun arguments self => outcome.ok (aterm.appl function_name arguments) self)
        ∧ (∃ self', parse_aterm identity (fuel + 1) self
              = outcome.ok (aterm.appl
                  (name.dropWhile fun c => decide (c = ' ' ∨ c = '\x0b' ∨ c = '\x0c')) ts) self'
            ∧ positioned self' (after_token rest))
        ∧ ts.length = es.length)
    ∧ (∀ name : List Char, readable_name name = true ∨ name = [] →
        (name.dropWhile fun c => decide (c = ' ' ∨ c = '\x0b' ∨ c = '\x0c')) = name)
    ∧ (read_term_from_text_stream "\"a b\"(1)".toList 1 0 64).value?
        = some (some (aterm.appl "a b".toList [aterm.int 1]))
    ∧ write_term_line identity 2 (aterm.appl "a b".toList [aterm.int 1]) []
        = some "\"a b\"(1)".toList
    ∧ (read_term_from_text_stream "\"1\"".toList 1 0 64).value?
        = some (some (aterm.appl ['1'] []))
    ∧ (read_term_from_text_stream "\"-5\"".toList 1 0 64).value?
        = some (some (aterm.appl ['-', '5'] []))
    ∧ (read_term_from_text_stream "\"[a]\"".toList 1 0 64).value?
        = some (some (aterm.appl ['[', 'a', ']'] [])) := by
  refine ⟨by rfl, by decide, by rfl, fun fuel name es ts rest self h hfuel hrest hp =>
      ⟨parse_aterm_quoted_identity fuel self hp.1,
        parse_aterm_quoted_any fuel name es ts h hfuel rest hrest self hp, h.length_eq.symm⟩,
    dropWhile_blank_readable, by rfl, by rfl, by rfl, by rfl, by rfl⟩

end atermpp
